import Mathlib

/-!
# uniqueIPs: external sort and count of distinct lines

A shallow embedding of `main.go`: `splitFile` cuts the input into sorted chunk
files, `mergeChunks` performs the k-way merge over them and counts the
distinct lines.

Modelling conventions.

* A Go `string` is modelled by the list of its bytes.  A byte is a natural
  number below 256; nothing in the model depends on that bound.  Go's `<` on
  strings is the lexicographic order on these lists.
* A file is its name, its content, and the error (if any) with which reads of
  it end after the content has been delivered.  The name identifies the file:
  two paths denote the same file exactly when they are equal.
* The scanner of `splitFile` is modelled with its buffer and its read offset
  (`FileScanner`), following `bufio.Scanner.Scan` with the split function
  `bufio.ScanLines` and the default buffer: `writeChunk` creates its chunk
  file while that scanner is reading, and when the chunk file has the name of
  the input, the content of the input is replaced under the scanner.  A read
  returns as many bytes as the buffer has room for, or all bytes that are left.
* The scanners of `mergeChunks` read files to which nobody writes any more.
  Such a scanner is modelled by the tokens it still has to deliver and by what
  `Err()` reports afterwards (`Scanner`, `scanLines`, `scanErr`); the scanner
  of `splitFile` delivers the same tokens and reports the same error when the
  input is none of the chunk files (`splitFile_eq`).  A scanner stops with
  `bufio.ErrTooLong` at a line that does not fit, with its newline, into the
  largest buffer of 64 KiB.
* `os.Open`, `os.Create` and the buffered writes are taken to succeed, so the
  error returns of those calls are not part of the model.
* The loops of `Scan`, of `splitFile` and of `mergeChunks` are run with
  explicit fuel; the theorems show that the fuel chosen always suffices.
-/

namespace UniqueIPs

/-- A byte of a file or of a Go string. -/
abbrev Byte := Nat

/-- A Go string, as the sequence of its bytes. -/
abbrev Line := List Byte

/-- An error other than `io.EOF`: a failed read of a file, or `bufio.ErrTooLong`. -/
inductive IOError where
  | readFault
  | tooLong
deriving DecidableEq, Repr

/-- A file on disk: `fault = none` means that reading it ends with `io.EOF`,
`fault = some e` that reading ends with the error `e` once `data` has been
delivered. -/
structure File where
  name : String
  data : List Byte
  fault : Option IOError
deriving DecidableEq, Repr

/-! ## Library functions used by the program -/

/-- The UTF-8 encodings of the runes for which Go's `unicode.IsSpace` holds:
U+0009 to U+000D, U+0020, U+0085, U+00A0, U+1680, U+2000 to U+200A, U+2028,
U+2029, U+202F, U+205F and U+3000. -/
def spaceEncodings : List (List Byte) :=
  [[0x09], [0x0A], [0x0B], [0x0C], [0x0D], [0x20], [0xC2, 0x85], [0xC2, 0xA0],
   [0xE1, 0x9A, 0x80], [0xE2, 0x80, 0x80], [0xE2, 0x80, 0x81], [0xE2, 0x80, 0x82],
   [0xE2, 0x80, 0x83], [0xE2, 0x80, 0x84], [0xE2, 0x80, 0x85], [0xE2, 0x80, 0x86],
   [0xE2, 0x80, 0x87], [0xE2, 0x80, 0x88], [0xE2, 0x80, 0x89], [0xE2, 0x80, 0x8A],
   [0xE2, 0x80, 0xA8], [0xE2, 0x80, 0xA9], [0xE2, 0x80, 0xAF], [0xE2, 0x81, 0x9F],
   [0xE3, 0x80, 0x80]]

/-- The rest of `s` after the element of `pats` that `s` starts with, if there is one. -/
def stripOne (pats : List (List Byte)) (s : List Byte) : Option (List Byte) :=
  (pats.find? (fun p => p.isPrefixOf s)).map (fun p => s.drop p.length)

/-- Leading elements of `pats` are removed from `s`, at most `fuel` times. -/
def stripAll (pats : List (List Byte)) : Nat → List Byte → List Byte
  | 0, s => s
  | fuel + 1, s =>
    match stripOne pats s with
    | some rest => stripAll pats fuel rest
    | none => s

/-- Go's `strings.TrimLeftFunc(s, unicode.IsSpace)`: the string from its first
rune that is not white space; a white space rune is decoded at the start of a
string exactly when the string starts with the encoding of that rune. -/
def trimLeft (s : Line) : Line :=
  stripAll spaceEncodings s.length s

/-- Go's `strings.TrimRightFunc(s, unicode.IsSpace)`: the string up to its last
rune that is not white space; a white space rune is decoded at the end of a
string exactly when the string ends with the encoding of that rune. -/
def trimRight (s : Line) : Line :=
  (stripAll (spaceEncodings.map List.reverse) s.length s.reverse).reverse

/-- Go's `strings.TrimSpace`: leading and trailing white space removed. -/
def trimSpace (s : Line) : Line :=
  trimRight (trimLeft s)

/-- The helper `dropCR` of `bufio.ScanLines`: one trailing carriage return is removed. -/
def dropCR (data : List Byte) : List Byte :=
  if data.getLast? = some 13 then data.dropLast else data

/-- Go's `bufio.MaxScanTokenSize`, the size in bytes of the largest buffer of a scanner. -/
def maxScanTokenSize : Nat :=
  64 * 1024

/-- The length in bytes of a Go string. -/
def byteLen (s : List Byte) : Nat :=
  s.length

/-- The tokens that a scanner with `bufio.ScanLines` delivers over `data`, with
`cur` the part of the current line already read: a line ends at each newline,
a final line without newline is delivered when it is not empty, and the scan
stops at a line of `maxScanTokenSize` bytes or more, which fills the buffer
before its end is found. -/
def scanLines : List Byte → List Byte → List Line
  | cur, [] =>
    if cur = [] then []
    else if maxScanTokenSize ≤ byteLen cur then []
    else [dropCR cur]
  | cur, c :: rest =>
    if c = 10 then
      if maxScanTokenSize ≤ byteLen cur then [] else dropCR cur :: scanLines [] rest
    else scanLines (cur ++ [c]) rest

/-- The error with which the scan of `scanLines` ends: `bufio.ErrTooLong` at a
line that does not fit into the buffer, else the error `fault` of the reads. -/
def scanErr (fault : Option IOError) : List Byte → List Byte → Option IOError
  | cur, [] =>
    if cur = [] then fault
    else if maxScanTokenSize ≤ byteLen cur then some IOError.tooLong
    else fault
  | cur, c :: rest =>
    if c = 10 then
      if maxScanTokenSize ≤ byteLen cur then some IOError.tooLong else scanErr fault [] rest
    else scanErr fault (cur ++ [c]) rest

/-- A `bufio.Scanner`: the tokens still to be delivered and the value of `Err()`. -/
structure Scanner where
  pending : List Line
  err : Option IOError
deriving DecidableEq, Repr

/-- The call `bufio.NewScanner(file)`. -/
def NewScanner (file : File) : Scanner :=
  { pending := scanLines [] file.data, err := scanErr file.fault [] file.data }

/-- The call `scanner.Scan()` followed by `scanner.Text()`: `none` when `Scan` returns false. -/
def Scanner.Scan (s : Scanner) : Option (Line × Scanner) :=
  match s.pending with
  | [] => none
  | text :: rest => some (text, { s with pending := rest })

/-- Go's `sort.Strings`: the ascending rearrangement of `lines`. -/
def sortStrings (lines : List Line) : List Line :=
  lines.insertionSort (· ≤ ·)

/-! ## `writeChunk` and `splitFile` -/

/-- The name `fmt.Sprintf("chunk_%d.txt", idx)`. -/
def chunkFileName (idx : Nat) : String :=
  "chunk_" ++ toString idx ++ ".txt"

/-- The function `writeChunk`: the lines are sorted and written one per line. -/
def writeChunk (lines : List Line) (idx : Nat) : File :=
  { name := chunkFileName idx
    data := ((sortStrings lines).map (fun line => line ++ [10])).flatten
    fault := none }

/-- The variables `chunkFiles`, `buffer` and `chunkIdx` of the loop of `splitFile`. -/
structure PartState where
  chunkFiles : List File
  buffer : List Line
  chunkIdx : Nat
deriving DecidableEq, Repr

/-- The loop of `splitFile` over a fixed list of scanned lines: what the loop
computes when its scanner delivers exactly these lines. -/
def partLoop (chunkSize : Nat) : List Line → PartState → PartState
  | [], s => s
  | text :: rest, s =>
    let buffer := s.buffer ++ [trimSpace text]
    if buffer.length ≥ chunkSize then
      partLoop chunkSize rest
        { chunkFiles := s.chunkFiles ++ [writeChunk buffer s.chunkIdx]
          buffer := []
          chunkIdx := s.chunkIdx + 1 }
    else
      partLoop chunkSize rest { s with buffer := buffer }

/-- The final flush of `splitFile`: the chunk files written in all. -/
def finalFlush (s : PartState) : List File :=
  if s.buffer.length > 0 then s.chunkFiles ++ [writeChunk s.buffer s.chunkIdx]
  else s.chunkFiles

/-- The chunk files that `splitFile` writes when its scanner delivers exactly `lines`. -/
def partition (lines : List Line) (chunkSize : Nat) : List File :=
  finalFlush (partLoop chunkSize lines { chunkFiles := [], buffer := [], chunkIdx := 0 })

/-! ### The scanner of `splitFile` over its input file

`writeChunk` creates the file `chunk_<idx>.txt` while the scanner of
`splitFile` is still reading the input.  When the input is that very file, the
call `os.Create` truncates it under the scanner, which from then on reads the
new content.  The scanner of `splitFile` is therefore modelled with its buffer
and its read offset, following `bufio.Scanner.Scan`. -/

/-- The initial size of the buffer of a scanner (`startBufSize` in `bufio`). -/
def startBufSize : Nat :=
  4096

/-- Why the reads of a scanner have ended (its field `err`): `io.EOF` or an error. -/
inductive ReadEnd where
  | eof
  | failed (e : IOError)
deriving DecidableEq, Repr

/-- The state of a `bufio.Scanner` over a file: `buf` holds the bytes
`s.buf[s.start:s.end]` read and not yet consumed, `cap` is `len(s.buf)`,
`offset` the offset in the file of the next read, `err` the field `s.err`. -/
structure FileScanner where
  buf : List Byte
  start : Nat
  cap : Nat
  offset : Nat
  err : Option ReadEnd
deriving DecidableEq, Repr

/-- The scanner returned by `bufio.NewScanner(file)`. -/
def FileScanner.new : FileScanner :=
  { buf := [], start := 0, cap := 0, offset := 0, err := none }

/-- The search `bytes.IndexByte(data, 10)`: the bytes before the first
newline and the bytes after it. -/
def cutLine : List Byte → Option (List Byte × List Byte)
  | [] => none
  | b :: rest =>
    if b = 10 then some ([], rest)
    else
      match cutLine rest with
      | some (l, r) => some (b :: l, r)
      | none => none

/-- The split function `bufio.ScanLines`: the number of bytes to advance and
the token, `none` when it returns no token. -/
def ScanLines (data : List Byte) (atEOF : Bool) : Option (Nat × Line) :=
  if atEOF = true ∧ data = [] then none
  else
    match cutLine data with
    | some (l, _) => some (l.length + 1, dropCR l)
    | none => if atEOF = true then some (data.length, dropCR data) else none

/-- The first part of an iteration of the loop of `Scan`: the split function
is tried on the buffered bytes. -/
def FileScanner.trySplit (s : FileScanner) : Option (Nat × Line) :=
  if s.buf ≠ [] ∨ s.err.isSome = true then ScanLines s.buf s.err.isSome else none

/-- The position `s.start` after the shift of the buffered bytes to the
beginning of the buffer, which is made when space is needed. -/
def FileScanner.shifted (s : FileScanner) : Nat :=
  if s.start > 0 ∧ (s.start + s.buf.length = s.cap ∨ s.start > s.cap / 2) then 0 else s.start

/-- One read of the file into the free part of the buffer: `content` is what
the file holds at that time, and a read at its end returns `io.EOF`, or the
error `fault`. -/
def FileScanner.read (content : List Byte) (fault : Option IOError) (s : FileScanner) :
    FileScanner :=
  let got := (content.drop s.offset).take (s.cap - (s.start + s.buf.length))
  if got = [] then
    { s with err := some (match fault with
                          | none => ReadEnd.eof
                          | some e => ReadEnd.failed e) }
  else { s with buf := s.buf ++ got, offset := s.offset + got.length }

/-- One iteration of the loop of `Scan`: on the left what `Scan` returns (the
token, or `none` for false) with the state it leaves, on the right the state
in which the loop goes on. -/
def FileScanner.iter (content : List Byte) (fault : Option IOError) (s : FileScanner) :
    Sum (Option Line × FileScanner) FileScanner :=
  match s.trySplit with
  | some (advance, token) =>
    Sum.inl (some token, { s with buf := s.buf.drop advance, start := s.start + advance })
  | none =>
    if s.err.isSome = true then Sum.inl (none, { s with buf := [], start := 0 })
    else if s.shifted + s.buf.length = s.cap then
      if s.cap ≥ maxScanTokenSize then
        Sum.inl (none, { s with start := s.shifted, err := some (ReadEnd.failed IOError.tooLong) })
      else
        Sum.inr (FileScanner.read content fault
          { s with start := 0
                   cap := min (if s.cap * 2 = 0 then startBufSize else s.cap * 2)
                     maxScanTokenSize })
    else Sum.inr (FileScanner.read content fault { s with start := s.shifted })

/-- The loop of `Scan`, run for at most `fuel` iterations. -/
def FileScanner.loop (content : List Byte) (fault : Option IOError) :
    Nat → FileScanner → Option (Option Line × FileScanner)
  | 0, _ => none
  | fuel + 1, s =>
    match s.iter content fault with
    | Sum.inl r => some r
    | Sum.inr s2 => FileScanner.loop content fault fuel s2

/-- The call `scanner.Scan()` followed by `scanner.Text()`: the token, or
`none` when `Scan` returns false, and the state of the scanner afterwards.
Every iteration of the loop but the last two reads at least one byte, so the
fuel given is never used up (`FileScanner.loop_spec`). -/
def FileScanner.Scan (content : List Byte) (fault : Option IOError) (s : FileScanner) :
    Option Line × FileScanner :=
  (FileScanner.loop content fault (content.length - s.offset + 2) s).getD (none, s)

/-- The call `scanner.Err()`: `io.EOF` is not reported. -/
def FileScanner.Err (s : FileScanner) : Option IOError :=
  match s.err with
  | some (ReadEnd.failed e) => some e
  | _ => none

/-- The state of a run of `splitFile`: its scanner, what the input file holds
at that time, and the variables `chunkFiles`, `buffer` and `chunkIdx`. -/
structure SplitState where
  scanner : FileScanner
  content : List Byte
  chunkFiles : List File
  buffer : List Line
  chunkIdx : Nat
deriving DecidableEq, Repr

/-- The loop `for scanner.Scan() { ... }` of `splitFile`, run for at most
`fuel` iterations: the state when `Scan` returns false.  A chunk file written
under the name of the input replaces the content of the input. -/
def splitLoop (input : File) (chunkSize : Nat) : Nat → SplitState → Option SplitState
  | 0, _ => none
  | fuel + 1, s =>
    match s.scanner.Scan s.content input.fault with
    | (none, scanner) => some { s with scanner := scanner }
    | (some text, scanner) =>
      let buffer := s.buffer ++ [trimSpace text]
      if buffer.length ≥ chunkSize then
        let chunkFile := writeChunk buffer s.chunkIdx
        splitLoop input chunkSize fuel
          { scanner := scanner
            content := if chunkFile.name = input.name then chunkFile.data else s.content
            chunkFiles := s.chunkFiles ++ [chunkFile]
            buffer := []
            chunkIdx := s.chunkIdx + 1 }
      else
        splitLoop input chunkSize fuel { s with scanner := scanner, buffer := buffer }

/-- The state in which the loop of `splitFile` is entered. -/
def splitInit (input : File) : SplitState :=
  { scanner := FileScanner.new, content := input.data, chunkFiles := [], buffer := [],
    chunkIdx := 0 }

/-- The loop of `splitFile` on `input`: every `Scan` that returns a token
consumes at least one byte, so the fuel given is never used up
(`splitRun_isSome`). -/
def splitRun (input : File) (chunkSize : Nat) : Option SplitState :=
  splitLoop input chunkSize (input.data.length + 1) (splitInit input)

/-- The function `splitFile`: the chunk files written and `scanner.Err()`. -/
def splitFile (input : File) (chunkSize : Nat) : List File × Option IOError :=
  match splitRun input chunkSize with
  | some s =>
    (finalFlush { chunkFiles := s.chunkFiles, buffer := s.buffer, chunkIdx := s.chunkIdx },
      s.scanner.Err)
  | none => ([], none)

/-! ## `mergeChunks` -/

/-- Entry `i` of the slices `readers` and `lines` of `mergeChunks`. -/
structure Slot where
  reader : Scanner
  line : Line
deriving DecidableEq, Repr

/-- The statement `if reader.Scan() { lines[i] = reader.Text() } else { lines[i] = "" }`. -/
def nextLine (reader : Scanner) : Slot :=
  match reader.Scan with
  | some (text, reader') => { reader := reader', line := text }
  | none => { reader := reader, line := [] }

/-- The inner loop `for i, line := range lines` that selects the minimum,
started at index `i` with the current `minLine` and `minIdx` (`none` is `-1`). -/
def findMin : List Slot → Nat → Line → Option Nat → Line × Option Nat
  | [], _, minLine, minIdx => (minLine, minIdx)
  | slot :: rest, i, minLine, minIdx =>
    if slot.line ≠ [] ∧ (minLine = [] ∨ slot.line < minLine) then
      findMin rest (i + 1) slot.line (some i)
    else
      findMin rest (i + 1) minLine minIdx

/-- The reader at index `minIdx` is advanced. -/
def advance : List Slot → Nat → List Slot
  | [], _ => []
  | slot :: rest, 0 => nextLine slot.reader :: rest
  | slot :: rest, i + 1 => slot :: advance rest i

/-- The variables of the loop of `mergeChunks`. -/
structure MergeState where
  slots : List Slot
  uniqueCount : Nat
  lastLine : Line
deriving DecidableEq, Repr

/-- One iteration of the loop of `mergeChunks`; `none` is the `break`. -/
def mergeStep (s : MergeState) : Option MergeState :=
  match findMin s.slots 0 [] none with
  | (_, none) => none
  | (minLine, some minIdx) =>
    if minLine ≠ s.lastLine then
      some { slots := advance s.slots minIdx
             uniqueCount := s.uniqueCount + 1
             lastLine := minLine }
    else
      some { s with slots := advance s.slots minIdx }

/-- The loop of `mergeChunks` run for at most `fuel` iterations: the state at
the `break`, or `none` when the fuel is used up before. -/
def mergeLoop : Nat → MergeState → Option MergeState
  | 0, _ => none
  | fuel + 1, s =>
    match mergeStep s with
    | none => some s
    | some s' => mergeLoop fuel s'

/-- The number of lines that the readers of the slots can still deliver, plus one. -/
def mergeFuel (slots : List Slot) : Nat :=
  (slots.map (fun slot => slot.reader.pending.length + 1)).sum + 1

/-- The function `mergeChunks`: the pair `(uniqueCount, err)` it returns. -/
def mergeChunks (chunkFiles : List File) : Option (Nat × Option IOError) :=
  let slots := chunkFiles.map (fun file => nextLine (NewScanner file))
  (mergeLoop (mergeFuel slots) { slots := slots, uniqueCount := 0, lastLine := [] }).map
    (fun s => (s.uniqueCount, none))

/-- The lines that a scanner reads from a chunk file. -/
def chunkLines (file : File) : List Line :=
  (NewScanner file).pending

/-- The lines of the input: the tokens that a scanner delivers over its
content while nobody writes to it. -/
def inputLines (input : File) : List Line :=
  (NewScanner input).pending

/-- The UTF-8 encoding of a code point. -/
def utf8Char (c : Char) : List Byte :=
  let n := c.toNat
  if n < 0x80 then [n]
  else if n < 0x800 then [0xC0 + n / 64, 0x80 + n % 64]
  else if n < 0x10000 then [0xE0 + n / 4096, 0x80 + n / 64 % 64, 0x80 + n % 64]
  else [0xF0 + n / 262144, 0x80 + n / 4096 % 64, 0x80 + n / 64 % 64, 0x80 + n % 64]

/-- The bytes of a string literal. -/
def utf8 (s : String) : List Byte :=
  (s.toList.map utf8Char).flatten

/-- A file with the given content that reads without error. -/
def textFile (name : String) (content : String) : File :=
  { name := name, data := utf8 content, fault := none }

/-- The lines of `l` at the positions `k * c`, ..., `(k + 1) * c - 1`. -/
def slice (c : Nat) (l : List Line) (k : Nat) : List Line :=
  (l.drop (k * c)).take c

/-- The lines of the input after `strings.TrimSpace`. -/
def trimmedLines (input : File) : List Line :=
  (inputLines input).map trimSpace

/-- The invariant of the loop of `splitFile` once the lines `done` have been
appended: the chunk files hold the full slices of `done`, the buffer the rest. -/
def SplitInv (c : Nat) (done : List Line) (s : PartState) : Prop :=
  s.chunkFiles = (List.range s.chunkIdx).map (fun k => writeChunk (slice c done k) k) ∧
  s.buffer = done.drop (s.chunkIdx * c) ∧
  s.buffer.length < c ∧
  s.chunkIdx * c ≤ done.length

/-- The lines that a slot still contributes to the merge: none once its
current line is the empty string, which the loop reads as "exhausted". -/
def Slot.live (slot : Slot) : List Line :=
  if slot.line = [] then [] else slot.line :: slot.reader.pending

/-- The lines that the merge loop still has to select. -/
def pendingLines (slots : List Slot) : List Line :=
  (slots.map Slot.live).flatten

/-- A slot whose remaining lines are ascending and not empty. -/
def SlotOK (slot : Slot) : Prop :=
  slot.live.Sorted (· ≤ ·) ∧ [] ∉ slot.live

/-- The number of chunks for `n` lines and chunk size `c`: `n / c` rounded up. -/
def chunkCount (n c : Nat) : Nat :=
  (n + c - 1) / c

/-- The six-line input of the concrete scenario. -/
def sixLines : File :=
  textFile "ip_addresses.txt"
    "192.168.1.1\n10.0.0.1\n192.168.1.1\n8.8.8.8\n10.0.0.1\n10.0.0.1\n"

/-- An input whose first line is blank. -/
def blankFirst : File :=
  textFile "ip_addresses.txt" "\na\nb\n"

/-- The lines of `blankFirst` in another order. -/
def blankLast : File :=
  textFile "ip_addresses.txt" "a\nb\n\n"

/-- An input with surrounding white space and a carriage return. -/
def paddedLines : File :=
  textFile "ip_addresses.txt" "  10.0.0.1 \n10.0.0.1"

/-- The input `paddedLines` with every line trimmed. -/
def paddedLinesTrimmed : File :=
  textFile "ip_addresses.txt" "10.0.0.1\n10.0.0.1\n"

/-- Three lines, the last one without newline. -/
def threeLines : File :=
  textFile "ip_addresses.txt" "b\r\n a \nc"

/-- The lines of `threeLines` in another order. -/
def threeLinesShuffled : File :=
  textFile "ip_addresses.txt" "c\n a \nb\r\n"

/-- Two chunk files whose reads end with an error: the first before any
line is delivered, the second after two lines. -/
def faultyChunks : List File :=
  [{ name := "chunk_0.txt", data := [], fault := some IOError.readFault },
   { name := "chunk_1.txt", data := utf8 "10.0.0.1\n10.0.0.2", fault := some IOError.readFault }]

/-- The state of `mergeChunks` when its loop is entered: every reader primed,
`uniqueCount` 0 and `lastLine` empty. -/
def mergeInit (chunkFiles : List File) : MergeState :=
  { slots := chunkFiles.map (fun file => nextLine (NewScanner file))
    uniqueCount := 0
    lastLine := [] }

/-- The value of `minLine` after the inner loop of an iteration started in state `s`. -/
def selectedLine (s : MergeState) : Line :=
  (findMin s.slots 0 [] none).1

/-- The lines selected by the successive iterations of the loop of
`mergeChunks`, run for at most `fuel` iterations: `none` when the fuel is used
up before the `break`. -/
def mergeSelections : Nat → MergeState → Option (List Line)
  | 0, _ => none
  | fuel + 1, s =>
    match mergeStep s with
    | none => some []
    | some s' => (mergeSelections fuel s').map (fun rest => selectedLine s :: rest)

/-- Two ascending chunk files that share the line "a". -/
def overlappingChunks : List File :=
  [textFile "chunk_0.txt" "a\nb\n", textFile "chunk_1.txt" "a\nc\n"]

/-- The chunk files of `overlappingChunks` in the other order. -/
def overlappingChunksSwapped : List File :=
  [textFile "chunk_1.txt" "a\nc\n", textFile "chunk_0.txt" "a\nb\n"]

/-- The state after the first iteration of the merge of `overlappingChunks`. -/
def afterFirstStep : MergeState :=
  { slots := advance (mergeInit overlappingChunks).slots 0
    uniqueCount := 1
    lastLine := utf8 "a" }

/-- Two ascending chunk files of which the first holds an empty line. -/
def chunksWithBlank : List File :=
  [textFile "chunk_0.txt" "\na\n", textFile "chunk_1.txt" "b\n"]

/-- An input with a blank line among three lines. -/
def blankMiddle : File :=
  textFile "ip_addresses.txt" "b\n  \na\n"

/-- The chunk files none of whose lines is empty. -/
def chunksWithoutEmptyLine (chunkFiles : List File) : List File :=
  chunkFiles.filter (fun f => decide ([] ∉ chunkLines f))

/-- A line of `maxScanTokenSize` bytes. -/
def longLine : Line :=
  List.replicate maxScanTokenSize 97

/-- The bytes that a scanner over a file still has to scan: the buffered
bytes, then what the file holds from the read offset on, unless the reads have
ended. -/
def FileScanner.stream (s : FileScanner) (content : List Byte) : List Byte :=
  s.buf ++ (if s.err.isSome = true then [] else content.drop s.offset)

/-- The offset in the file of the first buffered byte. -/
def FileScanner.pos (s : FileScanner) : Nat :=
  s.offset - s.buf.length

/-- The invariant of a scanner over a file: the buffered bytes fit into the
buffer, the buffer is at most `maxScanTokenSize` long and not full once the
reads have ended, and the buffered bytes have been read from the file. -/
def FileScanner.Inv (s : FileScanner) : Prop :=
  s.start + s.buf.length ≤ s.cap ∧ s.cap ≤ maxScanTokenSize ∧ s.buf.length ≤ s.offset ∧
    (s.err.isSome = true → s.buf.length < maxScanTokenSize)

/-- A bound on the number of iterations that the loop of `Scan` still makes. -/
def FileScanner.measure (s : FileScanner) (content : List Byte) : Nat :=
  if s.err.isSome = true then 1 else content.length - s.offset + 2

/-- The first token of `scanLines` over a stream of bytes, with the bytes that
follow it: `none` when the stream is empty or its first line too long. -/
def nextToken (stream : List Byte) : Option (Line × List Byte) :=
  match cutLine stream with
  | some (l, rest) => if maxScanTokenSize ≤ l.length then none else some (dropCR l, rest)
  | none =>
    if stream = [] ∨ maxScanTokenSize ≤ stream.length then none
    else some (dropCR stream, [])

/-- The input is none of the chunk files: no chunk file is written under its name. -/
def NotChunkFile (name : String) : Prop :=
  ∀ idx : Nat, chunkFileName idx ≠ name

/-- The reads of a scanner have not ended, or they have ended in the way in
which the reads of a file with the given fault end. -/
def FileScanner.ErrOK (fault : Option IOError) (s : FileScanner) : Prop :=
  s.err = none ∨
    s.err = some (match fault with
                  | none => ReadEnd.eof
                  | some e => ReadEnd.failed e)

/-- The number of bytes that `writeChunk` writes for the given lines. -/
def writtenBytes (lines : List Line) : Nat :=
  (lines.map (fun l => l.length + 1)).sum

/-- A line that a chunk file stores exactly: it holds no newline, ends in no
carriage return and is shorter than the largest buffer of a scanner. -/
def Storable (l : Line) : Prop :=
  10 ∉ l ∧ l.getLast? ≠ some 13 ∧ byteLen l < maxScanTokenSize

/-- The invariant of the loop of `splitFile`, for every input: the invariant
of the scanner; the lines of the buffer were scanned from bytes before the
position of the scanner, so that a chunk file written from them ends before
the read offset; the buffer and the chunk files hold lines that a chunk file
stores exactly. -/
def SplitState.Inv (s : SplitState) : Prop :=
  s.scanner.Inv ∧
    (s.scanner.err = none → writtenBytes s.buffer ≤ s.scanner.pos) ∧
    (∀ l ∈ s.buffer, Storable l) ∧
    ∀ f ∈ s.chunkFiles, ∃ lines idx, f = writeChunk lines idx ∧ ∀ l ∈ lines, Storable l

/-- The variables `chunkFiles`, `buffer` and `chunkIdx` of a state of `splitFile`. -/
def SplitState.vars (s : SplitState) : PartState :=
  { chunkFiles := s.chunkFiles, buffer := s.buffer, chunkIdx := s.chunkIdx }

/-- The bytes of sixty-six lines of 63 letters each, 4224 bytes in all: the
first line twice, the second line twice, then sixty-two further lines; the
sixty-four different lines start with the bytes 33, 34, ..., 96. -/
def repeatedFirst : List Byte :=
  (([0, 0, 1, 1] ++ (List.range 62).map (fun i => i + 2)).map
    (fun i => (33 + i) :: List.replicate 62 120 ++ [10])).flatten

/-- The lines of `repeatedFirst` in another order: the sixty-four different
lines, then the first and the second line once more. -/
def repeatedLast : List Byte :=
  (((List.range 64) ++ [0, 1]).map
    (fun i => (33 + i) :: List.replicate 62 120 ++ [10])).flatten

/-- An input stored under the name of the first chunk file: `writeChunk`
truncates it while the scanner of `splitFile` holds its first 4096 bytes. -/
def aliasedInput : File :=
  { name := "chunk_0.txt", data := repeatedFirst, fault := none }

/-- The lines of `aliasedInput` in another order, under the same name. -/
def aliasedReordered : File :=
  { name := "chunk_0.txt", data := repeatedLast, fault := none }

/-- The content of `aliasedInput` under a name that no chunk file has. -/
def sameLinesElsewhere : File :=
  { name := "ip_addresses.txt", data := repeatedFirst, fault := none }

/-- Seventy equal lines of 59 letters, 4200 bytes in all, stored under the
name of the first chunk file: the first 4096 bytes end inside a line. -/
def aliasedEqualLines : File :=
  { name := "chunk_0.txt"
    data := ((List.replicate 70 (List.replicate 59 120 ++ [10]))).flatten
    fault := none }

/-- An input whose reads end with an error after two lines. -/
def faultyInput : File :=
  { name := "ip_addresses.txt", data := utf8 "10.0.0.1\n10.0.0.2", fault := some IOError.readFault }

/-! ## The scanner and the written chunk files -/

theorem dropCR_eq_self {data : List Byte} (h : data.getLast? ≠ some 13) :
    dropCR data = data := by
  simp [dropCR, h]

theorem isPrefix_dropCR (data : List Byte) : dropCR data <+: data := by
  unfold dropCR
  split
  · exact List.dropLast_prefix data
  · exact List.prefix_refl data

theorem byteLen_append (a b : List Byte) : byteLen (a ++ b) = byteLen a + byteLen b := by
  simp [byteLen]

theorem byteLen_le_of_sublist {a b : List Byte} (h : a.Sublist b) : byteLen a ≤ byteLen b :=
  h.length_le

theorem scanLines_append_newline (l rest : List Byte) (h : 10 ∉ l) (cur : List Byte)
    (hsz : byteLen (cur ++ l) < maxScanTokenSize) :
    scanLines cur (l ++ 10 :: rest) = dropCR (cur ++ l) :: scanLines [] rest := by
  induction l generalizing cur with
  | nil =>
    have hsz2 : ¬ maxScanTokenSize ≤ byteLen cur := by simpa using hsz
    simp [scanLines, hsz2]
  | cons c l ih =>
    have hc : c ≠ 10 := fun hc => h (by simp [hc])
    have hl : 10 ∉ l := fun hl => h (by simp [hl])
    have hstep : scanLines cur (c :: (l ++ 10 :: rest)) =
        scanLines (cur ++ [c]) (l ++ 10 :: rest) := by
      simp [scanLines, hc]
    rw [List.cons_append, hstep, ih hl (cur ++ [c]) (by simpa using hsz)]
    simp

theorem scanLines_append_newline_long (l rest : List Byte) (h : 10 ∉ l) (cur : List Byte)
    (hsz : maxScanTokenSize ≤ byteLen (cur ++ l)) :
    scanLines cur (l ++ 10 :: rest) = [] := by
  induction l generalizing cur with
  | nil =>
    have hsz2 : maxScanTokenSize ≤ byteLen cur := by simpa using hsz
    simp [scanLines, hsz2]
  | cons c l ih =>
    have hc : c ≠ 10 := fun hc => h (by simp [hc])
    have hl : 10 ∉ l := fun hl => h (by simp [hl])
    have hstep : scanLines cur (c :: (l ++ 10 :: rest)) =
        scanLines (cur ++ [c]) (l ++ 10 :: rest) := by
      simp [scanLines, hc]
    rw [List.cons_append, hstep, ih hl (cur ++ [c]) (by simpa using hsz)]

theorem scanLines_flatten (lines : List Line) (hnl : ∀ l ∈ lines, 10 ∉ l)
    (hcr : ∀ l ∈ lines, l.getLast? ≠ some 13)
    (hsz : ∀ l ∈ lines, byteLen l < maxScanTokenSize) :
    scanLines [] ((lines.map (fun line => line ++ [10])).flatten) = lines := by
  induction lines with
  | nil => simp [scanLines]
  | cons l lines ih =>
    have h1 : 10 ∉ l := hnl l (by simp)
    have h2 : l.getLast? ≠ some 13 := hcr l (by simp)
    have h3 : byteLen ([] ++ l) < maxScanTokenSize := by simpa using hsz l (by simp)
    simp only [List.map_cons, List.flatten_cons, List.append_assoc, List.singleton_append]
    rw [scanLines_append_newline l _ h1 [] h3, ih (fun x hx => hnl x (by simp [hx]))
      (fun x hx => hcr x (by simp [hx])) (fun x hx => hsz x (by simp [hx]))]
    simp [dropCR_eq_self h2]

theorem scanLines_byteLen (data : List Byte) :
    ∀ cur : List Byte, ∀ t ∈ scanLines cur data, byteLen t < maxScanTokenSize := by
  induction data with
  | nil =>
    intro cur t ht
    simp only [scanLines] at ht
    split at ht
    · simp at ht
    · split at ht
      · simp at ht
      · rename_i hsz
        simp only [List.mem_singleton] at ht
        subst ht
        exact lt_of_le_of_lt (byteLen_le_of_sublist (isPrefix_dropCR cur).sublist)
          (Nat.lt_of_not_le hsz)
  | cons c rest ih =>
    intro cur t ht
    simp only [scanLines] at ht
    split at ht
    · split at ht
      · simp at ht
      · rename_i hsz
        rcases List.mem_cons.1 ht with h | h
        · subst h
          exact lt_of_le_of_lt (byteLen_le_of_sublist (isPrefix_dropCR cur).sublist)
            (Nat.lt_of_not_le hsz)
        · exact ih [] t h
    · exact ih (cur ++ [c]) t ht

theorem scanLines_no_newline (data : List Byte) :
    ∀ cur : List Byte, 10 ∉ cur → ∀ t ∈ scanLines cur data, 10 ∉ t := by
  induction data with
  | nil =>
    intro cur hcur t ht
    simp only [scanLines] at ht
    split at ht
    · simp at ht
    · split at ht
      · simp at ht
      · simp only [List.mem_singleton] at ht
        subst ht
        exact fun h => hcur ((isPrefix_dropCR cur).subset h)
  | cons c rest ih =>
    intro cur hcur t ht
    simp only [scanLines] at ht
    split at ht
    · split at ht
      · simp at ht
      · rcases List.mem_cons.1 ht with h | h
        · subst h
          exact fun h => hcur ((isPrefix_dropCR cur).subset h)
        · exact ih [] (by simp) t h
    · rename_i hc
      exact ih (cur ++ [c]) (by simp [hcur, Ne.symm hc]) t ht

theorem stripOne_eq_some {pats : List (List Byte)} {s rest : List Byte}
    (h : stripOne pats s = some rest) : ∃ p ∈ pats, s = p ++ rest := by
  unfold stripOne at h
  cases hf : pats.find? (fun p => p.isPrefixOf s) with
  | none =>
    rw [hf] at h
    simp at h
  | some p =>
    rw [hf] at h
    simp only [Option.map_some', Option.some.injEq] at h
    have hp := List.find?_some hf
    have hmem := List.mem_of_find?_eq_some hf
    simp only [List.isPrefixOf_iff_prefix] at hp
    obtain ⟨t, ht⟩ := hp
    refine ⟨p, hmem, ?_⟩
    rw [← h, ← ht]
    simp

theorem stripOne_eq_none {pats : List (List Byte)} {s : List Byte} :
    stripOne pats s = none ↔ ∀ p ∈ pats, ¬ p <+: s := by
  unfold stripOne
  simp [List.find?_eq_none, List.isPrefixOf_iff_prefix]

theorem stripAll_of_none (pats : List (List Byte)) (fuel : Nat) (s : List Byte)
    (h : stripOne pats s = none) : stripAll pats fuel s = s := by
  cases fuel with
  | zero => rfl
  | succ fuel => simp [stripAll, h]

theorem stripAll_suffix (pats : List (List Byte)) :
    ∀ (fuel : Nat) (s : List Byte), stripAll pats fuel s <:+ s := by
  intro fuel
  induction fuel with
  | zero =>
    intro s
    exact List.suffix_refl s
  | succ fuel ih =>
    intro s
    cases h : stripOne pats s with
    | none =>
      simp only [stripAll, h]
      exact List.suffix_refl s
    | some rest =>
      simp only [stripAll, h]
      obtain ⟨p, _, hp⟩ := stripOne_eq_some h
      exact (ih rest).trans ⟨p, hp.symm⟩

theorem stripAll_done (pats : List (List Byte)) (hne : ∀ p ∈ pats, p ≠ []) :
    ∀ (fuel : Nat) (s : List Byte), s.length ≤ fuel →
      stripOne pats (stripAll pats fuel s) = none := by
  intro fuel
  induction fuel with
  | zero =>
    intro s hs
    have h0 : s = [] := List.length_eq_zero.1 (by omega)
    subst h0
    simp only [stripAll]
    rw [stripOne_eq_none]
    intro p hp hpre
    exact hne p hp (List.prefix_nil.1 hpre)
  | succ fuel ih =>
    intro s hs
    cases h : stripOne pats s with
    | none =>
      simp only [stripAll, h]
    | some rest =>
      simp only [stripAll, h]
      obtain ⟨p, hp, hs2⟩ := stripOne_eq_some h
      apply ih
      have hlen : 0 < p.length := List.length_pos.2 (hne p hp)
      rw [hs2, List.length_append] at hs
      omega

theorem spaceEncodings_ne_nil : ∀ p ∈ spaceEncodings, p ≠ [] := by
  decide

theorem spaceEncodings_reverse_ne_nil : ∀ p ∈ spaceEncodings.map List.reverse, p ≠ [] := by
  decide

theorem trimLeft_suffix (s : Line) : trimLeft s <:+ s :=
  stripAll_suffix spaceEncodings s.length s

theorem isPrefix_trimRight (s : Line) : trimRight s <+: s := by
  have h := stripAll_suffix (spaceEncodings.map List.reverse) s.length s.reverse
  have h2 := List.reverse_prefix.2 h
  rw [List.reverse_reverse] at h2
  exact h2

theorem stripOne_trimLeft (s : Line) : stripOne spaceEncodings (trimLeft s) = none :=
  stripAll_done spaceEncodings spaceEncodings_ne_nil s.length s (le_refl _)

theorem stripOne_trimRight (s : Line) :
    stripOne (spaceEncodings.map List.reverse) (trimRight s).reverse = none := by
  unfold trimRight
  rw [List.reverse_reverse]
  exact stripAll_done _ spaceEncodings_reverse_ne_nil s.length s.reverse (by simp)

/-! ## The scanner of `splitFile` -/

theorem cutLine_some {s l r : List Byte} (h : cutLine s = some (l, r)) :
    s = l ++ 10 :: r ∧ 10 ∉ l := by
  induction s generalizing l with
  | nil => simp [cutLine] at h
  | cons b rest ih =>
    simp only [cutLine] at h
    split at h
    · rename_i hb
      simp only [Option.some.injEq, Prod.mk.injEq] at h
      obtain ⟨h1, h2⟩ := h
      subst h1 h2 hb
      simp
    · rename_i hb
      split at h
      · rename_i l2 r2 hc
        simp only [Option.some.injEq, Prod.mk.injEq] at h
        obtain ⟨h1, h2⟩ := h
        subst h1 h2
        obtain ⟨h3, h4⟩ := ih hc
        refine ⟨by rw [h3]; simp, ?_⟩
        simp only [List.mem_cons, not_or]
        exact ⟨fun h5 => hb h5.symm, h4⟩
      · simp at h

theorem cutLine_none {s : List Byte} (h : cutLine s = none) : 10 ∉ s := by
  induction s with
  | nil => simp
  | cons b rest ih =>
    simp only [cutLine] at h
    split at h
    · simp at h
    · rename_i hb
      split at h
      · simp at h
      · rename_i hc
        simp only [List.mem_cons, not_or]
        exact ⟨fun h5 => hb h5.symm, ih hc⟩

theorem cutLine_append (l r : List Byte) (h : 10 ∉ l) : cutLine (l ++ 10 :: r) = some (l, r) := by
  induction l with
  | nil => simp [cutLine]
  | cons b rest ih =>
    have hb : b ≠ 10 := fun hb => h (by simp [hb])
    have hr : 10 ∉ rest := fun hr => h (by simp [hr])
    simp [cutLine, hb, ih hr]

theorem cutLine_of_not_mem {s : List Byte} (h : 10 ∉ s) : cutLine s = none := by
  cases hc : cutLine s with
  | none => rfl
  | some p =>
    obtain ⟨l, r⟩ := p
    have := (cutLine_some hc).1
    rw [this] at h
    simp at h

theorem scanLines_eof (s : List Byte) (h : 10 ∉ s) (cur : List Byte) :
    scanLines cur s =
      if cur ++ s = [] then []
      else if maxScanTokenSize ≤ byteLen (cur ++ s) then []
      else [dropCR (cur ++ s)] := by
  induction s generalizing cur with
  | nil => simp [scanLines]
  | cons c rest ih =>
    have hc : c ≠ 10 := fun hc => h (by simp [hc])
    have hr : 10 ∉ rest := fun hr => h (by simp [hr])
    have hstep : scanLines cur (c :: rest) = scanLines (cur ++ [c]) rest := by
      simp [scanLines, hc]
    rw [hstep, ih hr (cur ++ [c])]
    simp

/-- The tokens of `scanLines`, one token at a time. -/
theorem scanLines_nextToken (s : List Byte) :
    scanLines [] s =
      match nextToken s with
      | none => []
      | some (t, rest) => t :: scanLines [] rest := by
  unfold nextToken
  cases hc : cutLine s with
  | some p =>
    obtain ⟨l, r⟩ := p
    obtain ⟨hs, hl⟩ := cutLine_some hc
    simp only
    by_cases hsz : maxScanTokenSize ≤ l.length
    · rw [if_pos hsz, hs]
      exact scanLines_append_newline_long l r hl [] (by simpa [byteLen] using hsz)
    · rw [if_neg hsz, hs]
      have := scanLines_append_newline l r hl [] (by simpa [byteLen] using hsz)
      simpa using this
  | none =>
    have hs := cutLine_none hc
    simp only
    rw [scanLines_eof s hs []]
    by_cases h0 : s = []
    · simp [h0]
    · by_cases hsz : maxScanTokenSize ≤ s.length
      · simp [h0, hsz, byteLen]
      · simp [h0, hsz, byteLen, scanLines]

theorem nextToken_some {s : List Byte} {t : Line} {rest : List Byte}
    (h : nextToken s = some (t, rest)) :
    rest.length < s.length ∧ t.length < s.length + 1 ∧ 10 ∉ t ∧
      byteLen t < maxScanTokenSize := by
  unfold nextToken at h
  cases hc : cutLine s with
  | some p =>
    obtain ⟨l, r⟩ := p
    obtain ⟨hs, hl⟩ := cutLine_some hc
    rw [hc] at h
    simp only at h
    split at h
    · simp at h
    · rename_i hsz
      simp only [Option.some.injEq, Prod.mk.injEq] at h
      obtain ⟨h1, h2⟩ := h
      subst h1 h2
      have hd := (isPrefix_dropCR l).sublist
      have hlen := hd.length_le
      refine ⟨by rw [hs]; simp; omega, by rw [hs]; simp; omega, fun hm => hl (hd.subset hm), ?_⟩
      unfold byteLen
      omega
  | none =>
    have hs := cutLine_none hc
    rw [hc] at h
    simp only at h
    split at h
    · simp at h
    · rename_i hcond
      simp only [Option.some.injEq, Prod.mk.injEq] at h
      obtain ⟨h1, h2⟩ := h
      subst h1 h2
      simp only [not_or, not_le] at hcond
      have hd := (isPrefix_dropCR s).sublist
      have hlen := hd.length_le
      refine ⟨by simpa using List.length_pos.2 hcond.1, by omega, fun hm => hs (hd.subset hm), ?_⟩
      unfold byteLen
      omega

theorem trimSpace_sublist (s : Line) : (trimSpace s).Sublist s :=
  ((isPrefix_trimRight (trimLeft s)).sublist).trans (trimLeft_suffix s).sublist

theorem trimSpace_getLast (s : Line) : (trimSpace s).getLast? ≠ some 13 := by
  intro h
  obtain ⟨ys, hys⟩ := List.getLast?_eq_some_iff.1 h
  have hnone := stripOne_trimRight (trimLeft s)
  rw [stripOne_eq_none] at hnone
  apply hnone [13] (by decide)
  show [13] <+: (trimSpace s).reverse
  rw [hys]
  simp

theorem trimSpace_idem (s : Line) : trimSpace (trimSpace s) = trimSpace s := by
  have hleft : trimLeft (trimSpace s) = trimSpace s := by
    apply stripAll_of_none
    rw [stripOne_eq_none]
    intro p hp hpre
    have hnone := stripOne_trimLeft s
    rw [stripOne_eq_none] at hnone
    exact hnone p hp (hpre.trans (isPrefix_trimRight (trimLeft s)))
  have h := stripAll_of_none (spaceEncodings.map List.reverse) (trimSpace s).length
    (trimSpace s).reverse (stripOne_trimRight (trimLeft s))
  show trimRight (trimLeft (trimSpace s)) = trimSpace s
  rw [hleft]
  show (stripAll (spaceEncodings.map List.reverse) (trimSpace s).length
    (trimSpace s).reverse).reverse = trimSpace s
  rw [h, List.reverse_reverse]

theorem sortStrings_perm (lines : List Line) : (sortStrings lines).Perm lines :=
  List.perm_insertionSort _ lines

theorem sortStrings_sorted (lines : List Line) : (sortStrings lines).Sorted (· ≤ ·) :=
  List.sorted_insertionSort _ lines

theorem chunkLines_writeChunk (lines : List Line) (idx : Nat)
    (hnl : ∀ l ∈ lines, 10 ∉ l) (hcr : ∀ l ∈ lines, l.getLast? ≠ some 13)
    (hsz : ∀ l ∈ lines, byteLen l < maxScanTokenSize) :
    chunkLines (writeChunk lines idx) = sortStrings lines := by
  show scanLines [] ((((sortStrings lines).map (fun line => line ++ [10])).flatten)) = _
  apply scanLines_flatten
  · intro l hl
    exact hnl l ((sortStrings_perm lines).mem_iff.1 hl)
  · intro l hl
    exact hcr l ((sortStrings_perm lines).mem_iff.1 hl)
  · intro l hl
    exact hsz l ((sortStrings_perm lines).mem_iff.1 hl)

/-! ## The partition computed by `splitFile` -/

theorem slice_append_of_le (c : Nat) (done more : List Line) (k : Nat)
    (h : (k + 1) * c ≤ done.length) : slice c (done ++ more) k = slice c done k := by
  have h1 : k * c + c ≤ done.length := by rw [Nat.succ_mul] at h; exact h
  unfold slice
  rw [List.drop_append_of_le_length (by omega)]
  rw [List.take_append_of_le_length (by rw [List.length_drop]; omega)]

theorem slice_map_congr (c : Nat) (done more : List Line) (idx : Nat)
    (h : idx * c ≤ done.length) :
    (List.range idx).map (fun k => writeChunk (slice c (done ++ more) k) k) =
      (List.range idx).map (fun k => writeChunk (slice c done k) k) := by
  apply List.map_congr_left
  intro k hk
  have hk2 : k + 1 ≤ idx := by simpa [List.mem_range] using hk
  rw [slice_append_of_le c done more k (le_trans (Nat.mul_le_mul_right c hk2) h)]

theorem splitInv_step (c : Nat) (hc : 1 ≤ c) (done : List Line) (s : PartState) (t : Line)
    (h : SplitInv c done s) :
    (c ≤ (s.buffer ++ [t]).length →
      SplitInv c (done ++ [t])
        { chunkFiles := s.chunkFiles ++ [writeChunk (s.buffer ++ [t]) s.chunkIdx]
          buffer := []
          chunkIdx := s.chunkIdx + 1 }) ∧
    (¬ c ≤ (s.buffer ++ [t]).length →
      SplitInv c (done ++ [t]) { s with buffer := s.buffer ++ [t] }) := by
  obtain ⟨hfiles, hbuf, hlen, hidx⟩ := h
  have hbuf1 : s.buffer ++ [t] = (done ++ [t]).drop (s.chunkIdx * c) := by
    rw [List.drop_append_of_le_length hidx, hbuf]
  have hblen : s.buffer.length = done.length - s.chunkIdx * c := by
    rw [hbuf, List.length_drop]
  constructor
  · intro hfull
    have hfull2 : (s.buffer ++ [t]).length = c := by
      simp only [List.length_append, List.length_singleton] at hfull ⊢
      omega
    have hdone : (done ++ [t]).length = s.chunkIdx * c + c := by
      simp only [List.length_append, List.length_singleton] at hfull2 ⊢
      omega
    refine ⟨?_, ?_, ?_, ?_⟩
    · show s.chunkFiles ++ [writeChunk (s.buffer ++ [t]) s.chunkIdx] = _
      rw [List.range_succ, List.map_append, slice_map_congr c done [t] s.chunkIdx hidx, ← hfiles]
      have hs : slice c (done ++ [t]) s.chunkIdx = s.buffer ++ [t] := by
        unfold slice
        rw [← hbuf1, List.take_of_length_le (le_of_eq hfull2)]
      simp [hs]
    · show [] = (done ++ [t]).drop ((s.chunkIdx + 1) * c)
      rw [List.drop_of_length_le]
      rw [hdone, Nat.succ_mul]
    · show 0 < c
      omega
    · show (s.chunkIdx + 1) * c ≤ (done ++ [t]).length
      rw [hdone, Nat.succ_mul]
  · intro hnot
    refine ⟨?_, hbuf1, ?_, ?_⟩
    · show s.chunkFiles = _
      rw [slice_map_congr c done [t] s.chunkIdx hidx]
      exact hfiles
    · show (s.buffer ++ [t]).length < c
      omega
    · show s.chunkIdx * c ≤ (done ++ [t]).length
      simp only [List.length_append, List.length_singleton]
      omega

theorem partLoop_inv (c : Nat) (hc : 1 ≤ c) (toks : List Line) :
    ∀ (done : List Line) (s : PartState), SplitInv c done s →
      SplitInv c (done ++ toks.map trimSpace) (partLoop c toks s) := by
  induction toks with
  | nil =>
    intro done s h
    simpa [partLoop] using h
  | cons text rest ih =>
    intro done s h
    have hstep := splitInv_step c hc done s (trimSpace text) h
    have happ : done ++ (text :: rest).map trimSpace =
        (done ++ [trimSpace text]) ++ rest.map trimSpace := by simp
    rw [happ]
    by_cases hfull : c ≤ (s.buffer ++ [trimSpace text]).length
    · have hl : partLoop c (text :: rest) s = partLoop c rest
          { chunkFiles := s.chunkFiles ++ [writeChunk (s.buffer ++ [trimSpace text]) s.chunkIdx]
            buffer := []
            chunkIdx := s.chunkIdx + 1 } := by
        simp only [partLoop]
        rw [if_pos hfull]
      rw [hl]
      exact ih _ _ (hstep.1 hfull)
    · have hl : partLoop c (text :: rest) s =
          partLoop c rest { s with buffer := s.buffer ++ [trimSpace text] } := by
        simp only [partLoop]
        rw [if_neg hfull]
      rw [hl]
      exact ih _ _ (hstep.2 hfull)

theorem partition_eq (input : File) (c : Nat) (hc : 1 ≤ c) :
    (partition (inputLines input) c) =
      (List.range (chunkCount (trimmedLines input).length c)).map
        (fun k => writeChunk (slice c (trimmedLines input) k) k) := by
  have hinv := partLoop_inv c hc (inputLines input) []
    { chunkFiles := [], buffer := [], chunkIdx := 0 }
    ⟨by simp, by simp, by simp; omega, by simp⟩
  simp only [List.nil_append] at hinv
  change SplitInv c (trimmedLines input) _ at hinv
  obtain ⟨hfiles, hbuf, hlen, hidx⟩ := hinv
  set s := partLoop c (inputLines input) { chunkFiles := [], buffer := [], chunkIdx := 0 }
    with hs
  have hblen : s.buffer.length = (trimmedLines input).length - s.chunkIdx * c := by
    rw [hbuf, List.length_drop]
  show (if s.buffer.length > 0 then s.chunkFiles ++ [writeChunk s.buffer s.chunkIdx]
    else s.chunkFiles) = _
  by_cases hpos : s.buffer.length > 0
  · rw [if_pos hpos]
    have hcount : chunkCount (trimmedLines input).length c = s.chunkIdx + 1 := by
      unfold chunkCount
      apply Nat.div_eq_of_lt_le
      · rw [Nat.succ_mul]; omega
      · rw [Nat.succ_mul, Nat.succ_mul]; omega
    have hsl : slice c (trimmedLines input) s.chunkIdx = s.buffer := by
      unfold slice
      rw [← hbuf, List.take_of_length_le (le_of_lt hlen)]
    rw [hcount, List.range_succ, List.map_append, ← hfiles]
    simp [hsl]
  · rw [if_neg hpos]
    have hcount : chunkCount (trimmedLines input).length c = s.chunkIdx := by
      unfold chunkCount
      apply Nat.div_eq_of_lt_le
      · omega
      · rw [Nat.succ_mul]; omega
    rw [hcount]
    exact hfiles

/-! ## The merge loop -/

theorem pendingLines_cons (slot : Slot) (rest : List Slot) :
    pendingLines (slot :: rest) = slot.live ++ pendingLines rest := by
  simp [pendingLines]

theorem mem_pendingLines {slots : List Slot} {x : Line} :
    x ∈ pendingLines slots ↔ ∃ slot ∈ slots, x ∈ slot.live := by
  simp [pendingLines]

theorem live_of_line_ne {slot : Slot} (h : slot.line ≠ []) :
    slot.live = slot.line :: slot.reader.pending := by
  simp [Slot.live, h]

theorem live_of_line_eq {slot : Slot} (h : slot.line = []) : slot.live = [] := by
  simp [Slot.live, h]

theorem live_nextLine_length (reader : Scanner) :
    (nextLine reader).live.length ≤ reader.pending.length := by
  unfold nextLine Scanner.Scan
  cases h : reader.pending with
  | nil => simp [Slot.live]
  | cons t rest =>
    simp only [Slot.live]
    split <;> simp

theorem live_nextLine_of_not_mem (reader : Scanner) (h : [] ∉ reader.pending) :
    (nextLine reader).live = reader.pending := by
  unfold nextLine Scanner.Scan
  cases hp : reader.pending with
  | nil => simp [Slot.live]
  | cons t rest =>
    have ht : t ≠ [] := by
      intro h0
      apply h
      rw [hp, h0]
      simp
    simp [Slot.live, ht]

theorem slotOK_nextLine {slot : Slot} (hline : slot.line ≠ []) (hok : SlotOK slot) :
    SlotOK (nextLine slot.reader) ∧ (nextLine slot.reader).live = slot.reader.pending := by
  obtain ⟨hs, hne⟩ := hok
  rw [live_of_line_ne hline] at hs hne
  have hmem : [] ∉ slot.reader.pending := fun h => hne (List.mem_cons_of_mem _ h)
  have hl := live_nextLine_of_not_mem slot.reader hmem
  refine ⟨⟨?_, ?_⟩, hl⟩
  · rw [hl]
    exact hs.tail
  · rw [hl]
    exact hmem

/-- The selection made by `findMin`: either the incoming minimum is kept, and
no line of the slots beats it, or a line of the slots is selected that is not
empty and is at most every candidate. -/
theorem findMin_spec (slots : List Slot) :
    ∀ (i : Nat) (minLine : Line) (minIdx : Option Nat),
      ((findMin slots i minLine minIdx).1 = minLine ∧
        (findMin slots i minLine minIdx).2 = minIdx ∧
        ∀ slot ∈ slots, slot.line ≠ [] → minLine ≠ [] ∧ minLine ≤ slot.line) ∨
      (∃ j slot, slots[j]? = some slot ∧
        (findMin slots i minLine minIdx).2 = some (i + j) ∧
        slot.line = (findMin slots i minLine minIdx).1 ∧
        slot.line ≠ [] ∧
        (minLine ≠ [] → slot.line ≤ minLine) ∧
        ∀ other ∈ slots, other.line ≠ [] → slot.line ≤ other.line) := by
  induction slots with
  | nil =>
    intro i minLine minIdx
    left
    simp [findMin]
  | cons slot rest ih =>
    intro i minLine minIdx
    by_cases hc : slot.line ≠ [] ∧ (minLine = [] ∨ slot.line < minLine)
    · have hf : findMin (slot :: rest) i minLine minIdx = findMin rest (i + 1) slot.line (some i) := by
        simp only [findMin]
        rw [if_pos hc]
      rw [hf]
      right
      rcases ih (i + 1) slot.line (some i) with ⟨h1, h2, h3⟩ | ⟨j, sl, hj, h2, h3, h4, h5, h6⟩
      · refine ⟨0, slot, by simp, by simpa using h2, h1.symm, hc.1, ?_, ?_⟩
        · intro hm
          rcases hc.2 with h | h
          · exact absurd h hm
          · exact le_of_lt h
        · intro other ho hne
          rcases List.mem_cons.1 ho with h | h
          · rw [h]
          · exact (h3 other h hne).2
      · refine ⟨j + 1, sl, by simpa using hj, ?_, h3, h4, ?_, ?_⟩
        · rw [h2]
          congr 1
          omega
        · intro hm
          rcases hc.2 with h | h
          · exact absurd h hm
          · exact le_trans (h5 hc.1) (le_of_lt h)
        · intro other ho hne
          rcases List.mem_cons.1 ho with h | h
          · rw [h]
            exact h5 hc.1
          · exact h6 other h hne
    · have hf : findMin (slot :: rest) i minLine minIdx = findMin rest (i + 1) minLine minIdx := by
        simp only [findMin]
        rw [if_neg hc]
      rw [hf]
      have hslot : slot.line ≠ [] → minLine ≠ [] ∧ minLine ≤ slot.line := by
        intro hne
        by_contra hcon
        apply hc
        refine ⟨hne, ?_⟩
        by_cases hm : minLine = []
        · exact Or.inl hm
        · right
          exact lt_of_not_le (fun hle => hcon ⟨hm, hle⟩)
      rcases ih (i + 1) minLine minIdx with ⟨h1, h2, h3⟩ | ⟨j, sl, hj, h2, h3, h4, h5, h6⟩
      · left
        refine ⟨h1, h2, ?_⟩
        intro other ho hne
        rcases List.mem_cons.1 ho with h | h
        · rw [h]
          exact hslot (h ▸ hne)
        · exact h3 other h hne
      · right
        refine ⟨j + 1, sl, by simpa using hj, ?_, h3, h4, h5, ?_⟩
        · rw [h2]
          congr 1
          omega
        · intro other ho hne
          rcases List.mem_cons.1 ho with h | h
          · rw [h]
            have := hslot (h ▸ hne)
            exact le_trans (h5 this.1) this.2
          · exact h6 other h hne

theorem mergeStep_cases (s : MergeState) :
    (mergeStep s = none ∧ ∀ slot ∈ s.slots, slot.line = []) ∨
    (∃ j slot, s.slots[j]? = some slot ∧ slot.line ≠ [] ∧
      (∀ other ∈ s.slots, other.line ≠ [] → slot.line ≤ other.line) ∧
      mergeStep s = some
        { slots := advance s.slots j
          uniqueCount := if slot.line ≠ s.lastLine then s.uniqueCount + 1 else s.uniqueCount
          lastLine := slot.line }) := by
  rcases findMin_spec s.slots 0 [] none with ⟨_, h2, h3⟩ | ⟨j, slot, hj, h2, h3, h4, _, h6⟩
  · left
    constructor
    · unfold mergeStep
      rcases hf : findMin s.slots 0 [] none with ⟨m, r⟩
      rw [hf] at h2
      simp only at h2
      subst h2
      rfl
    · intro slot hs
      by_contra hne
      exact (h3 slot hs hne).1 rfl
  · right
    refine ⟨j, slot, hj, h4, h6, ?_⟩
    unfold mergeStep
    rcases hf : findMin s.slots 0 [] none with ⟨m, r⟩
    rw [hf] at h2 h3
    simp only [Nat.zero_add] at h2 h3
    subst h2 h3
    simp only
    by_cases hl : slot.line = s.lastLine
    · rw [if_neg (not_not.2 hl), if_neg (not_not.2 hl)]
      cases s
      simp only at hl
      simp [hl]
    · rw [if_pos hl, if_pos hl]

theorem advance_length (slots : List Slot) :
    ∀ (j : Nat) (slot : Slot), slots[j]? = some slot → slot.line ≠ [] →
      (pendingLines (advance slots j)).length < (pendingLines slots).length := by
  induction slots with
  | nil =>
    intro j slot hj
    simp at hj
  | cons hd rest ih =>
    intro j slot hj hne
    cases j with
    | zero =>
      simp only [List.getElem?_cons_zero, Option.some.injEq] at hj
      subst hj
      simp only [advance, pendingLines_cons, List.length_append]
      have h1 := live_nextLine_length hd.reader
      rw [live_of_line_ne hne, List.length_cons]
      omega
    | succ j =>
      simp only [List.getElem?_cons_succ] at hj
      simp only [advance, pendingLines_cons, List.length_append]
      have := ih j slot hj hne
      omega

theorem advance_perm (slots : List Slot) :
    ∀ (j : Nat) (slot : Slot), slots[j]? = some slot → slot.line ≠ [] →
      (∀ sl ∈ slots, SlotOK sl) →
      (pendingLines slots).Perm (slot.line :: pendingLines (advance slots j)) ∧
        ∀ sl ∈ advance slots j, SlotOK sl := by
  induction slots with
  | nil =>
    intro j slot hj
    simp at hj
  | cons hd rest ih =>
    intro j slot hj hne hok
    cases j with
    | zero =>
      simp only [List.getElem?_cons_zero, Option.some.injEq] at hj
      subst hj
      obtain ⟨hok1, hl⟩ := slotOK_nextLine hne (hok hd (by simp))
      constructor
      · simp only [advance, pendingLines_cons]
        rw [hl, live_of_line_ne hne]
        exact List.Perm.refl _
      · intro sl hs
        simp only [advance, List.mem_cons] at hs
        rcases hs with h | h
        · rw [h]
          exact hok1
        · exact hok sl (by simp [h])
    | succ j =>
      simp only [List.getElem?_cons_succ] at hj
      obtain ⟨hp, hok2⟩ := ih j slot hj hne (fun sl hs => hok sl (by simp [hs]))
      constructor
      · simp only [advance, pendingLines_cons]
        exact (List.Perm.append_left hd.live hp).trans List.perm_middle
      · intro sl hs
        simp only [advance, List.mem_cons] at hs
        rcases hs with h | h
        · rw [h]
          exact hok hd (by simp)
        · exact hok2 sl h

/-- The loop of `mergeChunks` reaches its `break` when the fuel exceeds
the number of lines still to be selected. -/
theorem mergeLoop_terminates :
    ∀ (fuel : Nat) (s : MergeState), (pendingLines s.slots).length < fuel →
      ∃ s', mergeLoop fuel s = some s' ∧ mergeStep s' = none := by
  intro fuel
  induction fuel with
  | zero =>
    intro s h
    omega
  | succ fuel ih =>
    intro s h
    rcases mergeStep_cases s with ⟨h1, _⟩ | ⟨j, slot, hj, hne, _, hstep⟩
    · exact ⟨s, by simp [mergeLoop, h1], h1⟩
    · have hlen := advance_length s.slots j slot hj hne
      obtain ⟨s', hs', hd⟩ := ih
        { slots := advance s.slots j
          uniqueCount := if slot.line ≠ s.lastLine then s.uniqueCount + 1 else s.uniqueCount
          lastLine := slot.line } (by simp only; omega)
      exact ⟨s', by simp only [mergeLoop, hstep]; exact hs', hd⟩

theorem le_of_mem_pendingLines {slots : List Slot} (hok : ∀ sl ∈ slots, SlotOK sl)
    {m : Line} (hmin : ∀ other ∈ slots, other.line ≠ [] → m ≤ other.line)
    {x : Line} (hx : x ∈ pendingLines slots) : m ≤ x := by
  obtain ⟨sl, hs, hxl⟩ := mem_pendingLines.1 hx
  by_cases hl : sl.line = []
  · rw [live_of_line_eq hl] at hxl
    simp at hxl
  · have hsorted := (hok sl hs).1
    rw [live_of_line_ne hl] at hsorted hxl
    rcases List.mem_cons.1 hxl with h | h
    · rw [h]
      exact hmin sl hs hl
    · exact le_trans (hmin sl hs hl) (List.rel_of_sorted_cons hsorted x h)

/-- The count made by the loop of `mergeChunks`: every distinct pending line is
counted once, except the line counted last. -/
theorem mergeLoop_count :
    ∀ (fuel : Nat) (s : MergeState), (pendingLines s.slots).length < fuel →
      (∀ sl ∈ s.slots, SlotOK sl) → (∀ x ∈ pendingLines s.slots, s.lastLine ≤ x) →
      ∃ s', mergeLoop fuel s = some s' ∧
        s'.uniqueCount = s.uniqueCount + ((pendingLines s.slots).toFinset.erase s.lastLine).card := by
  intro fuel
  induction fuel with
  | zero =>
    intro s h
    omega
  | succ fuel ih =>
    intro s h hok hlast
    rcases mergeStep_cases s with ⟨h1, h2⟩ | ⟨j, slot, hj, hne, hmin, hstep⟩
    · refine ⟨s, by simp [mergeLoop, h1], ?_⟩
      have hp : pendingLines s.slots = [] := by
        apply List.eq_nil_iff_forall_not_mem.2
        intro x hx
        obtain ⟨sl, hs, hxl⟩ := mem_pendingLines.1 hx
        rw [live_of_line_eq (h2 sl hs)] at hxl
        simp at hxl
      simp [hp]
    · have hlen := advance_length s.slots j slot hj hne
      obtain ⟨hperm, hok2⟩ := advance_perm s.slots j slot hj hne hok
      have hsub : ∀ x ∈ pendingLines (advance s.slots j), x ∈ pendingLines s.slots :=
        fun x hx => hperm.mem_iff.2 (List.mem_cons_of_mem _ hx)
      have hm : slot.line ∈ pendingLines s.slots := hperm.mem_iff.2 (by simp)
      obtain ⟨s', hs', hcount⟩ := ih
        { slots := advance s.slots j
          uniqueCount := if slot.line ≠ s.lastLine then s.uniqueCount + 1 else s.uniqueCount
          lastLine := slot.line } (by simp only; omega) hok2
        (fun x hx => le_of_mem_pendingLines hok hmin (hsub x hx))
      refine ⟨s', by simp only [mergeLoop, hstep]; exact hs', ?_⟩
      rw [hcount]
      simp only
      have hfin : (pendingLines s.slots).toFinset =
          insert slot.line (pendingLines (advance s.slots j)).toFinset := by
        rw [List.toFinset_eq_of_perm _ _ hperm, List.toFinset_cons]
      rw [hfin]
      by_cases hl : slot.line = s.lastLine
      · rw [if_neg (not_not.2 hl), ← hl, Finset.erase_insert_eq_erase]
      · rw [if_pos hl]
        have hnot : s.lastLine ∉ insert slot.line (pendingLines (advance s.slots j)).toFinset := by
          rw [← hfin]
          intro hin
          have h1 : slot.line ≤ s.lastLine :=
            le_of_mem_pendingLines hok hmin (List.mem_toFinset.1 hin)
          exact hl (le_antisymm h1 (hlast _ hm))
        rw [Finset.erase_eq_of_not_mem hnot,
          ← Finset.card_erase_add_one (Finset.mem_insert_self slot.line _),
          Finset.erase_insert_eq_erase]
        omega

theorem pendingLines_length_lt_mergeFuel (slots : List Slot) :
    (pendingLines slots).length < mergeFuel slots := by
  have h : ∀ l : List Slot, (pendingLines l).length ≤
      (l.map (fun slot => slot.reader.pending.length + 1)).sum := by
    intro l
    induction l with
    | nil => simp [pendingLines]
    | cons hd rest ih =>
      rw [pendingLines_cons, List.length_append, List.map_cons, List.sum_cons]
      have h1 : hd.live.length ≤ hd.reader.pending.length + 1 := by
        unfold Slot.live
        split <;> simp
      omega
  have := h slots
  unfold mergeFuel
  omega

/-- The function `mergeChunks` always returns, and with a nil error. -/
theorem mergeChunks_returns (chunkFiles : List File) :
    ∃ n, mergeChunks chunkFiles = some (n, none) := by
  obtain ⟨s', hs', _⟩ := mergeLoop_terminates
    (mergeFuel (chunkFiles.map (fun file => nextLine (NewScanner file))))
    { slots := chunkFiles.map (fun file => nextLine (NewScanner file))
      uniqueCount := 0
      lastLine := [] }
    (pendingLines_length_lt_mergeFuel _)
  exact ⟨s'.uniqueCount, by simp only [mergeChunks, hs', Option.map_some']⟩

theorem pendingLines_primed (chunkFiles : List File)
    (h : ∀ f ∈ chunkFiles, [] ∉ chunkLines f) :
    pendingLines (chunkFiles.map (fun file => nextLine (NewScanner file))) =
      (chunkFiles.map chunkLines).flatten := by
  induction chunkFiles with
  | nil => simp [pendingLines]
  | cons f rest ih =>
    rw [List.map_cons, pendingLines_cons, ih (fun g hg => h g (by simp [hg])),
      live_nextLine_of_not_mem (NewScanner f) (h f (by simp))]
    simp [chunkLines]

/-- The count of `mergeChunks` over chunks that are ascending and hold no empty
line: the number of distinct lines of all chunks together. -/
theorem mergeChunks_count (chunkFiles : List File)
    (h : ∀ f ∈ chunkFiles, (chunkLines f).Sorted (· ≤ ·) ∧ [] ∉ chunkLines f) :
    mergeChunks chunkFiles = some (((chunkFiles.map chunkLines).flatten).toFinset.card, none) := by
  have hp := pendingLines_primed chunkFiles (fun f hf => (h f hf).2)
  have hok : ∀ sl ∈ chunkFiles.map (fun file => nextLine (NewScanner file)), SlotOK sl := by
    intro sl hs
    obtain ⟨f, hf, rfl⟩ := List.mem_map.1 hs
    have hl : (nextLine (NewScanner f)).live = chunkLines f :=
      live_nextLine_of_not_mem (NewScanner f) (h f hf).2
    exact ⟨by rw [hl]; exact (h f hf).1, by rw [hl]; exact (h f hf).2⟩
  obtain ⟨s', hs', hcount⟩ := mergeLoop_count
    (mergeFuel (chunkFiles.map (fun file => nextLine (NewScanner file))))
    { slots := chunkFiles.map (fun file => nextLine (NewScanner file))
      uniqueCount := 0
      lastLine := [] }
    (pendingLines_length_lt_mergeFuel _) hok (fun _ _ => List.nil_le)
  simp only [hp, Nat.zero_add] at hcount
  have hnot : ([] : Line) ∉ ((chunkFiles.map chunkLines).flatten).toFinset := by
    rw [List.mem_toFinset, List.mem_flatten]
    rintro ⟨l, hl, hmem⟩
    obtain ⟨f, hf, rfl⟩ := List.mem_map.1 hl
    exact (h f hf).2 hmem
  rw [Finset.erase_eq_of_not_mem hnot] at hcount
  simp only [mergeChunks, hs', Option.map_some', hcount]

/-! ## The chunks of `splitFile` as lists of lines -/

theorem mem_slice {c : Nat} {l : List Line} {k : Nat} {x : Line} (h : x ∈ slice c l k) :
    x ∈ l :=
  List.mem_of_mem_drop (List.mem_of_mem_take h)

theorem slice_succ (c : Nat) (l : List Line) (k : Nat) :
    slice c l (k + 1) = slice c (l.drop c) k := by
  unfold slice
  rw [List.drop_drop, Nat.succ_mul, Nat.add_comm]

theorem slices_flatten (c : Nat) :
    ∀ (m : Nat) (l : List Line), l.length ≤ m * c →
      ((List.range m).map (slice c l)).flatten = l := by
  intro m
  induction m with
  | zero =>
    intro l h
    have : l = [] := List.length_eq_zero.1 (by omega)
    simp [this]
  | succ m ih =>
    intro l h
    rw [List.range_succ_eq_map, List.map_cons, List.map_map, List.flatten_cons]
    have hfun : slice c l ∘ Nat.succ = slice c (l.drop c) := by
      funext k
      exact slice_succ c l k
    rw [hfun, ih (l.drop c) (by rw [List.length_drop, Nat.succ_mul] at *; omega)]
    simp [slice]

theorem flatten_sortStrings_perm (f : Nat → List Line) (ks : List Nat) :
    ((ks.map (fun k => sortStrings (f k))).flatten).Perm ((ks.map f).flatten) := by
  induction ks with
  | nil => simp
  | cons k ks ih =>
    simp only [List.map_cons, List.flatten_cons]
    exact List.Perm.append (sortStrings_perm (f k)) ih

theorem le_chunkCount_mul (n c : Nat) (hc : 1 ≤ c) : n ≤ chunkCount n c * c := by
  unfold chunkCount
  have h := Nat.lt_mul_div_succ (n + c - 1) (show 0 < c by omega)
  rw [Nat.mul_succ, Nat.mul_comm] at h
  omega

theorem chunkCount_mul_lt (n c : Nat) (hc : 1 ≤ c) : chunkCount n c * c < n + c := by
  unfold chunkCount
  have h := Nat.div_mul_le_self (n + c - 1) c
  omega

theorem trimmedLines_no_newline (input : File) :
    ∀ l ∈ trimmedLines input, 10 ∉ l := by
  intro l hl
  obtain ⟨t, ht, rfl⟩ := List.mem_map.1 hl
  exact fun h => scanLines_no_newline input.data [] (by simp) t ht ((trimSpace_sublist t).subset h)

theorem trimmedLines_no_cr (input : File) :
    ∀ l ∈ trimmedLines input, l.getLast? ≠ some 13 := by
  intro l hl
  obtain ⟨t, _, rfl⟩ := List.mem_map.1 hl
  exact trimSpace_getLast t

theorem trimmedLines_byteLen (input : File) :
    ∀ l ∈ trimmedLines input, byteLen l < maxScanTokenSize := by
  intro l hl
  obtain ⟨t, ht, rfl⟩ := List.mem_map.1 hl
  exact lt_of_le_of_lt (byteLen_le_of_sublist (trimSpace_sublist t))
    (scanLines_byteLen input.data [] t ht)

/-- The lines read back from the chunk files of the partition of the input
lines: chunk `k` holds the sorted slice `k` of the trimmed input lines. -/
theorem chunkLines_partition (input : File) (c : Nat) (hc : 1 ≤ c) :
    (partition (inputLines input) c).map chunkLines =
      (List.range (chunkCount (trimmedLines input).length c)).map
        (fun k => sortStrings (slice c (trimmedLines input) k)) := by
  rw [partition_eq input c hc, List.map_map]
  apply List.map_congr_left
  intro k _
  exact chunkLines_writeChunk _ k
    (fun l hl => trimmedLines_no_newline input l (mem_slice hl))
    (fun l hl => trimmedLines_no_cr input l (mem_slice hl))
    (fun l hl => trimmedLines_byteLen input l (mem_slice hl))

theorem chunkLines_partition_perm (input : File) (c : Nat) (hc : 1 ≤ c) :
    (((partition (inputLines input) c).map chunkLines).flatten).Perm (trimmedLines input) := by
  rw [chunkLines_partition input c hc]
  have h := flatten_sortStrings_perm (slice c (trimmedLines input))
    (List.range (chunkCount (trimmedLines input).length c))
  rw [slices_flatten c _ _ (le_chunkCount_mul _ c hc)] at h
  exact h

theorem mem_chunkLines_partition (input : File) (c : Nat) (hc : 1 ≤ c) (f : File)
    (hf : f ∈ (partition (inputLines input) c)) :
    ∃ k, chunkLines f = sortStrings (slice c (trimmedLines input) k) := by
  have h : chunkLines f ∈ (partition (inputLines input) c).map chunkLines := List.mem_map_of_mem _ hf
  rw [chunkLines_partition input c hc] at h
  obtain ⟨k, _, hk⟩ := List.mem_map.1 h
  exact ⟨k, hk.symm⟩

/-- The whole pipeline on an input without blank lines: the count is the
number of distinct trimmed lines. -/
theorem pipeline_count (input : File) (c : Nat) (hc : 1 ≤ c)
    (hne : ∀ l ∈ inputLines input, trimSpace l ≠ []) :
    mergeChunks (partition (inputLines input) c) = some ((trimmedLines input).toFinset.card, none) := by
  have hnot : ([] : Line) ∉ trimmedLines input := by
    intro h
    obtain ⟨t, ht, h0⟩ := List.mem_map.1 h
    exact hne t ht h0
  rw [mergeChunks_count]
  · rw [List.toFinset_eq_of_perm _ _ (chunkLines_partition_perm input c hc)]
  · intro f hf
    obtain ⟨k, hk⟩ := mem_chunkLines_partition input c hc f hf
    rw [hk]
    refine ⟨sortStrings_sorted _, ?_⟩
    intro h
    exact hnot (mem_slice ((sortStrings_perm _).mem_iff.1 h))

/-! ## Further facts on `splitFile` -/

theorem partLoop_map_trimSpace (c : Nat) (toks : List Line) :
    ∀ s : PartState, partLoop c (toks.map trimSpace) s = partLoop c toks s := by
  induction toks with
  | nil =>
    intro s
    rfl
  | cons text rest ih =>
    intro s
    simp only [List.map_cons, partLoop, trimSpace_idem, ih]

theorem partition_of_trimmed (input input2 : File) (c : Nat)
    (h : inputLines input2 = (inputLines input).map trimSpace) :
    (partition (inputLines input2) c) = (partition (inputLines input) c) := by
  unfold partition
  rw [h, partLoop_map_trimSpace]

theorem partLoop_zero (toks : List Line) :
    ∀ s : PartState, s.buffer = [] → partLoop 0 toks s = partLoop 1 toks s := by
  induction toks with
  | nil =>
    intro s _
    rfl
  | cons text rest ih =>
    intro s hs
    simp only [partLoop, hs, List.nil_append, List.length_singleton, ge_iff_le, Nat.zero_le,
      le_refl, if_true]
    exact ih _ rfl

theorem partition_zero (lines : List Line) : partition lines 0 = partition lines 1 := by
  unfold partition
  rw [partLoop_zero lines { chunkFiles := [], buffer := [], chunkIdx := 0 } rfl]

theorem slice_length (c : Nat) (l : List Line) (k : Nat) :
    (slice c l k).length = min c (l.length - k * c) := by
  simp [slice]

theorem getElem?_partition (input : File) (c : Nat) (hc : 1 ≤ c) (k : Nat) (f : File)
    (hk : (partition (inputLines input) c)[k]? = some f) :
    k < chunkCount (trimmedLines input).length c ∧
      f = writeChunk (slice c (trimmedLines input) k) k ∧
      chunkLines f = sortStrings (slice c (trimmedLines input) k) := by
  rw [partition_eq input c hc, List.getElem?_map] at hk
  cases hr : (List.range (chunkCount (trimmedLines input).length c))[k]? with
  | none =>
    rw [hr] at hk
    simp at hk
  | some j =>
    rw [hr] at hk
    have hj := List.getElem?_eq_some_iff.1 hr
    obtain ⟨hlt, hjk⟩ := hj
    rw [List.getElem_range] at hjk
    subst hjk
    simp only [Option.map_some', Option.some.injEq] at hk
    refine ⟨by simpa using hlt, hk.symm, ?_⟩
    rw [← hk]
    exact chunkLines_writeChunk _ k
      (fun l hl => trimmedLines_no_newline input l (mem_slice hl))
      (fun l hl => trimmedLines_no_cr input l (mem_slice hl))
      (fun l hl => trimmedLines_byteLen input l (mem_slice hl))

/-! ## The selections of the merge loop -/

/-- The inner loop of `mergeChunks` selects the lowest index among the slots
that hold the minimum: a slot before the selected one holds a greater line. -/
theorem findMin_lowest (slots : List Slot) :
    ∀ (i : Nat) (minLine : Line) (minIdx : Option Nat),
      (∀ k, minIdx = some k → k < i) →
      ∀ j, (findMin slots i minLine minIdx).2 = some (i + j) →
        ∃ slot, slots[j]? = some slot ∧
          slot.line = (findMin slots i minLine minIdx).1 ∧
          (minLine ≠ [] → slot.line < minLine) ∧
          ∀ j2 other, j2 < j → slots[j2]? = some other → other.line ≠ [] →
            slot.line < other.line := by
  induction slots with
  | nil =>
    intro i minLine minIdx hidx j hj
    simp only [findMin] at hj
    have := hidx (i + j) hj
    omega
  | cons hd rest ih =>
    intro i minLine minIdx hidx j hj
    by_cases hc : hd.line ≠ [] ∧ (minLine = [] ∨ hd.line < minLine)
    · have hf : findMin (hd :: rest) i minLine minIdx = findMin rest (i + 1) hd.line (some i) := by
        simp only [findMin]
        rw [if_pos hc]
      rw [hf] at hj ⊢
      have hlt : minLine ≠ [] → hd.line < minLine := by
        intro hm
        rcases hc.2 with h | h
        · exact absurd h hm
        · exact h
      cases j with
      | zero =>
        refine ⟨hd, by simp, ?_, hlt, ?_⟩
        · rcases findMin_spec rest (i + 1) hd.line (some i) with ⟨h1, _, _⟩ | ⟨j2, _, _, h2, _⟩
          · exact h1.symm
          · rw [h2] at hj
            simp only [Nat.add_zero, Option.some.injEq] at hj
            omega
        · intro j2 other hj2
          omega
      | succ j =>
        have hj2 : (findMin rest (i + 1) hd.line (some i)).2 = some (i + 1 + j) := by
          rw [hj]
          congr 1
          omega
        obtain ⟨slot, hs, hline, hmin, hlow⟩ := ih (i + 1) hd.line (some i)
          (by intro k hk; simp only [Option.some.injEq] at hk; omega) j hj2
        refine ⟨slot, by simpa using hs, hline, ?_, ?_⟩
        · intro hm
          exact lt_trans (hmin hc.1) (hlt hm)
        · intro j2 other hlt2 ho hne
          cases j2 with
          | zero =>
            simp only [List.getElem?_cons_zero, Option.some.injEq] at ho
            subst ho
            exact hmin hc.1
          | succ j2 =>
            simp only [List.getElem?_cons_succ] at ho
            exact hlow j2 other (by omega) ho hne
    · have hf : findMin (hd :: rest) i minLine minIdx = findMin rest (i + 1) minLine minIdx := by
        simp only [findMin]
        rw [if_neg hc]
      rw [hf] at hj ⊢
      have hhd : hd.line ≠ [] → minLine ≠ [] ∧ minLine ≤ hd.line := by
        intro hne
        by_contra hcon
        apply hc
        refine ⟨hne, ?_⟩
        by_cases hm : minLine = []
        · exact Or.inl hm
        · right
          exact lt_of_not_le (fun hle => hcon ⟨hm, hle⟩)
      cases j with
      | zero =>
        exfalso
        rcases findMin_spec rest (i + 1) minLine minIdx with ⟨_, h2, _⟩ | ⟨j2, _, _, h2, _⟩
        · rw [h2] at hj
          have := hidx (i + 0) hj
          omega
        · rw [h2] at hj
          simp only [Nat.add_zero, Option.some.injEq] at hj
          omega
      | succ j =>
        have hj2 : (findMin rest (i + 1) minLine minIdx).2 = some (i + 1 + j) := by
          rw [hj]
          congr 1
          omega
        obtain ⟨slot, hs, hline, hmin, hlow⟩ := ih (i + 1) minLine minIdx
          (by intro k hk; have := hidx k hk; omega) j hj2
        refine ⟨slot, by simpa using hs, hline, hmin, ?_⟩
        intro j2 other hlt2 ho hne
        cases j2 with
        | zero =>
          simp only [List.getElem?_cons_zero, Option.some.injEq] at ho
          subst ho
          have := hhd hne
          exact lt_of_lt_of_le (hmin this.1) this.2
        | succ j2 =>
          simp only [List.getElem?_cons_succ] at ho
          exact hlow j2 other (by omega) ho hne

/-- One iteration of the loop of `mergeChunks`: either it breaks, every slot
holding the empty string, or it selects the slot of lowest index among those
holding the least line that is not empty, and advances that slot. -/
theorem mergeStep_select (s : MergeState) :
    (mergeStep s = none ∧ ∀ slot ∈ s.slots, slot.line = []) ∨
    (∃ j slot, s.slots[j]? = some slot ∧ slot.line ≠ [] ∧ selectedLine s = slot.line ∧
      (∀ other ∈ s.slots, other.line ≠ [] → slot.line ≤ other.line) ∧
      (∀ j2 other, j2 < j → s.slots[j2]? = some other → other.line ≠ [] →
        slot.line < other.line) ∧
      mergeStep s = some
        { slots := advance s.slots j
          uniqueCount := if slot.line ≠ s.lastLine then s.uniqueCount + 1 else s.uniqueCount
          lastLine := slot.line }) := by
  rcases findMin_spec s.slots 0 [] none with ⟨_, h2, h3⟩ | ⟨j, slot, hj, h2, h3, h4, _, h6⟩
  · left
    constructor
    · unfold mergeStep
      rcases hf : findMin s.slots 0 [] none with ⟨m, r⟩
      rw [hf] at h2
      simp only at h2
      subst h2
      rfl
    · intro slot hs
      by_contra hne
      exact (h3 slot hs hne).1 rfl
  · right
    obtain ⟨slot2, hs2, _, _, hlow⟩ := findMin_lowest s.slots 0 [] none
      (by intro k hk; simp at hk) j h2
    have heq : slot2 = slot := by
      rw [hj] at hs2
      exact (Option.some.inj hs2).symm
    subst heq
    refine ⟨j, slot2, hj, h4, h3.symm, h6, hlow, ?_⟩
    unfold mergeStep
    rcases hf : findMin s.slots 0 [] none with ⟨m, r⟩
    rw [hf] at h2 h3
    simp only [Nat.zero_add] at h2 h3
    subst h2 h3
    simp only
    by_cases hl : slot2.line = s.lastLine
    · rw [if_neg (not_not.2 hl), if_neg (not_not.2 hl)]
      cases s
      simp only at hl
      simp [hl]
    · rw [if_pos hl, if_pos hl]

theorem live_nextLine_of_live {slot : Slot} (hline : slot.line ≠ [])
    (hne : [] ∉ slot.live) :
    (nextLine slot.reader).live = slot.reader.pending ∧ [] ∉ (nextLine slot.reader).live := by
  rw [live_of_line_ne hline] at hne
  have hmem : [] ∉ slot.reader.pending := fun h => hne (List.mem_cons_of_mem _ h)
  have hl := live_nextLine_of_not_mem slot.reader hmem
  exact ⟨hl, by rw [hl]; exact hmem⟩

/-- An iteration consumes exactly the selected line when no pending line is empty. -/
theorem advance_perm_of_not_mem (slots : List Slot) :
    ∀ (j : Nat) (slot : Slot), slots[j]? = some slot → slot.line ≠ [] →
      (∀ sl ∈ slots, [] ∉ sl.live) →
      (pendingLines slots).Perm (slot.line :: pendingLines (advance slots j)) ∧
        ∀ sl ∈ advance slots j, [] ∉ sl.live := by
  induction slots with
  | nil =>
    intro j slot hj
    simp at hj
  | cons hd rest ih =>
    intro j slot hj hne hok
    cases j with
    | zero =>
      simp only [List.getElem?_cons_zero, Option.some.injEq] at hj
      subst hj
      obtain ⟨hl, hok1⟩ := live_nextLine_of_live hne (hok hd (by simp))
      constructor
      · simp only [advance, pendingLines_cons]
        rw [hl, live_of_line_ne hne]
        exact List.Perm.refl _
      · intro sl hs
        simp only [advance, List.mem_cons] at hs
        rcases hs with h | h
        · rw [h]
          exact hok1
        · exact hok sl (by simp [h])
    | succ j =>
      simp only [List.getElem?_cons_succ] at hj
      obtain ⟨hp, hok2⟩ := ih j slot hj hne (fun sl hs => hok sl (by simp [hs]))
      constructor
      · simp only [advance, pendingLines_cons]
        exact (List.Perm.append_left hd.live hp).trans List.perm_middle
      · intro sl hs
        simp only [advance, List.mem_cons] at hs
        rcases hs with h | h
        · rw [h]
          exact hok hd (by simp)
        · exact hok2 sl h

/-- With enough fuel the selections of the loop are, when no pending line is
empty, a rearrangement of the pending lines. -/
theorem mergeSelections_perm :
    ∀ (fuel : Nat) (s : MergeState), (pendingLines s.slots).length < fuel →
      (∀ sl ∈ s.slots, [] ∉ sl.live) →
      ∃ tr, mergeSelections fuel s = some tr ∧ tr.Perm (pendingLines s.slots) := by
  intro fuel
  induction fuel with
  | zero =>
    intro s h
    omega
  | succ fuel ih =>
    intro s h hok
    rcases mergeStep_select s with ⟨h1, h2⟩ | ⟨j, slot, hj, hne, hsel, _, _, hstep⟩
    · refine ⟨[], by simp [mergeSelections, h1], ?_⟩
      have hp : pendingLines s.slots = [] := by
        apply List.eq_nil_iff_forall_not_mem.2
        intro x hx
        obtain ⟨sl, hs, hxl⟩ := mem_pendingLines.1 hx
        rw [live_of_line_eq (h2 sl hs)] at hxl
        simp at hxl
      rw [hp]
    · have hlen := advance_length s.slots j slot hj hne
      obtain ⟨hperm, hok2⟩ := advance_perm_of_not_mem s.slots j slot hj hne hok
      obtain ⟨tr, htr, hp⟩ := ih
        { slots := advance s.slots j
          uniqueCount := if slot.line ≠ s.lastLine then s.uniqueCount + 1 else s.uniqueCount
          lastLine := slot.line } (by simp only; omega) hok2
      refine ⟨slot.line :: tr, ?_, ?_⟩
      · simp only [mergeSelections, hstep, htr, Option.map_some', hsel]
      · exact (List.Perm.cons slot.line hp).trans hperm.symm

/-- With enough fuel the selections of the loop are, when the remaining lines
of every slot are ascending and not empty, the pending lines in ascending order. -/
theorem mergeSelections_sorted :
    ∀ (fuel : Nat) (s : MergeState), (pendingLines s.slots).length < fuel →
      (∀ sl ∈ s.slots, SlotOK sl) →
      ∃ tr, mergeSelections fuel s = some tr ∧ tr.Perm (pendingLines s.slots) ∧
        tr.Sorted (· ≤ ·) := by
  intro fuel
  induction fuel with
  | zero =>
    intro s h
    omega
  | succ fuel ih =>
    intro s h hok
    rcases mergeStep_select s with ⟨h1, h2⟩ | ⟨j, slot, hj, hne, hsel, hmin, _, hstep⟩
    · refine ⟨[], by simp [mergeSelections, h1], ?_, List.sorted_nil⟩
      have hp : pendingLines s.slots = [] := by
        apply List.eq_nil_iff_forall_not_mem.2
        intro x hx
        obtain ⟨sl, hs, hxl⟩ := mem_pendingLines.1 hx
        rw [live_of_line_eq (h2 sl hs)] at hxl
        simp at hxl
      rw [hp]
    · have hlen := advance_length s.slots j slot hj hne
      obtain ⟨hperm, hok2⟩ := advance_perm s.slots j slot hj hne hok
      obtain ⟨tr, htr, hp, hsorted⟩ := ih
        { slots := advance s.slots j
          uniqueCount := if slot.line ≠ s.lastLine then s.uniqueCount + 1 else s.uniqueCount
          lastLine := slot.line } (by simp only; omega) hok2
      refine ⟨slot.line :: tr, ?_, ?_, ?_⟩
      · simp only [mergeSelections, hstep, htr, Option.map_some', hsel]
      · exact (List.Perm.cons slot.line hp).trans hperm.symm
      · refine List.sorted_cons.2 ⟨?_, hsorted⟩
        intro b hb
        have hb2 : b ∈ pendingLines s.slots :=
          hperm.mem_iff.2 (List.mem_cons_of_mem _ (hp.mem_iff.1 hb))
        exact le_of_mem_pendingLines hok hmin hb2

theorem mergeLoop_break :
    ∀ (fuel : Nat) (s s2 : MergeState), mergeLoop fuel s = some s2 →
      mergeStep s2 = none ∧ ∀ slot ∈ s2.slots, slot.line = [] := by
  intro fuel
  induction fuel with
  | zero =>
    intro s s2 h
    simp [mergeLoop] at h
  | succ fuel ih =>
    intro s s2 h
    rcases mergeStep_cases s with ⟨h1, h2⟩ | ⟨j, slot, _, _, _, hstep⟩
    · simp only [mergeLoop, h1, Option.some.injEq] at h
      subst h
      exact ⟨h1, h2⟩
    · simp only [mergeLoop, hstep] at h
      exact ih _ s2 h

theorem mergeLoop_mono :
    ∀ (fuel : Nat) (s s2 : MergeState), mergeLoop fuel s = some s2 →
      ∀ more : Nat, mergeLoop (fuel + more) s = some s2 := by
  intro fuel
  induction fuel with
  | zero =>
    intro s s2 h
    simp [mergeLoop] at h
  | succ fuel ih =>
    intro s s2 h more
    have hf : fuel + 1 + more = (fuel + more) + 1 := by omega
    rw [hf]
    cases hstep : mergeStep s with
    | none =>
      simp only [mergeLoop, hstep] at h ⊢
      exact h
    | some s1 =>
      simp only [mergeLoop, hstep] at h ⊢
      exact ih s1 s2 h more

theorem mergeLoop_count_le :
    ∀ (fuel : Nat) (s s2 : MergeState), mergeLoop fuel s = some s2 →
      s.uniqueCount ≤ s2.uniqueCount := by
  intro fuel
  induction fuel with
  | zero =>
    intro s s2 h
    simp [mergeLoop] at h
  | succ fuel ih =>
    intro s s2 h
    rcases mergeStep_cases s with ⟨h1, _⟩ | ⟨j, slot, _, _, _, hstep⟩
    · simp only [mergeLoop, h1, Option.some.injEq] at h
      subst h
      exact le_refl _
    · simp only [mergeLoop, hstep] at h
      have := ih _ s2 h
      simp only at this
      split at this <;> omega

/-! ## Chunks that hold an empty line -/

/-- The lines that a primed slot contributes when its chunk is ascending: none
when the chunk holds an empty line, which then comes first. -/
theorem live_primed (f : File) (hs : (chunkLines f).Sorted (· ≤ ·)) :
    (nextLine (NewScanner f)).live = if [] ∈ chunkLines f then [] else chunkLines f := by
  by_cases hmem : [] ∈ chunkLines f
  · rw [if_pos hmem]
    have hp : (NewScanner f).pending = chunkLines f := rfl
    unfold nextLine Scanner.Scan
    cases hc : (NewScanner f).pending with
    | nil => simp [Slot.live]
    | cons t rest =>
      rw [← hp, hc] at hs hmem
      have ht : t = [] := by
        rcases List.mem_cons.1 hmem with h | h
        · exact h.symm
        · exact le_antisymm (List.rel_of_sorted_cons hs [] h) List.nil_le
      simp [Slot.live, ht]
  · rw [if_neg hmem]
    exact live_nextLine_of_not_mem (NewScanner f) hmem

theorem slotOK_primed (f : File) (hs : (chunkLines f).Sorted (· ≤ ·)) :
    SlotOK (nextLine (NewScanner f)) := by
  unfold SlotOK
  rw [live_primed f hs]
  by_cases hmem : [] ∈ chunkLines f
  · rw [if_pos hmem]
    exact ⟨List.sorted_nil, by simp⟩
  · rw [if_neg hmem]
    exact ⟨hs, hmem⟩

theorem pendingLines_mergeInit (chunkFiles : List File)
    (h : ∀ f ∈ chunkFiles, (chunkLines f).Sorted (· ≤ ·)) :
    pendingLines (mergeInit chunkFiles).slots =
      ((chunksWithoutEmptyLine chunkFiles).map chunkLines).flatten := by
  induction chunkFiles with
  | nil => simp [pendingLines, mergeInit, chunksWithoutEmptyLine]
  | cons f rest ih =>
    have ih2 := ih (fun g hg => h g (by simp [hg]))
    have hcons : pendingLines (mergeInit (f :: rest)).slots =
        (nextLine (NewScanner f)).live ++ pendingLines (mergeInit rest).slots := by
      simp [mergeInit, pendingLines]
    rw [hcons, ih2, live_primed f (h f (by simp))]
    by_cases hmem : [] ∈ chunkLines f
    · simp [chunksWithoutEmptyLine, List.filter_cons, hmem]
    · simp [chunksWithoutEmptyLine, List.filter_cons, hmem]

theorem mergeChunks_eq (chunkFiles : List File) :
    mergeChunks chunkFiles =
      (mergeLoop (mergeFuel (mergeInit chunkFiles).slots) (mergeInit chunkFiles)).map
        (fun s => (s.uniqueCount, none)) :=
  rfl

/-- The count of `mergeChunks` over ascending chunks: the number of distinct
lines of the chunks that hold no empty line. -/
theorem mergeChunks_count_sorted (chunkFiles : List File)
    (h : ∀ f ∈ chunkFiles, (chunkLines f).Sorted (· ≤ ·)) :
    mergeChunks chunkFiles =
      some ((((chunksWithoutEmptyLine chunkFiles).map chunkLines).flatten).toFinset.card,
        none) := by
  have hp := pendingLines_mergeInit chunkFiles h
  have hok : ∀ sl ∈ (mergeInit chunkFiles).slots, SlotOK sl := by
    intro sl hs
    obtain ⟨f, hf, rfl⟩ := List.mem_map.1 hs
    exact slotOK_primed f (h f hf)
  obtain ⟨s2, hs2, hcount⟩ := mergeLoop_count (mergeFuel (mergeInit chunkFiles).slots)
    (mergeInit chunkFiles) (pendingLines_length_lt_mergeFuel _) hok (fun _ _ => List.nil_le)
  rw [hp] at hcount
  have hnot : ([] : Line) ∉
      (((chunksWithoutEmptyLine chunkFiles).map chunkLines).flatten).toFinset := by
    rw [List.mem_toFinset, List.mem_flatten]
    rintro ⟨l, hl, hmem⟩
    obtain ⟨f, hf, rfl⟩ := List.mem_map.1 hl
    have := (List.mem_filter.1 hf).2
    simp only [decide_eq_true_eq] at this
    exact this hmem
  have hinit : (mergeInit chunkFiles).lastLine = [] := rfl
  have hzero : (mergeInit chunkFiles).uniqueCount = 0 := rfl
  rw [hinit, Finset.erase_eq_of_not_mem hnot, hzero, Nat.zero_add] at hcount
  rw [mergeChunks_eq, hs2, Option.map_some', hcount]

theorem line_primed_of_mem (f : File) (hs : (chunkLines f).Sorted (· ≤ ·))
    (hmem : [] ∈ chunkLines f) : (nextLine (NewScanner f)).line = [] := by
  have hp : (NewScanner f).pending = chunkLines f := rfl
  unfold nextLine Scanner.Scan
  cases hc : (NewScanner f).pending with
  | nil => rfl
  | cons t rest =>
    rw [← hp, hc] at hs hmem
    rcases List.mem_cons.1 hmem with h | h
    · exact h.symm
    · exact le_antisymm (List.rel_of_sorted_cons hs [] h) List.nil_le

/-- Every chunk file of the partition of the input lines, at any chunk size,
is ascending and holds trimmed lines of the input only. -/
theorem partition_chunk (input : File) (c : Nat) (f : File)
    (hf : f ∈ partition (inputLines input) c) :
    (chunkLines f).Sorted (· ≤ ·) ∧ ∀ x ∈ chunkLines f, x ∈ trimmedLines input := by
  have h1 : ∀ c2 : Nat, 1 ≤ c2 → f ∈ (partition (inputLines input) c2) →
      (chunkLines f).Sorted (· ≤ ·) ∧ ∀ x ∈ chunkLines f, x ∈ trimmedLines input := by
    intro c2 hc2 hf2
    obtain ⟨k, hk⟩ := mem_chunkLines_partition input c2 hc2 f hf2
    rw [hk]
    exact ⟨sortStrings_sorted _, fun x hx => mem_slice ((sortStrings_perm _).mem_iff.1 hx)⟩
  rcases Nat.eq_zero_or_pos c with h0 | hpos
  · rw [h0, partition_zero] at hf
    exact h1 1 (le_refl 1) hf
  · exact h1 c hpos hf

theorem sortStrings_singleton (l : Line) : sortStrings [l] = [l] := by
  simp [sortStrings]

/-- A chunk size that covers a non-empty input gives one chunk with all lines. -/
theorem chunkLines_partition_single (input : File) (c : Nat)
    (hpos : 1 ≤ (inputLines input).length) (hle : (inputLines input).length ≤ c) :
    (partition (inputLines input) c).map chunkLines = [sortStrings (trimmedLines input)] := by
  have hn : (trimmedLines input).length = (inputLines input).length := by
    simp [trimmedLines]
  have hcount : chunkCount (trimmedLines input).length c = 1 := by
    unfold chunkCount
    apply Nat.div_eq_of_lt_le
    · omega
    · omega
  have hslice : slice c (trimmedLines input) 0 = trimmedLines input := by
    simp only [slice, Nat.zero_mul, List.drop_zero]
    exact List.take_of_length_le (by omega)
  rw [chunkLines_partition input c (by omega), hcount]
  show [sortStrings (slice c (trimmedLines input) 0)] = _
  rw [hslice]

theorem slices_one (l : List Line) :
    (List.range l.length).map (fun k => sortStrings (slice 1 l k)) = l.map (fun x => [x]) := by
  induction l with
  | nil => simp
  | cons x rest ih =>
    rw [List.length_cons, List.range_succ_eq_map, List.map_cons, List.map_map, List.map_cons]
    have h0 : sortStrings (slice 1 (x :: rest) 0) = [x] := by
      simp [slice, sortStrings_singleton]
    have hfun : (fun k => sortStrings (slice 1 (x :: rest) k)) ∘ Nat.succ =
        fun k => sortStrings (slice 1 rest k) := by
      funext k
      simp only [Function.comp, Nat.succ_eq_add_one, slice_succ]
      rfl
    rw [h0, hfun, ih]

theorem chunkCount_one (n : Nat) : chunkCount n 1 = n := by
  simp [chunkCount]

theorem scanErr_append_newline (fault : Option IOError) (l rest : List Byte) (h : 10 ∉ l)
    (cur : List Byte) (hsz : byteLen (cur ++ l) < maxScanTokenSize) :
    scanErr fault cur (l ++ 10 :: rest) = scanErr fault [] rest := by
  induction l generalizing cur with
  | nil =>
    have hsz2 : ¬ maxScanTokenSize ≤ byteLen cur := by simpa using hsz
    simp [scanErr, hsz2]
  | cons c l ih =>
    have hc : c ≠ 10 := fun hc => h (by simp [hc])
    have hl : 10 ∉ l := fun hl => h (by simp [hl])
    have hstep : scanErr fault cur (c :: (l ++ 10 :: rest)) =
        scanErr fault (cur ++ [c]) (l ++ 10 :: rest) := by
      simp [scanErr, hc]
    rw [List.cons_append, hstep, ih hl (cur ++ [c]) (by simpa using hsz)]

theorem scanErr_append_newline_long (fault : Option IOError) (l rest : List Byte)
    (h : 10 ∉ l) (cur : List Byte) (hsz : maxScanTokenSize ≤ byteLen (cur ++ l)) :
    scanErr fault cur (l ++ 10 :: rest) = some IOError.tooLong := by
  induction l generalizing cur with
  | nil =>
    have hsz2 : maxScanTokenSize ≤ byteLen cur := by simpa using hsz
    simp [scanErr, hsz2]
  | cons c l ih =>
    have hc : c ≠ 10 := fun hc => h (by simp [hc])
    have hl : 10 ∉ l := fun hl => h (by simp [hl])
    have hstep : scanErr fault cur (c :: (l ++ 10 :: rest)) =
        scanErr fault (cur ++ [c]) (l ++ 10 :: rest) := by
      simp [scanErr, hc]
    rw [List.cons_append, hstep, ih hl (cur ++ [c]) (by simpa using hsz)]

theorem scanErr_flatten (fault : Option IOError) (lines : List Line)
    (hnl : ∀ l ∈ lines, 10 ∉ l) (hsz : ∀ l ∈ lines, byteLen l < maxScanTokenSize) :
    scanErr fault [] ((lines.map (fun line => line ++ [10])).flatten) = fault := by
  induction lines with
  | nil => simp [scanErr]
  | cons l lines ih =>
    have h1 : 10 ∉ l := hnl l (by simp)
    have h3 : byteLen ([] ++ l) < maxScanTokenSize := by simpa using hsz l (by simp)
    simp only [List.map_cons, List.flatten_cons, List.append_assoc, List.singleton_append]
    rw [scanErr_append_newline fault l _ h1 [] h3, ih (fun x hx => hnl x (by simp [hx]))
      (fun x hx => hsz x (by simp [hx]))]

theorem err_writeChunk (lines : List Line) (idx : Nat)
    (hnl : ∀ l ∈ lines, 10 ∉ l) (hsz : ∀ l ∈ lines, byteLen l < maxScanTokenSize) :
    (NewScanner (writeChunk lines idx)).err = none := by
  show scanErr none [] ((((sortStrings lines).map (fun line => line ++ [10])).flatten)) = _
  apply scanErr_flatten
  · intro l hl
    exact hnl l ((sortStrings_perm lines).mem_iff.1 hl)
  · intro l hl
    exact hsz l ((sortStrings_perm lines).mem_iff.1 hl)

theorem byteLen_longLine : byteLen longLine = maxScanTokenSize := by
  simp [byteLen, longLine]

theorem not_mem_longLine : 10 ∉ longLine := by
  intro h
  have := List.eq_of_mem_replicate h
  exact absurd this (by decide)

theorem getLast_longLine : longLine.getLast? ≠ some 13 := by
  intro h
  have := List.eq_of_mem_replicate (List.mem_of_getLast?_eq_some h)
  exact absurd this (by decide)

/-- A chunk file written from one line of `maxScanTokenSize` bytes reads back
as no line at all, the scan ending with `bufio.ErrTooLong`. -/
theorem chunkLines_writeChunk_longLine (idx : Nat) :
    chunkLines (writeChunk [longLine] idx) = [] ∧
      (NewScanner (writeChunk [longLine] idx)).err = some IOError.tooLong := by
  have hdata : (writeChunk [longLine] idx).data = longLine ++ 10 :: [] := by
    simp [writeChunk, sortStrings_singleton]
  have hsz : maxScanTokenSize ≤ byteLen ([] ++ longLine) := by
    rw [List.nil_append, byteLen_longLine]
  constructor
  · simp only [chunkLines, NewScanner, hdata]
    exact scanLines_append_newline_long longLine [] not_mem_longLine [] hsz
  · simp only [NewScanner, hdata]
    exact scanErr_append_newline_long _ longLine [] not_mem_longLine [] hsz

/-- On a chunk file whose only line has `maxScanTokenSize` bytes the scanner
fails at priming, and `mergeChunks` returns the count 0 and a nil error. -/
theorem mergeChunks_longLine (idx : Nat) :
    mergeChunks [writeChunk [longLine] idx] = some (0, none) := by
  have hl := (chunkLines_writeChunk_longLine idx).1
  have h := mergeChunks_count [writeChunk [longLine] idx] (by
    intro f hf
    rw [List.mem_singleton] at hf
    subst hf
    rw [hl]
    exact ⟨List.sorted_nil, by simp⟩)
  rw [h]
  simp only [List.map_cons, List.map_nil, hl]
  rfl

/-! ## One call of `Scan` -/

theorem FileScanner.shifted_le (s : FileScanner) : s.shifted ≤ s.start := by
  unfold FileScanner.shifted
  split <;> omega

theorem FileScanner.shifted_full (s : FileScanner) (h : s.shifted + s.buf.length = s.cap) :
    s.shifted = 0 := by
  unfold FileScanner.shifted at h ⊢
  split
  · rfl
  · rename_i hc
    rw [if_neg hc] at h
    by_contra h0
    exact hc ⟨by omega, Or.inl h⟩

theorem FileScanner.trySplit_some {s : FileScanner} {advance : Nat} {token : Line}
    (h : s.trySplit = some (advance, token)) :
    (∃ l r, cutLine s.buf = some (l, r) ∧ advance = l.length + 1 ∧ token = dropCR l) ∨
    (cutLine s.buf = none ∧ s.err.isSome = true ∧ s.buf ≠ [] ∧ advance = s.buf.length ∧
      token = dropCR s.buf) := by
  unfold FileScanner.trySplit at h
  split at h
  · unfold ScanLines at h
    split at h
    · simp at h
    · rename_i hne
      split at h
      · rename_i l r hc
        simp only [Option.some.injEq, Prod.mk.injEq] at h
        exact Or.inl ⟨l, r, hc, h.1.symm, h.2.symm⟩
      · rename_i hc
        split at h
        · rename_i heof
          simp only [Option.some.injEq, Prod.mk.injEq] at h
          refine Or.inr ⟨hc, heof, ?_, h.1.symm, h.2.symm⟩
          intro h0
          exact hne ⟨heof, h0⟩
        · simp at h
  · simp at h

theorem FileScanner.trySplit_none {s : FileScanner} (h : s.trySplit = none) :
    cutLine s.buf = none ∧ (s.err.isSome = true → s.buf = []) := by
  unfold FileScanner.trySplit at h
  split at h
  · rename_i hcond
    unfold ScanLines at h
    split at h
    · rename_i h2
      exact ⟨by rw [h2.2]; rfl, fun _ => h2.2⟩
    · rename_i hne
      split at h
      · simp at h
      · rename_i hc
        split at h
        · simp at h
        · rename_i heof
          exact ⟨hc, fun he => absurd he heof⟩
  · rename_i hcond
    simp only [not_or, not_not] at hcond
    refine ⟨by rw [hcond.1]; rfl, fun _ => hcond.1⟩

theorem nextToken_append_of_cut {buf l r : List Byte} (h : cutLine buf = some (l, r))
    (tail : List Byte) (hsz : l.length < maxScanTokenSize) :
    nextToken (buf ++ tail) = some (dropCR l, r ++ tail) := by
  obtain ⟨hs, hl⟩ := cutLine_some h
  unfold nextToken
  have : buf ++ tail = l ++ 10 :: (r ++ tail) := by rw [hs]; simp
  rw [this, cutLine_append l (r ++ tail) hl]
  simp only
  rw [if_neg (by omega)]

theorem nextToken_long {buf : List Byte} (h : cutLine buf = none)
    (hsz : maxScanTokenSize ≤ buf.length) (tail : List Byte) :
    nextToken (buf ++ tail) = none := by
  have hb := cutLine_none h
  unfold nextToken
  cases hc : cutLine (buf ++ tail) with
  | none =>
    simp only
    rw [if_pos]
    right
    rw [List.length_append]
    omega
  | some p =>
    obtain ⟨l, r⟩ := p
    simp only
    rw [if_pos]
    obtain ⟨hs, hl⟩ := cutLine_some hc
    -- `buf` is a prefix of `l`, since `buf` holds no newline
    have hpre : buf.length ≤ l.length := by
      by_contra hlt
      have h1 : (buf ++ tail)[l.length]? = some 10 := by
        rw [hs, List.getElem?_append_right (le_refl _)]
        simp
      have h2 : (buf ++ tail)[l.length]? = buf[l.length]? := by
        rw [List.getElem?_append_left (by omega)]
      rw [h2] at h1
      exact hb (List.getElem?_mem h1)
    omega

theorem FileScanner.iter_inl (content : List Byte) (fault : Option IOError) (s : FileScanner)
    (hinv : s.Inv) (r : Option Line) (s2 : FileScanner)
    (h : s.iter content fault = Sum.inl (r, s2)) :
    (nextToken (s.stream content) = none → r = none) ∧
    (∀ t rest, nextToken (s.stream content) = some (t, rest) →
      r = some t ∧ s2.stream content = rest ∧ s2.Inv ∧
      (s2.err = none → s.err = none ∧ s.pos + t.length + 1 ≤ s2.pos)) := by
  obtain ⟨h1, h2, h3, h4⟩ := hinv
  unfold FileScanner.iter at h
  cases hsplit : s.trySplit with
  | some p =>
    obtain ⟨advance, token⟩ := p
    rw [hsplit] at h
    simp only [Sum.inl.injEq, Prod.mk.injEq] at h
    obtain ⟨hr, hs2⟩ := h
    subst hr hs2
    rcases FileScanner.trySplit_some hsplit with ⟨l, r0, hc, hadv, htok⟩ | ⟨hc, herr, hne, hadv, htok⟩
    · obtain ⟨hbuf, hl⟩ := cutLine_some hc
      have hlen : s.buf.length = l.length + 1 + r0.length := by
        rw [hbuf]
        simp
        omega
      have hnt := nextToken_append_of_cut hc
        (if s.err.isSome = true then [] else content.drop s.offset) (by omega)
      have hdrop : s.buf.drop advance = r0 := by
        rw [hadv, hbuf]
        simp
      constructor
      · intro hnone
        unfold FileScanner.stream at hnone
        rw [hnt] at hnone
        simp at hnone
      · intro t rest hsome
        unfold FileScanner.stream at hsome
        rw [hnt] at hsome
        simp only [Option.some.injEq, Prod.mk.injEq] at hsome
        obtain ⟨ht, hrest⟩ := hsome
        refine ⟨by rw [htok, ht], ?_, ⟨?_, h2, ?_, ?_⟩, ?_⟩
        · unfold FileScanner.stream
          simp only [hdrop]
          exact hrest
        · simp only [hdrop]
          omega
        · simp only [hdrop]
          omega
        · intro he
          simp only [hdrop]
          have := h4 he
          omega
        · intro he
          refine ⟨he, ?_⟩
          unfold FileScanner.pos
          simp only [hdrop]
          have hd := (isPrefix_dropCR l).sublist.length_le
          rw [← ht]
          omega
    · have hnt : nextToken (s.stream content) = some (dropCR s.buf, []) := by
        unfold FileScanner.stream
        rw [if_pos herr, List.append_nil]
        unfold nextToken
        rw [hc]
        simp only
        rw [if_neg]
        simp only [not_or, not_le]
        exact ⟨hne, h4 herr⟩
      constructor
      · intro hnone
        rw [hnt] at hnone
        simp at hnone
      · intro t rest hsome
        rw [hnt] at hsome
        simp only [Option.some.injEq, Prod.mk.injEq] at hsome
        obtain ⟨ht, hrest⟩ := hsome
        have hdrop : s.buf.drop advance = [] := by
          rw [hadv]
          simp
        refine ⟨by rw [htok, ht], ?_, ⟨?_, h2, ?_, ?_⟩, ?_⟩
        · unfold FileScanner.stream
          simp only [hdrop, herr, if_true, List.append_nil]
          exact hrest
        · simp only [hdrop, List.length_nil]
          omega
        · simp only [hdrop, List.length_nil]
          omega
        · intro _
          simp only [hdrop, List.length_nil]
          unfold maxScanTokenSize
          omega
        · intro he
          simp only at he
          rw [he] at herr
          simp at herr
  | none =>
    rw [hsplit] at h
    obtain ⟨hcut, hempty⟩ := FileScanner.trySplit_none hsplit
    simp only at h
    split at h
    · rename_i herr
      simp only [Sum.inl.injEq, Prod.mk.injEq] at h
      have hnt : nextToken (s.stream content) = none := by
        unfold FileScanner.stream
        rw [if_pos herr, hempty herr]
        rfl
      constructor
      · intro _
        exact h.1.symm
      · intro t rest hsome
        rw [hnt] at hsome
        simp at hsome
    · rename_i herr
      split at h
      · rename_i hfull
        split at h
        · rename_i hcap
          simp only [Sum.inl.injEq, Prod.mk.injEq] at h
          have hshift := FileScanner.shifted_full s hfull
          have hnt : nextToken (s.stream content) = none := by
            unfold FileScanner.stream
            exact nextToken_long hcut (by omega) _
          constructor
          · intro _
            exact h.1.symm
          · intro t rest hsome
            rw [hnt] at hsome
            simp at hsome
        · simp at h
      · simp at h

theorem take_append_drop_length (n : Nat) (l : List Byte) :
    l.take n ++ l.drop (l.take n).length = l := by
  induction l generalizing n with
  | nil => simp
  | cons a l ih =>
    cases n with
    | zero => simp
    | succ n =>
      have h := ih n
      simp only [List.take_succ_cons, List.length_cons, List.drop_succ_cons, List.cons_append]
      rw [h]

theorem FileScanner.read_spec (content : List Byte) (fault : Option IOError) (u : FileScanner)
    (herr : u.err = none) (hroom : u.start + u.buf.length < u.cap)
    (hcap : u.cap ≤ maxScanTokenSize) (hoff : u.buf.length ≤ u.offset) :
    (u.read content fault).Inv ∧
      (u.read content fault).stream content = u.stream content ∧
      (u.read content fault).measure content < u.measure content ∧
      ((u.read content fault).err = none → (u.read content fault).pos = u.pos) := by
  have hsome : u.err.isSome = false := by rw [herr]; rfl
  unfold FileScanner.read
  simp only
  split
  · rename_i hgot
    have hdrop : content.drop u.offset = [] := by
      rcases List.take_eq_nil_iff.1 hgot with h | h
      · omega
      · exact h
    refine ⟨⟨?_, hcap, hoff, ?_⟩, ?_, ?_, ?_⟩
    · simp only
      omega
    · intro _
      show u.buf.length < maxScanTokenSize
      omega
    · unfold FileScanner.stream
      simp [hsome, hdrop]
    · unfold FileScanner.measure
      simp [hsome]
    · intro h
      simp at h
  · rename_i hgot
    have hlen : ((content.drop u.offset).take (u.cap - (u.start + u.buf.length))).length ≤
        u.cap - (u.start + u.buf.length) := List.length_take_le _ _
    have hlen2 : ((content.drop u.offset).take (u.cap - (u.start + u.buf.length))).length ≤
        content.length - u.offset := by
      have := List.length_take_le' (u.cap - (u.start + u.buf.length)) (content.drop u.offset)
      rw [List.length_drop] at this
      exact this
    have hpos : 0 < ((content.drop u.offset).take (u.cap - (u.start + u.buf.length))).length :=
      List.length_pos.2 hgot
    refine ⟨⟨?_, hcap, ?_, ?_⟩, ?_, ?_, ?_⟩
    · simp only [List.length_append]
      omega
    · simp only [List.length_append]
      omega
    · intro h
      simp only [herr] at h
      simp at h
    · unfold FileScanner.stream
      simp only [herr, Option.isSome_none, Bool.false_eq_true, if_false, List.append_assoc]
      congr 1
      rw [← List.drop_drop]
      exact take_append_drop_length _ _
    · unfold FileScanner.measure
      simp only [herr, Option.isSome_none, Bool.false_eq_true, if_false]
      omega
    · intro _
      unfold FileScanner.pos
      simp only [List.length_append]
      omega

theorem FileScanner.iter_inr (content : List Byte) (fault : Option IOError) (s : FileScanner)
    (hinv : s.Inv) (s2 : FileScanner) (h : s.iter content fault = Sum.inr s2) :
    s2.Inv ∧ s2.stream content = s.stream content ∧
      s2.measure content < s.measure content ∧
      (s2.err = none → s.err = none ∧ s2.pos = s.pos) := by
  obtain ⟨h1, h2, h3, h4⟩ := hinv
  unfold FileScanner.iter at h
  cases hsplit : s.trySplit with
  | some p =>
    rw [hsplit] at h
    simp at h
  | none =>
    rw [hsplit] at h
    simp only at h
    split at h
    · simp at h
    · rename_i herr
      have herr2 : s.err = none := by
        cases he : s.err with
        | none => rfl
        | some e =>
          rw [he] at herr
          simp at herr
      have hsh := FileScanner.shifted_le s
      split at h
      · rename_i hfull
        split at h
        · simp at h
        · rename_i hcap
          simp only [Sum.inr.injEq] at h
          have hshift := FileScanner.shifted_full s hfull
          have hgrow : s.cap < min (if s.cap * 2 = 0 then startBufSize else s.cap * 2)
              maxScanTokenSize := by
            unfold startBufSize
            split <;> omega
          have hspec := FileScanner.read_spec content fault
            { s with start := 0
                     cap := min (if s.cap * 2 = 0 then startBufSize else s.cap * 2)
                       maxScanTokenSize }
            herr2 (by simp only; omega) (by simp only; omega) h3
          rw [h] at hspec
          obtain ⟨ha, hb, hc, hd⟩ := hspec
          exact ⟨ha, hb, hc, fun he => ⟨herr2, hd he⟩⟩
      · rename_i hfull
        simp only [Sum.inr.injEq] at h
        have hspec := FileScanner.read_spec content fault { s with start := s.shifted }
          herr2 (by simp only; omega) h2 h3
        rw [h] at hspec
        obtain ⟨ha, hb, hc, hd⟩ := hspec
        exact ⟨ha, hb, hc, fun he => ⟨herr2, hd he⟩⟩

/-- The loop of `Scan` returns within the fuel `measure`, and it returns the
first token of its stream, leaving the bytes after that token. -/
theorem FileScanner.loop_spec (content : List Byte) (fault : Option IOError) :
    ∀ (fuel : Nat) (s : FileScanner), s.Inv → s.measure content ≤ fuel →
      ∃ r s2, FileScanner.loop content fault fuel s = some (r, s2) ∧
        (nextToken (s.stream content) = none → r = none) ∧
        (∀ t rest, nextToken (s.stream content) = some (t, rest) →
          r = some t ∧ s2.stream content = rest ∧ s2.Inv ∧
          (s2.err = none → s.err = none ∧ s.pos + t.length + 1 ≤ s2.pos)) := by
  intro fuel
  induction fuel with
  | zero =>
    intro s _ hm
    unfold FileScanner.measure at hm
    split at hm <;> omega
  | succ fuel ih =>
    intro s hinv hm
    cases hiter : s.iter content fault with
    | inl p =>
      obtain ⟨r, s2⟩ := p
      refine ⟨r, s2, by simp only [FileScanner.loop, hiter], ?_⟩
      exact FileScanner.iter_inl content fault s hinv r s2 hiter
    | inr s1 =>
      obtain ⟨hinv1, hstream, hmeas, hpos⟩ := FileScanner.iter_inr content fault s hinv s1 hiter
      obtain ⟨r, s2, hloop, hnone, hsome⟩ := ih s1 hinv1 (by omega)
      refine ⟨r, s2, by simp only [FileScanner.loop, hiter]; exact hloop, ?_, ?_⟩
      · rw [← hstream]
        exact hnone
      · intro t rest ht
        rw [← hstream] at ht
        obtain ⟨h1, h2, h3, h4⟩ := hsome t rest ht
        refine ⟨h1, h2, h3, ?_⟩
        intro he
        obtain ⟨h5, h6⟩ := h4 he
        obtain ⟨h7, h8⟩ := hpos h5
        exact ⟨h7, by rw [← h8]; exact h6⟩

/-- The call `Scan`: it returns the first token of the stream of the scanner,
and leaves the bytes after that token. -/
theorem FileScanner.Scan_spec (content : List Byte) (fault : Option IOError) (s : FileScanner)
    (hinv : s.Inv) :
    (nextToken (s.stream content) = none → (s.Scan content fault).1 = none) ∧
    (∀ t rest, nextToken (s.stream content) = some (t, rest) →
      (s.Scan content fault).1 = some t ∧ (s.Scan content fault).2.stream content = rest ∧
      (s.Scan content fault).2.Inv ∧
      ((s.Scan content fault).2.err = none →
        s.err = none ∧ s.pos + t.length + 1 ≤ (s.Scan content fault).2.pos)) := by
  have hm : s.measure content ≤ content.length - s.offset + 2 := by
    unfold FileScanner.measure
    split <;> omega
  obtain ⟨r, s2, hloop, hnone, hsome⟩ :=
    FileScanner.loop_spec content fault (content.length - s.offset + 2) s hinv hm
  have hscan : s.Scan content fault = (r, s2) := by
    unfold FileScanner.Scan
    rw [hloop]
    rfl
  rw [hscan]
  exact ⟨hnone, hsome⟩

theorem FileScanner.loop_isSome (content : List Byte) (fault : Option IOError)
    (s : FileScanner) (hinv : s.Inv) :
    (FileScanner.loop content fault (content.length - s.offset + 2) s).isSome = true := by
  have hm : s.measure content ≤ content.length - s.offset + 2 := by
    unfold FileScanner.measure
    split <;> omega
  obtain ⟨r, s2, hloop, _, _⟩ :=
    FileScanner.loop_spec content fault (content.length - s.offset + 2) s hinv hm
  rw [hloop]
  rfl

theorem FileScanner.new_inv : FileScanner.new.Inv := by
  unfold FileScanner.Inv FileScanner.new
  simp

/-! ## The error reported by the scanner of `splitFile` -/

theorem FileScanner.read_errOK (content : List Byte) (fault : Option IOError) (u : FileScanner)
    (h : u.ErrOK fault) : (u.read content fault).ErrOK fault := by
  unfold FileScanner.read
  simp only
  split
  · exact Or.inr rfl
  · exact h

theorem FileScanner.err_of_errOK {fault : Option IOError} {s : FileScanner}
    (hok : s.ErrOK fault) (herr : s.err.isSome = true) : s.Err = fault := by
  rcases hok with h | h
  · rw [h] at herr
    simp at herr
  · unfold FileScanner.Err
    rw [h]
    cases fault <;> rfl

theorem FileScanner.iter_err (content : List Byte) (fault : Option IOError) (s : FileScanner)
    (hinv : s.Inv) (hok : s.ErrOK fault) :
    (∀ s2, s.iter content fault = Sum.inr s2 → s2.ErrOK fault) ∧
    (∀ t s2, s.iter content fault = Sum.inl (some t, s2) → s2.ErrOK fault) ∧
    (∀ s2, s.iter content fault = Sum.inl (none, s2) →
      s2.Err = if s.stream content = [] then fault else some IOError.tooLong) := by
  obtain ⟨h1, h2, h3, h4⟩ := hinv
  unfold FileScanner.iter
  cases hsplit : s.trySplit with
  | some p =>
    obtain ⟨advance, token⟩ := p
    simp only
    refine ⟨fun s2 h => by simp at h, ?_, fun s2 h => by simp at h⟩
    intro t s2 h
    simp only [Sum.inl.injEq, Prod.mk.injEq] at h
    rw [← h.2]
    exact hok
  | none =>
    obtain ⟨hcut, hempty⟩ := FileScanner.trySplit_none hsplit
    simp only
    split
    · rename_i herr
      refine ⟨fun s2 h => by simp at h, fun t s2 h => by simp at h, ?_⟩
      intro s2 h
      simp only [Sum.inl.injEq, Prod.mk.injEq, true_and] at h
      have hstream : s.stream content = [] := by
        unfold FileScanner.stream
        rw [if_pos herr, hempty herr]
        rfl
      rw [if_pos hstream, ← h]
      exact FileScanner.err_of_errOK (s := { s with buf := [], start := 0 }) hok herr
    · rename_i herr
      split
      · rename_i hfull
        split
        · rename_i hcap
          refine ⟨fun s2 h => by simp at h, fun t s2 h => by simp at h, ?_⟩
          intro s2 h
          simp only [Sum.inl.injEq, Prod.mk.injEq, true_and] at h
          have hshift := FileScanner.shifted_full s hfull
          have hstream : s.stream content ≠ [] := by
            unfold FileScanner.stream
            intro h0
            have hlen := congrArg List.length h0
            simp only [List.length_append, List.length_nil] at hlen
            unfold maxScanTokenSize at hcap
            omega
          rw [if_neg hstream, ← h]
          rfl
        · refine ⟨?_, fun t s2 h => by simp at h, fun s2 h => by simp at h⟩
          intro s2 h
          simp only [Sum.inr.injEq] at h
          rw [← h]
          exact FileScanner.read_errOK content fault _ hok
      · refine ⟨?_, fun t s2 h => by simp at h, fun s2 h => by simp at h⟩
        intro s2 h
        simp only [Sum.inr.injEq] at h
        rw [← h]
        exact FileScanner.read_errOK content fault _ hok

theorem FileScanner.loop_err (content : List Byte) (fault : Option IOError) :
    ∀ (fuel : Nat) (s : FileScanner), s.Inv → s.ErrOK fault →
      ∀ r s2, FileScanner.loop content fault fuel s = some (r, s2) →
        (r = none → s2.Err = if s.stream content = [] then fault else some IOError.tooLong) ∧
        (r ≠ none → s2.ErrOK fault) := by
  intro fuel
  induction fuel with
  | zero =>
    intro s _ _ r s2 h
    simp [FileScanner.loop] at h
  | succ fuel ih =>
    intro s hinv hok r s2 h
    obtain ⟨hinr, hsome, hnone⟩ := FileScanner.iter_err content fault s hinv hok
    cases hiter : s.iter content fault with
    | inl p =>
      simp only [FileScanner.loop, hiter, Option.some.injEq] at h
      subst h
      constructor
      · intro hr
        subst hr
        exact hnone s2 hiter
      · intro hr
        cases r with
        | none => exact absurd rfl hr
        | some t => exact hsome t s2 hiter
    | inr s1 =>
      simp only [FileScanner.loop, hiter] at h
      obtain ⟨hinv1, hstream, _, _⟩ := FileScanner.iter_inr content fault s hinv s1 hiter
      have := ih s1 hinv1 (hinr s1 hiter) r s2 h
      rw [hstream] at this
      exact this

/-- The call `Scan`, in full: it returns false at the end of the stream or at
a line that is too long, and `Err()` then reports the fault of the file or
`bufio.ErrTooLong`; else it returns the first token of the stream and leaves
the bytes after that token. -/
theorem FileScanner.Scan_cases (content : List Byte) (fault : Option IOError) (s : FileScanner)
    (hinv : s.Inv) (hok : s.ErrOK fault) :
    (nextToken (s.stream content) = none ∧ (s.Scan content fault).1 = none ∧
      (s.Scan content fault).2.Err =
        if s.stream content = [] then fault else some IOError.tooLong) ∨
    (∃ t rest, nextToken (s.stream content) = some (t, rest) ∧
      (s.Scan content fault).1 = some t ∧
      (s.Scan content fault).2.stream content = rest ∧
      (s.Scan content fault).2.Inv ∧ (s.Scan content fault).2.ErrOK fault ∧
      ((s.Scan content fault).2.err = none →
        s.err = none ∧ s.pos + t.length + 1 ≤ (s.Scan content fault).2.pos)) := by
  have hm : s.measure content ≤ content.length - s.offset + 2 := by
    unfold FileScanner.measure
    split <;> omega
  obtain ⟨r, s2, hloop, hnone, hsome⟩ :=
    FileScanner.loop_spec content fault (content.length - s.offset + 2) s hinv hm
  obtain ⟨herr1, herr2⟩ :=
    FileScanner.loop_err content fault (content.length - s.offset + 2) s hinv hok r s2 hloop
  have hscan : s.Scan content fault = (r, s2) := by
    unfold FileScanner.Scan
    rw [hloop]
    rfl
  rw [hscan]
  cases hnt : nextToken (s.stream content) with
  | none =>
    left
    have hr := hnone hnt
    exact ⟨rfl, hr, herr1 hr⟩
  | some p =>
    right
    obtain ⟨t, rest⟩ := p
    obtain ⟨hr, hrest, hinv2, hpos⟩ := hsome t rest hnt
    refine ⟨t, rest, rfl, hr, hrest, hinv2, herr2 ?_, hpos⟩
    rw [hr]
    simp

theorem scanErr_eof (fault : Option IOError) (s : List Byte) (h : 10 ∉ s) (cur : List Byte) :
    scanErr fault cur s =
      if cur ++ s = [] then fault
      else if maxScanTokenSize ≤ byteLen (cur ++ s) then some IOError.tooLong
      else fault := by
  induction s generalizing cur with
  | nil => simp [scanErr]
  | cons c rest ih =>
    have hc : c ≠ 10 := fun hc => h (by simp [hc])
    have hr : 10 ∉ rest := fun hr => h (by simp [hr])
    have hstep : scanErr fault cur (c :: rest) = scanErr fault (cur ++ [c]) rest := by
      simp [scanErr, hc]
    rw [hstep, ih hr (cur ++ [c])]
    simp

/-- The error of `scanErr`, one token at a time. -/
theorem scanErr_nextToken (fault : Option IOError) (s : List Byte) :
    scanErr fault [] s =
      match nextToken s with
      | none => if s = [] then fault else some IOError.tooLong
      | some (_, rest) => scanErr fault [] rest := by
  unfold nextToken
  cases hc : cutLine s with
  | some p =>
    obtain ⟨l, r⟩ := p
    obtain ⟨hs, hl⟩ := cutLine_some hc
    simp only
    by_cases hsz : maxScanTokenSize ≤ l.length
    · rw [if_pos hsz]
      simp only
      have hne : s ≠ [] := by
        rw [hs]
        simp
      rw [if_neg hne, hs]
      exact scanErr_append_newline_long fault l r hl [] (by simpa [byteLen] using hsz)
    · rw [if_neg hsz, hs]
      have := scanErr_append_newline fault l r hl [] (by simpa [byteLen] using hsz)
      simpa using this
  | none =>
    have hs := cutLine_none hc
    simp only
    rw [scanErr_eof fault s hs []]
    by_cases h0 : s = []
    · simp [h0]
    · by_cases hsz : maxScanTokenSize ≤ s.length
      · simp [h0, hsz, byteLen]
      · simp only [List.nil_append, h0, if_false, byteLen, hsz, false_or]
        have hrest : scanErr fault [] [] = fault := by simp [scanErr]
        simp [hrest]

/-! ## The loop of `splitFile` over its scanner -/

theorem writeChunk_name (lines : List Line) (idx : Nat) :
    (writeChunk lines idx).name = chunkFileName idx :=
  rfl

theorem writeChunk_data_length (lines : List Line) (idx : Nat) :
    (writeChunk lines idx).data.length = writtenBytes lines := by
  unfold writeChunk writtenBytes
  simp only [List.length_flatten, List.map_map]
  have hp := ((sortStrings_perm lines).map (fun l => l.length + 1)).sum_eq
  rw [← hp]
  congr 1
  apply List.map_congr_left
  intro l _
  simp

theorem writtenBytes_append (buffer : List Line) (l : Line) :
    writtenBytes (buffer ++ [l]) = writtenBytes buffer + (l.length + 1) := by
  simp [writtenBytes]

theorem storable_trimSpace {t : Line} (hnl : 10 ∉ t) (hsz : byteLen t < maxScanTokenSize) :
    Storable (trimSpace t) := by
  refine ⟨fun h => hnl ((trimSpace_sublist t).subset h), trimSpace_getLast t, ?_⟩
  exact lt_of_le_of_lt (byteLen_le_of_sublist (trimSpace_sublist t)) hsz

theorem FileScanner.stream_new (content : List Byte) :
    FileScanner.new.stream content = content := by
  simp [FileScanner.stream, FileScanner.new]

theorem splitLoop_step (input : File) (c : Nat) (fuel : Nat) (s : SplitState) :
    splitLoop input c (fuel + 1) s =
      match (s.scanner.Scan s.content input.fault).1 with
      | none => some { s with scanner := (s.scanner.Scan s.content input.fault).2 }
      | some text =>
        if (s.buffer ++ [trimSpace text]).length ≥ c then
          splitLoop input c fuel
            { scanner := (s.scanner.Scan s.content input.fault).2
              content :=
                if (writeChunk (s.buffer ++ [trimSpace text]) s.chunkIdx).name = input.name then
                  (writeChunk (s.buffer ++ [trimSpace text]) s.chunkIdx).data
                else s.content
              chunkFiles := s.chunkFiles ++ [writeChunk (s.buffer ++ [trimSpace text]) s.chunkIdx]
              buffer := []
              chunkIdx := s.chunkIdx + 1 }
        else
          splitLoop input c fuel
            { s with scanner := (s.scanner.Scan s.content input.fault).2
                     buffer := s.buffer ++ [trimSpace text] } := by
  cases hp : s.scanner.Scan s.content input.fault with
  | mk r sc =>
    cases r with
    | none => simp only [splitLoop, hp]
    | some text => simp only [splitLoop, hp]

/-- When the input is none of the chunk files, the loop of `splitFile` returns
within its fuel, with the chunk files of `partLoop` over the lines of the
stream and with the error of the scan of the stream. -/
theorem splitLoop_pure (input : File) (c : Nat) (hname : NotChunkFile input.name) :
    ∀ (fuel : Nat) (s : SplitState), s.scanner.Inv → s.scanner.ErrOK input.fault →
      (s.scanner.stream s.content).length < fuel →
      ∃ s2, splitLoop input c fuel s = some s2 ∧
        s2.vars = partLoop c (scanLines [] (s.scanner.stream s.content)) s.vars ∧
        s2.scanner.Err = scanErr input.fault [] (s.scanner.stream s.content) := by
  intro fuel
  induction fuel with
  | zero =>
    intro s _ _ h
    omega
  | succ fuel ih =>
    intro s hinv hok hlen
    rw [splitLoop_step, scanLines_nextToken, scanErr_nextToken]
    rcases FileScanner.Scan_cases s.content input.fault s.scanner hinv hok with
      ⟨hnt, hr, herr⟩ | ⟨t, rest, hnt, hr, hrest, hinv2, hok2, _⟩
    · rw [hr, hnt]
      exact ⟨_, rfl, by simp [SplitState.vars, partLoop], herr⟩
    · rw [hr, hnt]
      simp only
      have hlt := (nextToken_some hnt).1
      by_cases hflush : (s.buffer ++ [trimSpace t]).length ≥ c
      · rw [if_pos hflush]
        have hne : ¬ (writeChunk (s.buffer ++ [trimSpace t]) s.chunkIdx).name = input.name :=
          hname s.chunkIdx
        rw [if_neg hne]
        obtain ⟨s2, h1, h2, h3⟩ := ih
          { scanner := (s.scanner.Scan s.content input.fault).2
            content := s.content
            chunkFiles := s.chunkFiles ++ [writeChunk (s.buffer ++ [trimSpace t]) s.chunkIdx]
            buffer := []
            chunkIdx := s.chunkIdx + 1 } hinv2 hok2 (by simp only; rw [hrest]; omega)
        simp only [hrest] at h2 h3
        refine ⟨s2, h1, ?_, h3⟩
        rw [h2]
        simp only [SplitState.vars, partLoop]
        rw [if_pos hflush]
      · rw [if_neg hflush]
        obtain ⟨s2, h1, h2, h3⟩ := ih
          { s with scanner := (s.scanner.Scan s.content input.fault).2
                   buffer := s.buffer ++ [trimSpace t] } hinv2 hok2
          (by simp only; rw [hrest]; omega)
        simp only [hrest] at h2 h3
        refine ⟨s2, h1, ?_, h3⟩
        rw [h2]
        simp only [SplitState.vars, partLoop]
        rw [if_neg hflush]

theorem FileScanner.new_errOK (fault : Option IOError) : FileScanner.new.ErrOK fault :=
  Or.inl rfl

/-- When the input is none of the chunk files, `splitFile` returns the
partition of the lines of the input and the error of the scan of the input. -/
theorem splitFile_eq (input : File) (c : Nat) (hname : NotChunkFile input.name) :
    splitFile input c = (partition (inputLines input) c, (NewScanner input).err) := by
  obtain ⟨s2, h1, h2, h3⟩ := splitLoop_pure input c hname (input.data.length + 1)
    (splitInit input) FileScanner.new_inv (FileScanner.new_errOK _)
    (by
      show (FileScanner.new.stream input.data).length < input.data.length + 1
      rw [FileScanner.stream_new]
      omega)
  have hstream : (splitInit input).scanner.stream (splitInit input).content = input.data :=
    FileScanner.stream_new input.data
  rw [hstream] at h2 h3
  unfold splitFile splitRun
  rw [h1]
  simp only
  have hv : ({ chunkFiles := s2.chunkFiles, buffer := s2.buffer, chunkIdx := s2.chunkIdx } :
      PartState) = s2.vars := rfl
  rw [hv, h2, h3]
  rfl

/-- When the chunk size exceeds the number of lines still to come, the loop of
`splitFile` writes no chunk file, so that it replaces the content of no input:
it returns the buffer of `partLoop` over the lines of the stream. -/
theorem splitLoop_large (input : File) (c : Nat) :
    ∀ (fuel : Nat) (s : SplitState), s.scanner.Inv → s.scanner.ErrOK input.fault →
      (s.scanner.stream s.content).length < fuel →
      s.buffer.length + (scanLines [] (s.scanner.stream s.content)).length < c →
      ∃ s2, splitLoop input c fuel s = some s2 ∧
        s2.vars = partLoop c (scanLines [] (s.scanner.stream s.content)) s.vars ∧
        s2.scanner.Err = scanErr input.fault [] (s.scanner.stream s.content) := by
  intro fuel
  induction fuel with
  | zero =>
    intro s _ _ h
    omega
  | succ fuel ih =>
    intro s hinv hok hlen hlarge
    rw [scanLines_nextToken] at hlarge
    rw [splitLoop_step, scanLines_nextToken, scanErr_nextToken]
    rcases FileScanner.Scan_cases s.content input.fault s.scanner hinv hok with
      ⟨hnt, hr, herr⟩ | ⟨t, rest, hnt, hr, hrest, hinv2, hok2, _⟩
    · rw [hr, hnt]
      exact ⟨_, rfl, by simp [SplitState.vars, partLoop], herr⟩
    · rw [hnt] at hlarge
      simp only [List.length_cons] at hlarge
      rw [hr, hnt]
      simp only
      have hlt := (nextToken_some hnt).1
      have hflush : ¬ (s.buffer ++ [trimSpace t]).length ≥ c := by
        simp only [List.length_append, List.length_singleton]
        omega
      rw [if_neg hflush]
      obtain ⟨s2, h1, h2, h3⟩ := ih
        { s with scanner := (s.scanner.Scan s.content input.fault).2
                 buffer := s.buffer ++ [trimSpace t] } hinv2 hok2
        (by simp only; rw [hrest]; omega)
        (by
          simp only [List.length_append, List.length_singleton]
          rw [hrest]
          omega)
      simp only [hrest] at h2 h3
      refine ⟨s2, h1, ?_, h3⟩
      rw [h2]
      simp only [SplitState.vars, partLoop]
      rw [if_neg hflush]

/-- When the chunk size exceeds the number of lines of the input, `splitFile`
returns the partition of the lines of the input, whatever the name of the
input: the one chunk file is written after the input has been read. -/
theorem splitFile_eq_of_large (input : File) (c : Nat) (h : (inputLines input).length < c) :
    splitFile input c = (partition (inputLines input) c, (NewScanner input).err) := by
  have hstream : (splitInit input).scanner.stream (splitInit input).content = input.data :=
    FileScanner.stream_new input.data
  obtain ⟨s2, h1, h2, h3⟩ := splitLoop_large input c (input.data.length + 1)
    (splitInit input) FileScanner.new_inv (FileScanner.new_errOK _)
    (by
      rw [hstream]
      omega)
    (by
      rw [hstream]
      simpa [splitInit] using h)
  rw [hstream] at h2 h3
  unfold splitFile splitRun
  rw [h1]
  simp only
  have hv : ({ chunkFiles := s2.chunkFiles, buffer := s2.buffer, chunkIdx := s2.chunkIdx } :
      PartState) = s2.vars := rfl
  rw [hv, h2, h3]
  rfl

/-- The loop of `splitFile` returns within its fuel for every input, and the
chunk files hold lines that a chunk file stores exactly. -/
theorem splitLoop_inv (input : File) (c : Nat) :
    ∀ (fuel : Nat) (s : SplitState), s.Inv →
      (s.scanner.stream s.content).length < fuel →
      ∃ s2, splitLoop input c fuel s = some s2 ∧ (∀ l ∈ s2.buffer, Storable l) ∧
        ∀ f ∈ s2.chunkFiles, ∃ lines idx, f = writeChunk lines idx ∧
          ∀ l ∈ lines, Storable l := by
  intro fuel
  induction fuel with
  | zero =>
    intro s _ h
    omega
  | succ fuel ih =>
    intro s hinv hlen
    obtain ⟨hscan, hpos, hbuf, hfiles⟩ := hinv
    rw [splitLoop_step]
    obtain ⟨hnone, hsome⟩ := FileScanner.Scan_spec s.content input.fault s.scanner hscan
    cases hnt : nextToken (s.scanner.stream s.content) with
    | none =>
      rw [hnone hnt]
      exact ⟨_, rfl, hbuf, hfiles⟩
    | some p =>
      obtain ⟨t, rest⟩ := p
      obtain ⟨hr, hrest, hinv2, hpos2⟩ := hsome t rest hnt
      obtain ⟨hlt, _, hnl, hsz⟩ := nextToken_some hnt
      have hst : Storable (trimSpace t) := storable_trimSpace hnl hsz
      have hbuf2 : ∀ l ∈ s.buffer ++ [trimSpace t], Storable l := by
        intro l hl
        rcases List.mem_append.1 hl with h | h
        · exact hbuf l h
        · rw [List.mem_singleton.1 h]
          exact hst
      have hbytes : (s.scanner.Scan s.content input.fault).2.err = none →
          writtenBytes (s.buffer ++ [trimSpace t]) ≤
            (s.scanner.Scan s.content input.fault).2.pos := by
        intro he
        obtain ⟨he1, hp1⟩ := hpos2 he
        have := hpos he1
        have hle := (trimSpace_sublist t).length_le
        rw [writtenBytes_append]
        omega
      rw [hr]
      simp only
      by_cases hflush : (s.buffer ++ [trimSpace t]).length ≥ c
      · rw [if_pos hflush]
        apply ih
        · refine ⟨hinv2, ?_, ?_, ?_⟩
          · intro _
            simp [writtenBytes]
          · intro l hl
            simp at hl
          · intro f hf
            rcases List.mem_append.1 hf with h | h
            · exact hfiles f h
            · rw [List.mem_singleton.1 h]
              exact ⟨_, _, rfl, hbuf2⟩
        · simp only
          split
          · unfold FileScanner.stream
            unfold FileScanner.stream at hrest
            by_cases he : (s.scanner.Scan s.content input.fault).2.err.isSome = true
            · rw [if_pos he]
              rw [if_pos he] at hrest
              rw [hrest]
              omega
            · rw [if_neg he]
              rw [if_neg he] at hrest
              have he2 : (s.scanner.Scan s.content input.fault).2.err = none := by
                cases h : (s.scanner.Scan s.content input.fault).2.err with
                | none => rfl
                | some e =>
                  rw [h] at he
                  simp at he
              have hb := hbytes he2
              have hoff : (s.scanner.Scan s.content input.fault).2.pos ≤
                  (s.scanner.Scan s.content input.fault).2.offset := by
                unfold FileScanner.pos
                omega
              have hdrop : (writeChunk (s.buffer ++ [trimSpace t]) s.chunkIdx).data.drop
                  (s.scanner.Scan s.content input.fault).2.offset = [] := by
                apply List.drop_eq_nil_of_le
                rw [writeChunk_data_length]
                omega
              rw [hdrop]
              have hl2 := congrArg List.length hrest
              simp only [List.length_append, List.length_nil] at hl2 ⊢
              omega
          · rw [hrest]
            omega
      · rw [if_neg hflush]
        apply ih
        · exact ⟨hinv2, hbytes, hbuf2, hfiles⟩
        · simp only
          rw [hrest]
          omega

theorem splitInit_inv (input : File) : (splitInit input).Inv := by
  refine ⟨FileScanner.new_inv, ?_, ?_, ?_⟩
  · intro _
    simp [splitInit, writtenBytes]
  · intro l hl
    simp [splitInit] at hl
  · intro f hf
    simp [splitInit] at hf

/-- The loop of `splitFile` returns within the fuel of `splitRun`, for every
input and every chunk size. -/
theorem splitRun_isSome (input : File) (c : Nat) : (splitRun input c).isSome = true := by
  obtain ⟨s2, h, _⟩ := splitLoop_inv input c (input.data.length + 1) (splitInit input)
    (splitInit_inv input)
    (by
      show (FileScanner.new.stream input.data).length < input.data.length + 1
      rw [FileScanner.stream_new]
      omega)
  unfold splitRun
  rw [h]
  rfl

/-- Every chunk file of `splitFile`, for every input, was written by
`writeChunk` from lines that a chunk file stores exactly. -/
theorem splitFile_chunk_written (input : File) (c : Nat) (f : File)
    (hf : f ∈ (splitFile input c).1) :
    ∃ lines idx, f = writeChunk lines idx ∧ ∀ l ∈ lines, Storable l := by
  obtain ⟨s2, h, hbuf, hfiles⟩ := splitLoop_inv input c (input.data.length + 1)
    (splitInit input) (splitInit_inv input)
    (by
      show (FileScanner.new.stream input.data).length < input.data.length + 1
      rw [FileScanner.stream_new]
      omega)
  unfold splitFile splitRun at hf
  rw [h] at hf
  simp only [finalFlush] at hf
  split at hf
  · rcases List.mem_append.1 hf with h1 | h1
    · exact hfiles f h1
    · rw [List.mem_singleton.1 h1]
      exact ⟨_, _, rfl, hbuf⟩
  · exact hfiles f hf

theorem splitFile_chunk_sorted (input : File) (c : Nat) (f : File)
    (hf : f ∈ (splitFile input c).1) : (chunkLines f).Sorted (· ≤ ·) := by
  obtain ⟨lines, idx, rfl, hst⟩ := splitFile_chunk_written input c f hf
  rw [chunkLines_writeChunk lines idx (fun l hl => (hst l hl).1) (fun l hl => (hst l hl).2.1)
    (fun l hl => (hst l hl).2.2)]
  exact sortStrings_sorted lines

theorem splitLoop_zero (input : File) :
    ∀ (fuel : Nat) (s : SplitState), s.buffer = [] →
      splitLoop input 0 fuel s = splitLoop input 1 fuel s := by
  intro fuel
  induction fuel with
  | zero =>
    intro s _
    rfl
  | succ fuel ih =>
    intro s hs
    rw [splitLoop_step, splitLoop_step]
    cases (s.scanner.Scan s.content input.fault).1 with
    | none => rfl
    | some text =>
      simp only [hs, List.nil_append, List.length_singleton, ge_iff_le, zero_le, le_refl,
        if_true]
      exact ih _ rfl

theorem splitFile_zero (input : File) : splitFile input 0 = splitFile input 1 := by
  unfold splitFile splitRun
  rw [splitLoop_zero input _ _ rfl]

theorem splitFile_of_empty (input : File) (c : Nat) (hempty : inputLines input = []) :
    (splitFile input c).1 = [] := by
  have hnt : nextToken input.data = none := by
    have h := scanLines_nextToken input.data
    have h2 : scanLines [] input.data = [] := hempty
    rw [h2] at h
    cases hn : nextToken input.data with
    | none => rfl
    | some p =>
      rw [hn] at h
      simp at h
  obtain ⟨hnone, _⟩ := FileScanner.Scan_spec input.data input.fault FileScanner.new
    FileScanner.new_inv
  rw [FileScanner.stream_new] at hnone
  have hr := hnone hnt
  unfold splitFile splitRun
  rw [splitLoop_step]
  have hinit1 : (splitInit input).scanner = FileScanner.new := rfl
  have hinit2 : (splitInit input).content = input.data := rfl
  rw [hinit1, hinit2, hr]
  rfl

theorem chunkFileName_data (idx : Nat) :
    (chunkFileName idx).data = 'c' :: ("hunk_".data ++ (toString idx).data ++ ".txt".data) := by
  unfold chunkFileName
  simp only [String.data_append]
  rfl

/-- A name that does not start with the letter c is the name of no chunk file. -/
theorem notChunkFile_of_head (name : String) (h : name.data.head? ≠ some 'c') :
    NotChunkFile name := by
  intro idx heq
  apply h
  rw [← heq, chunkFileName_data]
  rfl

/-! ## An input stored under the name of a chunk file -/

/-- The input `aliasedInput` has 66 lines, none of them blank, 64 of them
different, and all of them trimmed already. -/
theorem aliasedInput_lines :
    (inputLines aliasedInput).length = 66 ∧
      (∀ l ∈ inputLines aliasedInput, trimSpace l ≠ []) ∧
      ((inputLines aliasedInput).map trimSpace).toFinset.card = 64 ∧
      (inputLines aliasedInput).map trimSpace = inputLines aliasedInput := by
  decide!

/-- On `aliasedInput` with chunk size 32, `splitFile` writes two chunk files
of 32 lines each: the first one truncates the input to 2048 bytes while the
scanner holds its first 4096 bytes, the 64 lines of 64 bytes that it goes on
to deliver, and the next read, at offset 4096, returns `io.EOF`. -/
theorem aliasedInput_chunks :
    (splitFile aliasedInput 32).1.map (fun f => (f.name, (chunkLines f).length)) =
      [("chunk_0.txt", 32), ("chunk_1.txt", 32)] := by
  decide!

/-- The count on `aliasedInput` with chunk size 32: the 62 different lines
among the first 64 lines. -/
theorem aliasedInput_count : mergeChunks (splitFile aliasedInput 32).1 = some (62, none) := by
  decide!

/-- The count on `aliasedInput` with chunk size 1000000: no chunk file is
written before the input has been read, and the count is the number of
different lines. -/
theorem aliasedInput_count_large :
    mergeChunks (splitFile aliasedInput 1000000).1 = some (64, none) := by
  have hlt : (inputLines aliasedInput).length < 1000000 := by
    rw [aliasedInput_lines.1]
    decide
  rw [splitFile_eq_of_large aliasedInput 1000000 hlt]
  simp only []
  rw [pipeline_count aliasedInput 1000000 (by decide) aliasedInput_lines.2.1]
  unfold trimmedLines
  rw [aliasedInput_lines.2.2.1]

theorem inputLines_congr (a b : File) (h : a.data = b.data) : inputLines a = inputLines b := by
  unfold inputLines NewScanner
  rw [h]

/-- The file `sameLinesElsewhere` has the lines of `aliasedInput`. -/
theorem sameLinesElsewhere_lines : inputLines sameLinesElsewhere = inputLines aliasedInput :=
  inputLines_congr sameLinesElsewhere aliasedInput rfl

/-- The count on `sameLinesElsewhere` with chunk size 32: the number of
different lines. -/
theorem sameLinesElsewhere_count :
    mergeChunks (splitFile sameLinesElsewhere 32).1 = some (64, none) := by
  have hname : NotChunkFile sameLinesElsewhere.name := notChunkFile_of_head _ (by decide)
  have hne : ∀ l ∈ inputLines sameLinesElsewhere, trimSpace l ≠ [] := by
    rw [sameLinesElsewhere_lines]
    exact aliasedInput_lines.2.1
  rw [splitFile_eq sameLinesElsewhere 32 hname]
  simp only []
  rw [pipeline_count sameLinesElsewhere 32 (by decide) hne]
  unfold trimmedLines
  rw [sameLinesElsewhere_lines, aliasedInput_lines.2.2.1]

/-! ## The claims on the pipeline -/

/-- C1 as stated fails: the input `aliasedInput`, stored under the name
`chunk_0.txt`, has 66 lines, none of them blank and 64 of them different, yet
with chunk size 32 the count is 62, because writing the first chunk file
truncates the input under the scanner. -/
theorem end_to_end_count_counterexample :
    1 ≤ 32 ∧ (∀ l ∈ inputLines aliasedInput, trimSpace l ≠ []) ∧
      ((inputLines aliasedInput).map trimSpace).toFinset.card = 64 ∧
      mergeChunks (splitFile aliasedInput 32).1 = some (62, none) ∧
      mergeChunks (splitFile aliasedInput 32).1 ≠
        some (((inputLines aliasedInput).map trimSpace).toFinset.card, none) := by
  refine ⟨by decide, aliasedInput_lines.2.1, aliasedInput_lines.2.2.1, aliasedInput_count, ?_⟩
  rw [aliasedInput_count, aliasedInput_lines.2.2.1]
  decide

/-- C1 (end-to-end correctness), amended: for every input that is none of the
chunk files and in which no line is empty after trimming, and every chunk size
of at least 1, `mergeChunks` over the chunk files of `splitFile` returns,
without error, the number of distinct trimmed lines of the input. -/
theorem end_to_end_count (input : File) (chunkSize : Nat) (hc : 1 ≤ chunkSize)
    (hname : NotChunkFile input.name)
    (hne : ∀ l ∈ inputLines input, trimSpace l ≠ []) :
    mergeChunks (splitFile input chunkSize).1 =
      some (((inputLines input).map trimSpace).toFinset.card, none) := by
  rw [splitFile_eq input chunkSize hname]
  exact pipeline_count input chunkSize hc hne

/-- The concrete scenario of C1: the six-line input with chunk size 2 gives 3. -/
theorem end_to_end_count_witness :
    1 ≤ 2 ∧ NotChunkFile sixLines.name ∧ (∀ l ∈ inputLines sixLines, trimSpace l ≠ []) ∧
      mergeChunks (splitFile sixLines 2).1 = some (3, none) :=
  ⟨by decide, notChunkFile_of_head _ (by decide), by decide,
    (end_to_end_count sixLines 2 (by decide) (notChunkFile_of_head _ (by decide))
      (by decide)).trans (by decide)⟩

/-- C2 (merge counter correctness): for every list of chunk files whose lines
are ascending and not empty, `mergeChunks` returns the number of distinct lines
in the union of all chunks, so a line present in several chunks counts once. -/
theorem mergeChunks_counts_distinct (chunkFiles : List File)
    (h : ∀ f ∈ chunkFiles, (chunkLines f).Sorted (· ≤ ·) ∧ [] ∉ chunkLines f) :
    mergeChunks chunkFiles =
      some (((chunkFiles.map chunkLines).flatten).toFinset.card, none) :=
  mergeChunks_count chunkFiles h

/-- The example of C2: the chunks `[a, b]` and `[a, c]` give 3, not 4. -/
theorem mergeChunks_counts_distinct_witness :
    (∀ f ∈ [textFile "chunk_0.txt" "a\nb\n", textFile "chunk_1.txt" "a\nc\n"],
        (chunkLines f).Sorted (· ≤ ·) ∧ [] ∉ chunkLines f) ∧
      mergeChunks [textFile "chunk_0.txt" "a\nb\n", textFile "chunk_1.txt" "a\nc\n"] =
        some (3, none) :=
  ⟨by decide,
    (mergeChunks_counts_distinct
      [textFile "chunk_0.txt" "a\nb\n", textFile "chunk_1.txt" "a\nc\n"] (by decide)).trans
      (by decide)⟩

/-- C3 as stated fails, in two ways.  The input with the lines "", "a", "b" is
counted as 2 with chunk size 1 and as 1 with chunk size 2.  The input
`aliasedInput`, stored under the name `chunk_0.txt` and without blank line, is
counted as 62 with chunk size 32 and as 64 with chunk size 1000000. -/
theorem chunk_size_invariance_counterexample :
    mergeChunks (splitFile blankFirst 1).1 = some (2, none) ∧
      mergeChunks (splitFile blankFirst 2).1 = some (1, none) ∧
      mergeChunks (splitFile blankFirst 1).1 ≠ mergeChunks (splitFile blankFirst 2).1 ∧
      (∀ l ∈ inputLines aliasedInput, trimSpace l ≠ []) ∧
      mergeChunks (splitFile aliasedInput 32).1 = some (62, none) ∧
      mergeChunks (splitFile aliasedInput 1000000).1 = some (64, none) :=
  ⟨by decide!, by decide!, by decide!, aliasedInput_lines.2.1, aliasedInput_count,
    aliasedInput_count_large⟩

/-- C3 (chunk-size invariance), amended: for every input that is none of the
chunk files and in which no line is empty after trimming, and any two chunk
sizes of at least 1, `mergeChunks` over the two partitions returns the same
count. -/
theorem chunk_size_invariance (input : File) (c1 c2 : Nat) (h1 : 1 ≤ c1) (h2 : 1 ≤ c2)
    (hname : NotChunkFile input.name)
    (hne : ∀ l ∈ inputLines input, trimSpace l ≠ []) :
    ∃ n, mergeChunks (splitFile input c1).1 = some (n, none) ∧
      mergeChunks (splitFile input c2).1 = some (n, none) := by
  rw [splitFile_eq input c1 hname, splitFile_eq input c2 hname]
  exact ⟨_, pipeline_count input c1 h1 hne, pipeline_count input c2 h2 hne⟩

/-- The amended C3 on the six-line input, with chunk sizes 2 and 1000000. -/
theorem chunk_size_invariance_witness :
    1 ≤ 2 ∧ 1 ≤ 1000000 ∧ NotChunkFile sixLines.name ∧
      (∀ l ∈ inputLines sixLines, trimSpace l ≠ []) ∧
      ∃ n, mergeChunks (splitFile sixLines 2).1 = some (n, none) ∧
        mergeChunks (splitFile sixLines 1000000).1 = some (n, none) :=
  ⟨by decide, by decide, notChunkFile_of_head _ (by decide), by decide,
    chunk_size_invariance sixLines 2 1000000 (by decide) (by decide)
      (notChunkFile_of_head _ (by decide)) (by decide)⟩

/-- C4 as stated fails, in two ways.  With chunk size 2 the lines "", "a", "b"
are counted as 1 and the same lines in the order "a", "b", "" as 2.  With chunk
size 32 the input `aliasedInput`, stored under the name `chunk_0.txt` and
without blank line, is counted as 62, and `aliasedReordered`, the same lines
in another order under the same name, as 64. -/
theorem order_independence_counterexample :
    (inputLines blankLast).Perm (inputLines blankFirst) ∧
      mergeChunks (splitFile blankFirst 2).1 = some (1, none) ∧
      mergeChunks (splitFile blankLast 2).1 = some (2, none) ∧
      (inputLines aliasedReordered).Perm (inputLines aliasedInput) ∧
      (∀ l ∈ inputLines aliasedInput, trimSpace l ≠ []) ∧
      mergeChunks (splitFile aliasedInput 32).1 = some (62, none) ∧
      mergeChunks (splitFile aliasedReordered 32).1 = some (64, none) :=
  ⟨by decide, by decide!, by decide!, by decide!, aliasedInput_lines.2.1, aliasedInput_count,
    by decide!⟩

/-- C4 (order independence), amended: for every input in which no line is
empty after trimming, every permutation of its lines and every chunk size of
at least 1, when neither of the two files is one of the chunk files,
`mergeChunks` over the two partitions returns the same count. -/
theorem order_independence (input shuffled : File) (chunkSize : Nat) (hc : 1 ≤ chunkSize)
    (hname : NotChunkFile input.name) (hname2 : NotChunkFile shuffled.name)
    (hperm : (inputLines shuffled).Perm (inputLines input))
    (hne : ∀ l ∈ inputLines input, trimSpace l ≠ []) :
    ∃ n, mergeChunks (splitFile input chunkSize).1 = some (n, none) ∧
      mergeChunks (splitFile shuffled chunkSize).1 = some (n, none) := by
  rw [splitFile_eq input chunkSize hname, splitFile_eq shuffled chunkSize hname2]
  refine ⟨_, pipeline_count input chunkSize hc hne, ?_⟩
  rw [pipeline_count shuffled chunkSize hc (fun l hl => hne l (hperm.mem_iff.1 hl))]
  have hp : (trimmedLines shuffled).Perm (trimmedLines input) := hperm.map trimSpace
  rw [List.toFinset_eq_of_perm _ _ hp]

/-- The amended C4 on a three-line input and a reordering of it, chunk size 2. -/
theorem order_independence_witness :
    1 ≤ 2 ∧ NotChunkFile threeLines.name ∧ NotChunkFile threeLinesShuffled.name ∧
      (inputLines threeLinesShuffled).Perm (inputLines threeLines) ∧
      (∀ l ∈ inputLines threeLines, trimSpace l ≠ []) ∧
      ∃ n, mergeChunks (splitFile threeLines 2).1 = some (n, none) ∧
        mergeChunks (splitFile threeLinesShuffled 2).1 = some (n, none) :=
  ⟨by decide, notChunkFile_of_head _ (by decide), notChunkFile_of_head _ (by decide),
    by decide, by decide,
    order_independence threeLines threeLinesShuffled 2 (by decide)
      (notChunkFile_of_head _ (by decide)) (notChunkFile_of_head _ (by decide))
      (by decide) (by decide)⟩

/-- C5 as stated fails: the input `aliasedInput`, stored under the name
`chunk_0.txt`, has 66 lines, and with chunk size 32 `splitFile` writes two
chunk files, not three. -/
theorem splitFile_partition_shape_counterexample :
    1 ≤ 32 ∧ (inputLines aliasedInput).length = 66 ∧
      (splitFile aliasedInput 32).1.length = 2 ∧
      (splitFile aliasedInput 32).1.length ≠
        ((inputLines aliasedInput).length + 32 - 1) / 32 := by
  have hlen : (splitFile aliasedInput 32).1.length = 2 := by
    have h := congrArg List.length aliasedInput_chunks
    rw [List.length_map] at h
    exact h
  refine ⟨by decide, aliasedInput_lines.1, hlen, ?_⟩
  rw [hlen, aliasedInput_lines.1]
  decide

/-- C5 (partition shape), amended: for an input of `n` lines that is none of
the chunk files and a chunk size of at least 1, `splitFile` writes
`n / chunkSize` rounded up chunk files, the file at position `k` being named
`chunk_k.txt`; every chunk holds between 1 and `chunkSize` lines, and every
chunk but the last holds exactly `chunkSize`. -/
theorem splitFile_partition_shape (input : File) (chunkSize : Nat) (hc : 1 ≤ chunkSize)
    (hname : NotChunkFile input.name) :
    (splitFile input chunkSize).1.length =
        ((inputLines input).length + chunkSize - 1) / chunkSize ∧
      (inputLines input).length ≤ (splitFile input chunkSize).1.length * chunkSize ∧
      (splitFile input chunkSize).1.length * chunkSize < (inputLines input).length + chunkSize ∧
      ∀ (k : Nat) (f : File), (splitFile input chunkSize).1[k]? = some f →
        f.name = chunkFileName k ∧
        1 ≤ (chunkLines f).length ∧ (chunkLines f).length ≤ chunkSize ∧
        (k + 1 < (splitFile input chunkSize).1.length → (chunkLines f).length = chunkSize) := by
  rw [splitFile_eq input chunkSize hname]
  simp only
  have hn : (trimmedLines input).length = (inputLines input).length := by
    simp [trimmedLines]
  have hlen : (partition (inputLines input) chunkSize).length =
      chunkCount (inputLines input).length chunkSize := by
    rw [partition_eq input chunkSize hc, List.length_map, List.length_range, hn]
  have hlo := le_chunkCount_mul (inputLines input).length chunkSize hc
  have hhi := chunkCount_mul_lt (inputLines input).length chunkSize hc
  refine ⟨hlen, by rw [hlen]; exact hlo, by rw [hlen]; exact hhi, ?_⟩
  intro k f hk
  obtain ⟨hlt, hf, hlines⟩ := getElem?_partition input chunkSize hc k f hk
  rw [hn] at hlt
  have hsz : (chunkLines f).length =
      min chunkSize ((inputLines input).length - k * chunkSize) := by
    rw [hlines, (sortStrings_perm _).length_eq, slice_length, hn]
  have hmul : (k + 1) * chunkSize ≤
      chunkCount (inputLines input).length chunkSize * chunkSize :=
    Nat.mul_le_mul_right chunkSize hlt
  rw [Nat.succ_mul] at hmul
  refine ⟨by rw [hf]; rfl, by rw [hsz]; omega, by rw [hsz]; omega, ?_⟩
  intro hlast
  rw [hlen] at hlast
  have hmul2 : (k + 1 + 1) * chunkSize ≤
      chunkCount (inputLines input).length chunkSize * chunkSize :=
    Nat.mul_le_mul_right chunkSize hlast
  rw [Nat.succ_mul, Nat.succ_mul] at hmul2
  rw [hsz]
  omega

/-- The shape of the partition of a three-line input with chunk size 2: two
chunk files, of two lines and one line. -/
theorem splitFile_partition_shape_witness :
    1 ≤ 2 ∧ NotChunkFile threeLines.name ∧ (splitFile threeLines 2).1.length = 2 ∧
      (splitFile threeLines 2).1.map (fun f => (f.name, (chunkLines f).length)) =
        [("chunk_0.txt", 2), ("chunk_1.txt", 1)] :=
  ⟨by decide, notChunkFile_of_head _ (by decide),
    ((splitFile_partition_shape threeLines 2 (by decide)
      (notChunkFile_of_head _ (by decide))).1).trans (by decide),
    by decide!⟩

/-- C6 as stated fails: the input `aliasedInput`, stored under the name
`chunk_0.txt`, has 66 lines, and with chunk size 32 the chunk files hold 64
lines in all: two lines are lost. -/
theorem splitFile_content_preserved_counterexample :
    1 ≤ 32 ∧ ((inputLines aliasedInput).map trimSpace).length = 66 ∧
      (((splitFile aliasedInput 32).1.map chunkLines).flatten).length = 64 ∧
      ¬ (((splitFile aliasedInput 32).1.map chunkLines).flatten).Perm
        ((inputLines aliasedInput).map trimSpace) := by
  have h1 : ((inputLines aliasedInput).map trimSpace).length = 66 := by
    rw [List.length_map]
    exact aliasedInput_lines.1
  have h2 : (((splitFile aliasedInput 32).1.map chunkLines).flatten).length = 64 := by
    have h := congrArg (fun l => (l.map Prod.snd).sum) aliasedInput_chunks
    simp only [List.map_map] at h
    rw [List.length_flatten, List.map_map]
    exact h
  refine ⟨by decide, h1, h2, ?_⟩
  intro hp
  have := hp.length_eq
  rw [h1, h2] at this
  exact absurd this (by decide)

/-- C6 (content preservation), amended: for every input that is none of the
chunk files and every chunk size of at least 1, the lines of all chunk files
together are a rearrangement of the trimmed input lines, and the chunk at
position `k` is a rearrangement of the trimmed lines at the positions
`k * chunkSize`, ..., `(k + 1) * chunkSize - 1`. -/
theorem splitFile_content_preserved (input : File) (chunkSize : Nat) (hc : 1 ≤ chunkSize)
    (hname : NotChunkFile input.name) :
    (((splitFile input chunkSize).1.map chunkLines).flatten).Perm
        ((inputLines input).map trimSpace) ∧
      ∀ (k : Nat) (f : File), (splitFile input chunkSize).1[k]? = some f →
        (chunkLines f).Perm
          ((((inputLines input).map trimSpace).drop (k * chunkSize)).take chunkSize) := by
  rw [splitFile_eq input chunkSize hname]
  refine ⟨chunkLines_partition_perm input chunkSize hc, ?_⟩
  intro k f hk
  obtain ⟨_, _, hlines⟩ := getElem?_partition input chunkSize hc k f hk
  rw [hlines]
  exact sortStrings_perm _

/-- The content of the partition of a three-line input with chunk size 2. -/
theorem splitFile_content_preserved_witness :
    1 ≤ 2 ∧ NotChunkFile threeLines.name ∧
      (((splitFile threeLines 2).1.map chunkLines).flatten).Perm
        [utf8 "b", utf8 "a", utf8 "c"] ∧
      (splitFile threeLines 2).1.map chunkLines =
        [[utf8 "a", utf8 "b"], [utf8 "c"]] :=
  ⟨by decide, notChunkFile_of_head _ (by decide),
    ((splitFile_content_preserved threeLines 2 (by decide)
      (notChunkFile_of_head _ (by decide))).1).trans (List.Perm.of_eq (by decide)),
    by decide!⟩

/-- C7 (sorted chunks): `writeChunk` writes an ascending rearrangement of its
lines, one per line, and in every chunk file produced by `splitFile` the lines
are ascending: each line is at most the line that follows it. -/
theorem chunks_sorted (lines : List Line) (idx : Nat) (input : File) (chunkSize : Nat)
    (f : File) (hf : f ∈ (splitFile input chunkSize).1) :
    (∃ written : List Line, written.Perm lines ∧ written.Sorted (· ≤ ·) ∧
        written.Chain' (· ≤ ·) ∧
        (writeChunk lines idx).data = (written.map (fun line => line ++ [10])).flatten) ∧
      (chunkLines f).Sorted (· ≤ ·) ∧ (chunkLines f).Chain' (· ≤ ·) := by
  refine ⟨⟨sortStrings lines, sortStrings_perm lines, sortStrings_sorted lines,
    (sortStrings_sorted lines).chain', rfl⟩, ?_⟩
  have hsorted : (chunkLines f).Sorted (· ≤ ·) := splitFile_chunk_sorted input chunkSize f hf
  exact ⟨hsorted, hsorted.chain'⟩

/-- The first chunk file of a three-line input with chunk size 2 is ascending. -/
theorem chunks_sorted_witness :
    textFile "chunk_0.txt" "a\nb\n" ∈ (splitFile threeLines 2).1 ∧
      (chunkLines (textFile "chunk_0.txt" "a\nb\n")).Sorted (· ≤ ·) :=
  ⟨by decide!,
    (chunks_sorted [] 0 threeLines 2 (textFile "chunk_0.txt" "a\nb\n") (by decide!)).2.1⟩

/-- C8 (empty input): for every chunk size, in particular every chunk size of
at least 1, `splitFile` on an input without lines writes no chunk file, and
`mergeChunks` on the empty list of chunk files returns the count 0 and no
error. -/
theorem empty_input (input : File) (chunkSize : Nat) (hempty : inputLines input = []) :
    (splitFile input chunkSize).1 = [] ∧ mergeChunks [] = some (0, none) ∧
      mergeChunks (splitFile input chunkSize).1 = some (0, none) := by
  have h : (splitFile input chunkSize).1 = [] := splitFile_of_empty input chunkSize hempty
  rw [h]
  exact ⟨rfl, by decide, by decide⟩

/-- The empty file with chunk size 1000000. -/
theorem empty_input_witness :
    inputLines (textFile "ip_addresses.txt" "") = [] ∧
      (splitFile (textFile "ip_addresses.txt" "") 1000000).1 = [] ∧
      mergeChunks [] = some (0, none) :=
  ⟨by decide,
    (empty_input (textFile "ip_addresses.txt" "") 1000000 (by decide)).1,
    (empty_input (textFile "ip_addresses.txt" "") 1000000 (by decide)).2.1⟩

/-- C9 as stated fails: the lines of `aliasedInput`, stored under the name
`chunk_0.txt`, are trimmed already, and `sameLinesElsewhere` holds the same
lines under another name; with chunk size 32 the first is counted as 62 and
the second as 64. -/
theorem trimming_invariance_counterexample :
    1 ≤ 32 ∧ inputLines sameLinesElsewhere = (inputLines aliasedInput).map trimSpace ∧
      mergeChunks (splitFile aliasedInput 32).1 = some (62, none) ∧
      mergeChunks (splitFile sameLinesElsewhere 32).1 = some (64, none) :=
  ⟨by decide, sameLinesElsewhere_lines.trans aliasedInput_lines.2.2.2.symm, aliasedInput_count,
    sameLinesElsewhere_count⟩

/-- C9 (whitespace trimming), amended: for every input, its trimmed form and
every chunk size of at least 1, when neither of the two files is one of the
chunk files, the pipeline returns the same count on the input and on the input
with every line replaced by its trimmed form; the two lines "  10.0.0.1 " and
"10.0.0.1" are counted as 1. -/
theorem trimming_invariance (input trimmed : File) (chunkSize : Nat) (hc : 1 ≤ chunkSize)
    (hname : NotChunkFile input.name) (hname2 : NotChunkFile trimmed.name)
    (htrim : inputLines trimmed = (inputLines input).map trimSpace) :
    (∃ n, mergeChunks (splitFile input chunkSize).1 = some (n, none) ∧
        mergeChunks (splitFile trimmed chunkSize).1 = some (n, none)) ∧
      mergeChunks (splitFile paddedLines chunkSize).1 = some (1, none) := by
  constructor
  · rw [splitFile_eq input chunkSize hname, splitFile_eq trimmed chunkSize hname2]
    obtain ⟨n, hn⟩ := mergeChunks_returns (partition (inputLines input) chunkSize)
    exact ⟨n, hn, by rw [partition_of_trimmed input trimmed chunkSize htrim]; exact hn⟩
  · rw [splitFile_eq paddedLines chunkSize (notChunkFile_of_head _ (by decide)),
      pipeline_count paddedLines chunkSize hc (by decide)]
    rfl

/-- The two lines "  10.0.0.1 " and "10.0.0.1" and their trimmed forms, chunk size 1. -/
theorem trimming_invariance_witness :
    1 ≤ 1 ∧ NotChunkFile paddedLines.name ∧ NotChunkFile paddedLinesTrimmed.name ∧
      inputLines paddedLinesTrimmed = (inputLines paddedLines).map trimSpace ∧
      mergeChunks (splitFile paddedLines 1).1 = some (1, none) ∧
      mergeChunks (splitFile paddedLinesTrimmed 1).1 = some (1, none) :=
  ⟨by decide, notChunkFile_of_head _ (by decide), notChunkFile_of_head _ (by decide),
    by decide,
    (trimming_invariance paddedLines paddedLinesTrimmed 1 (by decide)
      (notChunkFile_of_head _ (by decide)) (notChunkFile_of_head _ (by decide))
      (by decide)).2,
    by decide!⟩

/-- C10 (merge read failure), as the code behaves: on two chunk files whose
reads fail, one at priming and one while advancing, `mergeChunks` returns the
count 2 and a nil error, and on a chunk file with a line of 65536 bytes, at
which the scanner fails with `bufio.ErrTooLong`, it returns the count 0 and a
nil error; it returns a nil error on every list of chunk files, whereas
`splitFile` returns the error of its scanner: what `Err()` reports in the
state in which its loop ends, which for an input that is none of the chunk
files is the error of the scan of the input, as on an input whose reads fail
after two lines. -/
theorem mergeChunks_ignores_read_error :
    mergeChunks faultyChunks = some (2, none) ∧
      (∀ f ∈ faultyChunks, (NewScanner f).err = some IOError.readFault) ∧
      mergeChunks [writeChunk [longLine] 0] = some (0, none) ∧
      (NewScanner (writeChunk [longLine] 0)).err = some IOError.tooLong ∧
      (∀ chunkFiles : List File, ∃ n, mergeChunks chunkFiles = some (n, none)) ∧
      (∀ (input : File) (chunkSize : Nat),
        ∃ s, splitRun input chunkSize = some s ∧
          (splitFile input chunkSize).2 = s.scanner.Err) ∧
      (∀ (input : File) (chunkSize : Nat), NotChunkFile input.name →
        (splitFile input chunkSize).2 = (NewScanner input).err) ∧
      (splitFile faultyInput 1).2 = some IOError.readFault := by
  refine ⟨by decide, by decide, mergeChunks_longLine 0, (chunkLines_writeChunk_longLine 0).2,
    mergeChunks_returns, ?_, ?_, by decide!⟩
  · intro input chunkSize
    have h := splitRun_isSome input chunkSize
    cases hs : splitRun input chunkSize with
    | none =>
      rw [hs] at h
      simp at h
    | some s =>
      refine ⟨s, rfl, ?_⟩
      unfold splitFile
      rw [hs]
  · intro input chunkSize hname
    rw [splitFile_eq input chunkSize hname]

/-! ## The claims on the merge loop and on the chunk files -/

/-- C11 (sorted merge order): for every list of chunk files whose lines are
ascending and not empty, the lines selected by the successive iterations of
the loop of `mergeChunks` are ascending and are a rearrangement of the lines
of all chunks together: they are these lines in sorted order. -/
theorem merge_selections_sorted (chunkFiles : List File)
    (h : ∀ f ∈ chunkFiles, (chunkLines f).Sorted (· ≤ ·) ∧ [] ∉ chunkLines f) :
    ∃ tr, mergeSelections (mergeFuel (mergeInit chunkFiles).slots) (mergeInit chunkFiles) =
        some tr ∧
      tr.Sorted (· ≤ ·) ∧ tr.Chain' (· ≤ ·) ∧
      tr.Perm ((chunkFiles.map chunkLines).flatten) ∧
      tr = sortStrings ((chunkFiles.map chunkLines).flatten) := by
  have hok : ∀ sl ∈ (mergeInit chunkFiles).slots, SlotOK sl := by
    intro sl hs
    obtain ⟨f, hf, rfl⟩ := List.mem_map.1 hs
    exact slotOK_primed f (h f hf).1
  have hp : pendingLines (mergeInit chunkFiles).slots = (chunkFiles.map chunkLines).flatten :=
    pendingLines_primed chunkFiles (fun f hf => (h f hf).2)
  obtain ⟨tr, htr, hperm, hsorted⟩ := mergeSelections_sorted
    (mergeFuel (mergeInit chunkFiles).slots) (mergeInit chunkFiles)
    (pendingLines_length_lt_mergeFuel _) hok
  rw [hp] at hperm
  exact ⟨tr, htr, hsorted, hsorted.chain', hperm,
    List.eq_of_perm_of_sorted (hperm.trans (sortStrings_perm _).symm) hsorted
      (sortStrings_sorted _)⟩

/-- The selections of the merge of the chunks `[a, b]` and `[a, c]`: a, a, b, c. -/
theorem merge_selections_sorted_witness :
    (∀ f ∈ overlappingChunks, (chunkLines f).Sorted (· ≤ ·) ∧ [] ∉ chunkLines f) ∧
      (∃ tr, mergeSelections (mergeFuel (mergeInit overlappingChunks).slots)
          (mergeInit overlappingChunks) = some tr ∧
        tr.Sorted (· ≤ ·) ∧ tr.Chain' (· ≤ ·) ∧
        tr.Perm ((overlappingChunks.map chunkLines).flatten) ∧
        tr = sortStrings ((overlappingChunks.map chunkLines).flatten)) ∧
      mergeSelections (mergeFuel (mergeInit overlappingChunks).slots)
          (mergeInit overlappingChunks) =
        some [utf8 "a", utf8 "a", utf8 "b", utf8 "c"] :=
  ⟨by decide, merge_selections_sorted overlappingChunks (by decide), by decide⟩

/-- C12 (counter invariant): in every iteration of the loop of `mergeChunks`
that selects a line, `uniqueCount` stays unchanged or grows by exactly 1; it
grows exactly when the selected line differs from `lastLine`, and `lastLine`
then becomes that line, else it is kept.  The count never decreases, also over
the whole loop.  The selected line is never empty, and the loop starts with an
empty `lastLine`, so that the first selected line is always counted. -/
theorem counter_invariant (s s2 : MergeState) (hstep : mergeStep s = some s2)
    (chunkFiles : List File) :
    (s2.uniqueCount = s.uniqueCount ∨ s2.uniqueCount = s.uniqueCount + 1) ∧
      (s2.uniqueCount = s.uniqueCount + 1 ↔ selectedLine s ≠ s.lastLine) ∧
      (selectedLine s ≠ s.lastLine → s2.lastLine = selectedLine s) ∧
      (selectedLine s = s.lastLine → s2.lastLine = s.lastLine) ∧
      s.uniqueCount ≤ s2.uniqueCount ∧
      (∀ (fuel : Nat) (s3 : MergeState), mergeLoop fuel s = some s3 →
        s.uniqueCount ≤ s3.uniqueCount) ∧
      selectedLine s ≠ [] ∧
      (s.lastLine = [] → s2.uniqueCount = s.uniqueCount + 1 ∧ s2.lastLine = selectedLine s) ∧
      (mergeInit chunkFiles).lastLine = [] ∧ (mergeInit chunkFiles).uniqueCount = 0 := by
  rcases mergeStep_select s with ⟨h1, _⟩ | ⟨j, slot, _, hne, hsel, _, _, hs2⟩
  · rw [h1] at hstep
    simp at hstep
  · rw [hs2] at hstep
    have heq := Option.some.inj hstep
    subst heq
    rw [hsel]
    simp only
    refine ⟨?_, ?_, ?_, ?_, ?_, fun fuel s3 h3 => mergeLoop_count_le fuel s s3 h3, hne, ?_,
      rfl, rfl⟩
    · by_cases hl : slot.line = s.lastLine
      · left
        rw [if_neg (not_not.2 hl)]
      · right
        rw [if_pos hl]
    · by_cases hl : slot.line = s.lastLine
      · rw [if_neg (not_not.2 hl)]
        constructor
        · intro h
          omega
        · intro h
          exact absurd hl h
      · rw [if_pos hl]
        exact ⟨fun _ => hl, fun _ => rfl⟩
    · intro _
      trivial
    · intro hl
      exact hl
    · split <;> omega
    · intro hl
      have hl2 : slot.line ≠ s.lastLine := by
        rw [hl]
        exact hne
      rw [if_pos hl2]
      exact ⟨rfl, trivial⟩

/-- The first iteration of the merge of the chunks `[a, b]` and `[a, c]`
counts the line "a". -/
theorem counter_invariant_witness :
    mergeStep (mergeInit overlappingChunks) = some afterFirstStep ∧
      afterFirstStep.uniqueCount = (mergeInit overlappingChunks).uniqueCount + 1 ∧
      afterFirstStep.lastLine = selectedLine (mergeInit overlappingChunks) :=
  ⟨by decide,
    ((counter_invariant (mergeInit overlappingChunks) afterFirstStep (by decide)
      overlappingChunks).2.2.2.2.2.2.2.1 rfl).1,
    ((counter_invariant (mergeInit overlappingChunks) afterFirstStep (by decide)
      overlappingChunks).2.2.2.2.2.2.2.1 rfl).2⟩

/-- C13 (chunk-order and tie-break independence): for every list of ascending
chunk files, `mergeChunks` returns the same count for every reordering of the
list.  An iteration selects the slot of lowest index among those that hold the
selected line: no slot before it holds that line. -/
theorem chunk_order_independence (chunkFiles reordered : List File)
    (hperm : reordered.Perm chunkFiles)
    (hs : ∀ f ∈ chunkFiles, (chunkLines f).Sorted (· ≤ ·)) :
    (∃ n, mergeChunks chunkFiles = some (n, none) ∧ mergeChunks reordered = some (n, none)) ∧
      ∀ s s2 : MergeState, mergeStep s = some s2 →
        ∃ j slot, s.slots[j]? = some slot ∧ slot.line = selectedLine s ∧
          s2.slots = advance s.slots j ∧
          ∀ j2 other, j2 < j → s.slots[j2]? = some other → other.line ≠ selectedLine s := by
  constructor
  · refine ⟨_, mergeChunks_count_sorted chunkFiles hs, ?_⟩
    rw [mergeChunks_count_sorted reordered (fun f hf => hs f (hperm.mem_iff.1 hf))]
    have hp : (((chunksWithoutEmptyLine reordered).map chunkLines).flatten).Perm
        (((chunksWithoutEmptyLine chunkFiles).map chunkLines).flatten) :=
      ((hperm.filter _).map chunkLines).flatten
    rw [List.toFinset_eq_of_perm _ _ hp]
  · intro s s2 hstep
    rcases mergeStep_select s with ⟨h1, _⟩ | ⟨j, slot, hj, hne, hsel, _, hlow, hs2⟩
    · rw [h1] at hstep
      simp at hstep
    · rw [hs2] at hstep
      have heq := Option.some.inj hstep
      subst heq
      refine ⟨j, slot, hj, hsel.symm, rfl, ?_⟩
      intro j2 other hlt ho heq2
      rw [hsel] at heq2
      have hne2 : other.line ≠ [] := by
        rw [heq2]
        exact hne
      have := hlow j2 other hlt ho hne2
      rw [heq2] at this
      exact lt_irrefl _ this

/-- The chunks `[a, b]` and `[a, c]` in both orders give the count 3. -/
theorem chunk_order_independence_witness :
    overlappingChunksSwapped.Perm overlappingChunks ∧
      (∀ f ∈ overlappingChunks, (chunkLines f).Sorted (· ≤ ·)) ∧
      (∃ n, mergeChunks overlappingChunks = some (n, none) ∧
        mergeChunks overlappingChunksSwapped = some (n, none)) ∧
      mergeChunks overlappingChunksSwapped = some (3, none) :=
  ⟨by decide, by decide,
    (chunk_order_independence overlappingChunks overlappingChunksSwapped (by decide)
      (by decide)).1,
    by decide⟩

/-- C14 (merge termination): for every list of chunk files the loop of
`mergeChunks` reaches its `break`, within the fuel `mergeFuel` and with the
same final state for any larger fuel; the loop breaks exactly in a state in
which every slot holds the empty string.  When no chunk holds an empty line,
every iteration that selects a line consumes exactly one pending line, and the
number of such iterations is the total number of lines of all chunks. -/
theorem merge_terminates (chunkFiles : List File) :
    (∃ s2, mergeLoop (mergeFuel (mergeInit chunkFiles).slots) (mergeInit chunkFiles) = some s2 ∧
        (∀ more : Nat, mergeLoop (mergeFuel (mergeInit chunkFiles).slots + more)
          (mergeInit chunkFiles) = some s2) ∧
        mergeStep s2 = none ∧ ∀ slot ∈ s2.slots, slot.line = []) ∧
      (∀ s : MergeState, mergeStep s = none ↔ ∀ slot ∈ s.slots, slot.line = []) ∧
      (∀ (fuel : Nat) (s s2 : MergeState), mergeLoop fuel s = some s2 →
        ∀ slot ∈ s2.slots, slot.line = []) ∧
      (∀ s s2 : MergeState, (∀ sl ∈ s.slots, [] ∉ sl.live) → mergeStep s = some s2 →
        (pendingLines s2.slots).length + 1 = (pendingLines s.slots).length) ∧
      ((∀ f ∈ chunkFiles, [] ∉ chunkLines f) →
        ∃ tr, mergeSelections (mergeFuel (mergeInit chunkFiles).slots)
            (mergeInit chunkFiles) = some tr ∧
          tr.length = (chunkFiles.map (fun f => (chunkLines f).length)).sum) := by
  refine ⟨?_, ?_, ?_, ?_, ?_⟩
  · obtain ⟨s2, hs2, hbreak⟩ := mergeLoop_terminates (mergeFuel (mergeInit chunkFiles).slots)
      (mergeInit chunkFiles) (pendingLines_length_lt_mergeFuel _)
    exact ⟨s2, hs2, mergeLoop_mono _ _ _ hs2, hbreak,
      (mergeLoop_break _ _ _ hs2).2⟩
  · intro s
    rcases mergeStep_select s with ⟨h1, h2⟩ | ⟨j, slot, hj, hne, _, _, _, hstep⟩
    · exact ⟨fun _ => h2, fun _ => h1⟩
    · constructor
      · intro h
        rw [hstep] at h
        simp at h
      · intro h
        exact absurd (h slot (List.getElem?_mem hj)) hne
  · intro fuel s s2 h
    exact (mergeLoop_break fuel s s2 h).2
  · intro s s2 hne hstep
    rcases mergeStep_select s with ⟨h1, _⟩ | ⟨j, slot, hj, hline, _, _, _, hs2⟩
    · rw [h1] at hstep
      simp at hstep
    · rw [hs2] at hstep
      have heq := Option.some.inj hstep
      subst heq
      have hp := (advance_perm_of_not_mem s.slots j slot hj hline hne).1.length_eq
      simp only [List.length_cons] at hp
      exact hp.symm
  · intro hne
    have hok : ∀ sl ∈ (mergeInit chunkFiles).slots, [] ∉ sl.live := by
      intro sl hs
      obtain ⟨f, hf, rfl⟩ := List.mem_map.1 hs
      rw [live_nextLine_of_not_mem (NewScanner f) (hne f hf)]
      exact hne f hf
    have hp : pendingLines (mergeInit chunkFiles).slots = (chunkFiles.map chunkLines).flatten :=
      pendingLines_primed chunkFiles hne
    obtain ⟨tr, htr, hperm⟩ := mergeSelections_perm
      (mergeFuel (mergeInit chunkFiles).slots) (mergeInit chunkFiles)
      (pendingLines_length_lt_mergeFuel _) hok
    refine ⟨tr, htr, ?_⟩
    rw [hperm.length_eq, hp, List.length_flatten, List.map_map]
    rfl

/-- The merge of the chunks `[a, b]` and `[a, c]` selects four lines, one for
each line of the two chunks. -/
theorem merge_terminates_witness :
    (∀ f ∈ overlappingChunks, [] ∉ chunkLines f) ∧
      (∃ tr, mergeSelections (mergeFuel (mergeInit overlappingChunks).slots)
          (mergeInit overlappingChunks) = some tr ∧
        tr.length = (overlappingChunks.map (fun f => (chunkLines f).length)).sum) ∧
      (overlappingChunks.map (fun f => (chunkLines f).length)).sum = 4 :=
  ⟨by decide, (merge_terminates overlappingChunks).2.2.2.2 (by decide), by decide⟩

/-- C15 as stated fails: a line of 65536 letters holds no newline and ends in
no carriage return, yet the chunk file written from it reads back as no line
at all, the scan ending with `bufio.ErrTooLong`. -/
theorem chunk_round_trip_counterexample :
    (∀ l ∈ [longLine], 10 ∉ l ∧ l.getLast? ≠ some 13) ∧
      longLine.length = 65536 ∧
      chunkLines (writeChunk [longLine] 0) = [] ∧
      (NewScanner (writeChunk [longLine] 0)).err = some IOError.tooLong ∧
      chunkLines (writeChunk [longLine] 0) ≠ sortStrings [longLine] := by
  refine ⟨?_, ?_, (chunkLines_writeChunk_longLine 0).1, (chunkLines_writeChunk_longLine 0).2, ?_⟩
  · intro l hl
    rw [List.mem_singleton] at hl
    subst hl
    exact ⟨not_mem_longLine, getLast_longLine⟩
  · unfold longLine
    rw [List.length_replicate]
    rfl
  · rw [(chunkLines_writeChunk_longLine 0).1, sortStrings_singleton]
    exact fun h => List.cons_ne_nil _ _ h.symm

/-- C15 (chunk store round trip), amended: for every list of lines that hold no
newline, end in no carriage return and are shorter than 65536 bytes, the
scanner of `mergeChunks` reads from the file written by `writeChunk` exactly
the sorted list of those lines and ends without error.  The three conditions
hold for all trimmed lines of an input, empty ones included. -/
theorem chunk_round_trip (lines : List Line) (idx : Nat)
    (hnl : ∀ l ∈ lines, 10 ∉ l) (hcr : ∀ l ∈ lines, l.getLast? ≠ some 13)
    (hsz : ∀ l ∈ lines, byteLen l < 65536) (input : File) :
    (NewScanner (writeChunk lines idx)).pending = sortStrings lines ∧
      (NewScanner (writeChunk lines idx)).err = none ∧
      (sortStrings lines).Perm lines ∧ (sortStrings lines).Sorted (· ≤ ·) ∧
      ∀ l ∈ (inputLines input).map trimSpace,
        10 ∉ l ∧ l.getLast? ≠ some 13 ∧ byteLen l < 65536 :=
  ⟨chunkLines_writeChunk lines idx hnl hcr hsz, err_writeChunk lines idx hnl hsz,
    sortStrings_perm lines, sortStrings_sorted lines,
    fun l hl => ⟨trimmedLines_no_newline input l hl, trimmedLines_no_cr input l hl,
      trimmedLines_byteLen input l hl⟩⟩

/-- The lines "b", "" and "a" written by `writeChunk` read back as "", "a", "b". -/
theorem chunk_round_trip_witness :
    (∀ l ∈ [utf8 "b", [], utf8 "a"], 10 ∉ l) ∧
      (∀ l ∈ [utf8 "b", [], utf8 "a"], l.getLast? ≠ some 13) ∧
      (∀ l ∈ [utf8 "b", [], utf8 "a"], byteLen l < 65536) ∧
      (NewScanner (writeChunk [utf8 "b", [], utf8 "a"] 0)).pending =
        [[], utf8 "a", utf8 "b"] :=
  ⟨by decide, by decide, by decide,
    (chunk_round_trip [utf8 "b", [], utf8 "a"] 0 (by decide) (by decide) (by decide)
      blankMiddle).1.trans (by decide)⟩

/-- C16 as stated fails in its consequence for the pipeline: the input
`aliasedEqualLines`, stored under the name `chunk_0.txt`, holds one line 70
times, so that one distinct trimmed line is not empty, yet with chunk size 32
the count is 2: the first chunk file truncates the input while the scanner
holds its first 4096 bytes, which end 16 bytes into a line, and these 16
bytes are delivered as a line of their own. -/
theorem empty_line_effect_counterexample :
    ((((inputLines aliasedEqualLines).map trimSpace).toFinset).erase []).card = 1 ∧
      mergeChunks (splitFile aliasedEqualLines 32).1 = some (2, none) ∧
      ¬ ∃ n, mergeChunks (splitFile aliasedEqualLines 32).1 = some (n, none) ∧
        n ≤ ((((inputLines aliasedEqualLines).map trimSpace).toFinset).erase []).card := by
  have h1 : ((((inputLines aliasedEqualLines).map trimSpace).toFinset).erase []).card = 1 := by
    decide!
  have h2 : mergeChunks (splitFile aliasedEqualLines 32).1 = some (2, none) := by
    decide!
  refine ⟨h1, h2, ?_⟩
  rintro ⟨n, hn, hle⟩
  rw [h2] at hn
  rw [h1] at hle
  simp only [Option.some.injEq, Prod.mk.injEq, and_true] at hn
  omega

/-- C16 (effect of empty lines), amended: for every list of ascending chunk
files, `mergeChunks` returns the number of distinct lines of the chunks that
hold no empty line; a chunk that holds an empty line is primed with the empty
string, which the loop reads as exhausted.  For every input that is none of
the chunk files and every chunk size, the count is at most the number of
distinct trimmed lines that are not empty, and it is 0 when the input has a
blank line and the chunk size is at least the number of its lines. -/
theorem empty_line_effect (chunkFiles : List File)
    (hs : ∀ f ∈ chunkFiles, (chunkLines f).Sorted (· ≤ ·)) (input : File) (chunkSize : Nat)
    (hname : NotChunkFile input.name) :
    mergeChunks chunkFiles =
        some ((((chunkFiles.filter (fun f => decide ([] ∉ chunkLines f))).map
          chunkLines).flatten).toFinset.card, none) ∧
      (∀ f ∈ chunkFiles, [] ∈ chunkLines f →
        (nextLine (NewScanner f)).line = [] ∧ (nextLine (NewScanner f)).live = []) ∧
      (∃ n, mergeChunks (splitFile input chunkSize).1 = some (n, none) ∧
        n ≤ ((((inputLines input).map trimSpace).toFinset).erase []).card) ∧
      ((∃ l ∈ inputLines input, trimSpace l = []) → (inputLines input).length ≤ chunkSize →
        mergeChunks (splitFile input chunkSize).1 = some (0, none)) := by
  rw [splitFile_eq input chunkSize hname]
  simp only
  refine ⟨mergeChunks_count_sorted chunkFiles hs, ?_, ?_, ?_⟩
  · intro f hf hmem
    refine ⟨line_primed_of_mem f (hs f hf) hmem, ?_⟩
    rw [live_primed f (hs f hf), if_pos hmem]
  · refine ⟨_, mergeChunks_count_sorted _
      (fun f hf => (partition_chunk input chunkSize f hf).1), ?_⟩
    apply Finset.card_le_card
    intro x hx
    rw [List.mem_toFinset, List.mem_flatten] at hx
    obtain ⟨l, hl, hxl⟩ := hx
    obtain ⟨f, hf, rfl⟩ := List.mem_map.1 hl
    obtain ⟨hf1, hf2⟩ := List.mem_filter.1 hf
    simp only [decide_eq_true_eq] at hf2
    rw [Finset.mem_erase, List.mem_toFinset]
    constructor
    · intro h0
      rw [h0] at hxl
      exact hf2 hxl
    · exact (partition_chunk input chunkSize f hf1).2 x hxl
  · rintro ⟨l, hl, hblank⟩ hle
    have hpos : 1 ≤ (inputLines input).length := List.length_pos_of_mem hl
    have hmap := chunkLines_partition_single input chunkSize hpos hle
    have hmem : ([] : Line) ∈ sortStrings (trimmedLines input) := by
      apply (sortStrings_perm _).mem_iff.2
      exact List.mem_map.2 ⟨l, hl, hblank⟩
    rw [mergeChunks_count_sorted _ (fun f hf => (partition_chunk input chunkSize f hf).1)]
    have hnil : chunksWithoutEmptyLine (partition (inputLines input) chunkSize) = [] := by
      apply List.eq_nil_iff_forall_not_mem.2
      intro f hf
      obtain ⟨hf1, hf2⟩ := List.mem_filter.1 hf
      simp only [decide_eq_true_eq] at hf2
      have hin : chunkLines f ∈ (partition (inputLines input) chunkSize).map chunkLines :=
        List.mem_map_of_mem _ hf1
      rw [hmap, List.mem_singleton] at hin
      rw [hin] at hf2
      exact hf2 hmem
    rw [hnil]
    rfl

/-- The chunks `["", a]` and `[b]` give the count 1: only the line "b" of the
chunk without empty line is counted. -/
theorem empty_line_effect_witness :
    (∀ f ∈ chunksWithBlank, (chunkLines f).Sorted (· ≤ ·)) ∧ NotChunkFile blankMiddle.name ∧
      mergeChunks chunksWithBlank = some (1, none) ∧
      mergeChunks (splitFile blankMiddle 3).1 = some (0, none) :=
  ⟨by decide, notChunkFile_of_head _ (by decide),
    ((empty_line_effect chunksWithBlank (by decide) blankMiddle 3
      (notChunkFile_of_head _ (by decide))).1).trans (by decide),
    (empty_line_effect chunksWithBlank (by decide) blankMiddle 3
      (notChunkFile_of_head _ (by decide))).2.2.2 (by decide) (by decide)⟩

/-- C17 as stated fails in its description of the chunk list: the input
`aliasedInput`, stored under the name `chunk_0.txt`, has 66 lines, and with
chunk size 0, as with chunk size 1, `splitFile` writes 64 chunk files. -/
theorem chunk_size_zero_counterexample :
    (inputLines aliasedInput).length = 66 ∧
      (splitFile aliasedInput 0).1.length = 64 ∧
      (splitFile aliasedInput 1).1.length = 64 ∧
      (splitFile aliasedInput 0).1.length ≠ (inputLines aliasedInput).length := by
  have h0 : (splitFile aliasedInput 0).1.length = 64 := by
    decide!
  have h1 : (splitFile aliasedInput 1).1.length = 64 := by
    rw [← splitFile_zero]
    exact h0
  refine ⟨aliasedInput_lines.1, h0, h1, ?_⟩
  rw [h0, aliasedInput_lines.1]
  decide

/-- C17 (degenerate chunk size), amended: for every input, `splitFile` with
chunk size 0 returns exactly what it returns with chunk size 1; when the input
is none of the chunk files, this is one chunk file for each input line,
holding that line trimmed. -/
theorem chunk_size_zero (input : File) :
    splitFile input 0 = splitFile input 1 ∧
      (NotChunkFile input.name →
        (splitFile input 0).1.length = (inputLines input).length ∧
        (splitFile input 0).1.map chunkLines =
          ((inputLines input).map trimSpace).map (fun l => [l])) := by
  refine ⟨splitFile_zero input, ?_⟩
  intro hname
  have hn : (trimmedLines input).length = (inputLines input).length := by
    simp [trimmedLines]
  have hlines : (splitFile input 1).1.map chunkLines =
      (trimmedLines input).map (fun l => [l]) := by
    rw [splitFile_eq input 1 hname]
    simp only
    rw [chunkLines_partition input 1 (le_refl 1), chunkCount_one]
    exact slices_one (trimmedLines input)
  constructor
  · have hlen := congrArg List.length hlines
    simp only [List.length_map] at hlen
    rw [splitFile_zero, hlen, hn]
  · rw [splitFile_zero]
    exact hlines

/-- The three-line input with chunk size 0: three chunk files of one line each. -/
theorem chunk_size_zero_witness :
    NotChunkFile threeLines.name ∧ (splitFile threeLines 0).1.length = 3 ∧
      (splitFile threeLines 0).1.map chunkLines = [[utf8 "b"], [utf8 "a"], [utf8 "c"]] :=
  ⟨notChunkFile_of_head _ (by decide),
    ((chunk_size_zero threeLines).2 (notChunkFile_of_head _ (by decide))).1.trans (by decide),
    ((chunk_size_zero threeLines).2 (notChunkFile_of_head _ (by decide))).2.trans (by decide)⟩

end UniqueIPs
